import Mathlib

/-!
Verification of the collation-extractor core against its specification.

The Go sources are shallowly embedded: each Go function becomes a Lean
function over explicit state; fallible operations (panics, nil
dereferences, out-of-bounds indexing, division by zero) return `Option`,
with `none` marking the abnormal outcome.
-/

set_option maxHeartbeats 1000000

namespace CollationExtractor

/-! ## UTF8Iter (src/utils/utf8_iterator.go) -/

/-- State of the Go `UTF8Iter`: the current rune `r`, the number of values
emitted so far `count`, and the configured `limit`. -/
structure UTF8Iter where
  r : Int
  count : Int
  limit : Int
deriving DecidableEq

/-- Go `utf8.MaxRune`. -/
def utf8MaxRune : Int := 0x10FFFF

/-- Go `NewUTF8Iter`: starts at rune 0 with `math.MaxInt32` as the limit. -/
def NewUTF8Iter : UTF8Iter := ⟨0, 0, 2147483647⟩

/-- Go `(*UTF8Iter).Next`: returns the yielded `(rune, found)` pair together
with the successor iterator state.  When the cursor sits in the surrogate
block it is bumped to `0xE000` before being yielded and incremented. -/
def Next (iter : UTF8Iter) : (Int × Bool) × UTF8Iter :=
  if iter.limit ≤ iter.count then ((0, false), iter)
  else if utf8MaxRune < iter.r then ((0, false), iter)
  else if 0xD800 ≤ iter.r ∧ iter.r ≤ 0xDFFF then
    ((0xE000, true), ⟨0xE001, iter.count + 1, iter.limit⟩)
  else
    ((iter.r, true), ⟨iter.r + 1, iter.count + 1, iter.limit⟩)

/-- Go `(*UTF8Iter).SetIteratorLimit`. -/
def SetIteratorLimit (iter : UTF8Iter) (limit : Int) : UTF8Iter :=
  { iter with limit := limit }

/-- Go `(*UTF8Iter).Reset`: zeroes the rune cursor and the count. -/
def Reset (iter : UTF8Iter) : UTF8Iter :=
  ⟨0, 0, iter.limit⟩

/-- The iterator state after `k` calls to `Next`. -/
def runIter (s : UTF8Iter) : Nat → UTF8Iter
  | 0 => s
  | k + 1 => (Next (runIter s k)).2

/-- The result of the `(k+1)`-st call to `Next` starting from state `s`. -/
def nthOut (s : UTF8Iter) (k : Nat) : Int × Bool :=
  (Next (runIter s k)).1

/-- Number of valid scalar code points: `0x110000 - 0x800` surrogates. -/
def numValid : Nat := 1112064

/-- The code point yielded by the `(k+1)`-st successful call. -/
def yieldVal (k : Nat) : Int :=
  if k < 0xD800 then (k : Int) else (k : Int) + 0x800

/-- The rune cursor after `k` successful calls. -/
def curRune (k : Nat) : Int :=
  if k ≤ 0xD800 then (k : Int) else (k : Int) + 0x800

lemma next_stuck_limit (s : UTF8Iter) (h : s.limit ≤ s.count) :
    Next s = ((0, false), s) := by
  simp [Next, h]

lemma next_stuck_max (s : UTF8Iter) (h : utf8MaxRune < s.r) (h2 : ¬ s.limit ≤ s.count) :
    Next s = ((0, false), s) := by
  simp [Next, h, h2]

lemma runIter_stuck (s : UTF8Iter) (h : Next s = ((0, false), s)) :
    ∀ k, runIter s k = s := by
  intro k
  induction k with
  | zero => rfl
  | succ k ih => simp [runIter, ih, h]

lemma runIter_limit_inv (s : UTF8Iter) (k : Nat) :
    (runIter s k).limit = s.limit := by
  induction k with
  | zero => rfl
  | succ k ih =>
    simp only [runIter]
    unfold Next
    split
    · exact ih
    · split
      · exact ih
      · split <;> exact ih

/-- Core state characterization: starting from `⟨0, 0, L⟩`, after `k` steps
(with `k` below both the limit and the number of valid code points) the
state is `⟨curRune k, k, L⟩`. -/
lemma runIter_state (L : Int) (k : Nat) (hk : k ≤ numValid) (hkL : (k : Int) ≤ L) :
    runIter ⟨0, 0, L⟩ k = ⟨curRune k, k, L⟩ := by
  induction k with
  | zero => simp [runIter, curRune]
  | succ k ih =>
    have hk' : k ≤ numValid := Nat.le_of_succ_le hk
    have hkL' : (k : Int) ≤ L := by
      have : ((k : Int)) + 1 ≤ L := by exact_mod_cast hkL
      omega
    have hstate := ih hk' hkL'
    simp only [runIter, hstate]
    unfold Next
    have hcount : ¬ (L ≤ (k : Int)) := by
      have : ((k : Int)) + 1 ≤ L := by exact_mod_cast hkL
      omega
    have hknum : k < numValid := by
      rcases Nat.lt_or_ge k numValid with h | h
      · exact h
      · exfalso; omega
    have hmax : ¬ (utf8MaxRune < curRune k) := by
      unfold curRune utf8MaxRune
      split <;> rename_i hsplit
      · omega
      · have : k ≤ 1112063 := by
          unfold numValid at hknum; omega
        omega
    rw [if_neg hcount, if_neg hmax]
    by_cases hsur : (0xD800 : Int) ≤ curRune k ∧ curRune k ≤ 0xDFFF
    · -- surrogate adjustment: happens exactly when k = 0xD800
      have hke : k = 0xD800 := by
        rcases hsur with ⟨h1, h2⟩
        unfold curRune at h1 h2
        split at h1 <;> split at h2 <;> omega
      subst hke
      rw [if_pos hsur]
      simp only [UTF8Iter.mk.injEq]
      norm_num [curRune]
    · rw [if_neg hsur]
      have hkne : k ≠ 0xD800 := by
        intro hke
        subst hke
        exact hsur (by unfold curRune; norm_num)
      have hr : curRune k + 1 = curRune (k + 1) := by
        unfold curRune
        by_cases hlt : k ≤ 0xD800
        · rw [if_pos hlt, if_pos (by omega : k + 1 ≤ 0xD800)]
          push_cast; ring
        · rw [if_neg hlt, if_neg (by omega : ¬ (k + 1 ≤ 0xD800))]
          push_cast; ring
      simp only [UTF8Iter.mk.injEq]
      refine ⟨hr, by push_cast; ring, trivial⟩

lemma runIter_add (s : UTF8Iter) (a b : Nat) :
    runIter s (a + b) = runIter (runIter s a) b := by
  induction b with
  | zero => rfl
  | succ b ih => simp [runIter, ih]

lemma next_stuck (s : UTF8Iter) (h : s.limit ≤ s.count ∨ utf8MaxRune < s.r) :
    Next s = ((0, false), s) := by
  unfold Next
  rcases h with h | h
  · rw [if_pos h]
  · by_cases h2 : s.limit ≤ s.count
    · rw [if_pos h2]
    · rw [if_neg h2, if_pos h]

/-- A successful output: below both the limit and the valid count, the
`(k+1)`-st call yields `(yieldVal k, true)`. -/
lemma nthOut_valid (L : Int) (k : Nat) (hk : k < numValid) (hkL : (k : Int) < L) :
    nthOut ⟨0, 0, L⟩ k = (yieldVal k, true) := by
  unfold nthOut
  rw [runIter_state L k (Nat.le_of_lt hk) (le_of_lt hkL)]
  unfold Next
  have hcount : ¬ (L ≤ (k : Int)) := by omega
  have hmax : ¬ (utf8MaxRune < curRune k) := by
    unfold curRune utf8MaxRune
    split
    · omega
    · have : k ≤ 1112063 := by unfold numValid at hk; omega
      omega
  rw [if_neg hcount, if_neg hmax]
  by_cases hsur : (0xD800 : Int) ≤ curRune k ∧ curRune k ≤ 0xDFFF
  · have hke : k = 0xD800 := by
      rcases hsur with ⟨h1, h2⟩
      unfold curRune at h1 h2
      split at h1 <;> split at h2 <;> omega
    subst hke
    rw [if_pos hsur]
    norm_num [yieldVal]
  · rw [if_neg hsur]
    have hkne : k ≠ 0xD800 := by
      intro hke
      subst hke
      exact hsur (by unfold curRune; norm_num)
    have : curRune k = yieldVal k := by
      unfold curRune yieldVal
      by_cases hlt : k < 0xD800
      · rw [if_pos (Nat.le_of_lt hlt), if_pos hlt]
      · rw [if_neg (by omega : ¬ k ≤ 0xD800), if_neg hlt]
    rw [this]

/-- Exhaustion: past the limit, or past the final valid code point, every
call returns `(0, false)`. -/
lemma nthOut_false (L : Int) (k : Nat) (h : L ≤ (k : Int) ∨ numValid ≤ k) :
    nthOut ⟨0, 0, L⟩ k = (0, false) := by
  classical
  set K : Nat := min (max L 0).toNat numValid with hKdef
  have hKnum : K ≤ numValid := Nat.min_le_right _ _
  have hKstate : runIter ⟨0, 0, L⟩ K = ⟨curRune K, K, L⟩ := by
    by_cases hL : 0 ≤ L
    · refine runIter_state L K hKnum ?_
      have h1 : K ≤ (max L 0).toNat := Nat.min_le_left _ _
      have h2 : ((max L 0).toNat : Int) = max L 0 := Int.toNat_of_nonneg (le_max_right _ _)
      have : (K : Int) ≤ ((max L 0).toNat : Int) := by exact_mod_cast h1
      rw [h2] at this
      omega
    · have hK0 : K = 0 := by
        have : (max L 0).toNat = 0 := by
          have : max L 0 = 0 := by omega
          simp [this]
        simp [hKdef, this]
      rw [hK0]
      simp [runIter, curRune]
  have hstuck : Next (⟨curRune K, K, L⟩ : UTF8Iter) = ((0, false), ⟨curRune K, K, L⟩) := by
    apply next_stuck
    rcases Nat.lt_or_ge K numValid with hKlt | hKge
    · -- K < numValid: forced K = (max L 0).toNat, so the limit binds
      left
      have hKeq : K = (max L 0).toNat := by
        rcases Nat.lt_or_ge ((max L 0).toNat) numValid with hc | hc
        · simp [hKdef, Nat.min_eq_left (Nat.le_of_lt hc)]
        · exfalso
          have : K = numValid := by simp [hKdef, Nat.min_eq_right hc]
          omega
      show L ≤ (K : Int)
      rw [hKeq]
      have h2 : ((max L 0).toNat : Int) = max L 0 := Int.toNat_of_nonneg (le_max_right _ _)
      rw [h2]
      exact le_max_left _ _
    · -- K = numValid: the cursor is past MaxRune
      right
      have hKeq : K = numValid := le_antisymm hKnum hKge
      show utf8MaxRune < curRune K
      rw [hKeq]
      unfold curRune utf8MaxRune numValid
      norm_num
  have hKk : K ≤ k := by
    rcases h with h | h
    · have h1 : K ≤ (max L 0).toNat := Nat.min_le_left _ _
      have h2 : (max L 0).toNat ≤ k := by
        have : max L 0 ≤ (k : Int) := by
          rcases le_or_lt 0 L with hL | hL
          · rw [max_eq_left hL]; exact h
          · rw [max_eq_right (le_of_lt hL)]; exact_mod_cast Nat.zero_le k
        omega
      omega
    · exact le_trans hKnum h
  obtain ⟨m, hm⟩ : ∃ m, k = K + m := ⟨k - K, by omega⟩
  unfold nthOut
  rw [hm, runIter_add, hKstate, runIter_stuck _ hstuck]
  rw [hstuck]

lemma yieldVal_strictMono {j k : Nat} (h : j < k) : yieldVal j < yieldVal k := by
  unfold yieldVal
  split <;> split <;> omega

/-- Claim C3: the fresh codepoint iterator yields every valid code point
exactly once, in strictly ascending order, never yields a surrogate, and
returns `found = false` on every call after the last valid code point. -/
theorem utf8_iterator_enumerates (c : Int)
    (hc : 0 ≤ c ∧ c ≤ 0x10FFFF ∧ ¬(0xD800 ≤ c ∧ c ≤ 0xDFFF)) :
    (∃! k : Nat, nthOut NewUTF8Iter k = (c, true)) ∧
    (∀ j k : Nat, j < k → (nthOut NewUTF8Iter k).2 = true →
        (nthOut NewUTF8Iter j).1 < (nthOut NewUTF8Iter k).1) ∧
    (∀ k : Nat, ¬(0xD800 ≤ (nthOut NewUTF8Iter k).1 ∧ (nthOut NewUTF8Iter k).1 ≤ 0xDFFF)) ∧
    (∀ k : Nat, numValid ≤ k → nthOut NewUTF8Iter k = (0, false)) := by
  obtain ⟨hc0, hcm, hcs⟩ := hc
  have hNew : NewUTF8Iter = (⟨0, 0, 2147483647⟩ : UTF8Iter) := rfl
  have hvalid : ∀ k : Nat, k < numValid → nthOut NewUTF8Iter k = (yieldVal k, true) := by
    intro k hk
    rw [hNew]
    refine nthOut_valid _ k hk ?_
    have : k < 1112064 := by unfold numValid at hk; omega
    omega
  have hfalse : ∀ k : Nat, numValid ≤ k → nthOut NewUTF8Iter k = (0, false) := by
    intro k hk
    rw [hNew]
    exact nthOut_false _ k (Or.inr hk)
  refine ⟨?_, ?_, ?_, hfalse⟩
  · -- existence and uniqueness
    have hcset : c < 0xD800 ∨ 0xE000 ≤ c := by omega
    refine ⟨if c < 0xD800 then c.toNat else c.toNat - 0x800, ?_, ?_⟩
    · show nthOut NewUTF8Iter _ = (c, true)
      by_cases hlt : c < 0xD800
      · rw [if_pos hlt]
        have hk : c.toNat < numValid := by unfold numValid; omega
        rw [hvalid _ hk]
        have : yieldVal c.toNat = c := by
          unfold yieldVal
          rw [if_pos (by omega : c.toNat < 0xD800)]
          omega
        rw [this]
      · rw [if_neg hlt]
        have hge : 0xE000 ≤ c := by omega
        have hk : c.toNat - 0x800 < numValid := by unfold numValid; omega
        rw [hvalid _ hk]
        have : yieldVal (c.toNat - 0x800) = c := by
          unfold yieldVal
          rw [if_neg (by omega : ¬ c.toNat - 0x800 < 0xD800)]
          omega
        rw [this]
    · intro k' hk'
      have hklt : k' < numValid := by
        by_contra hge
        rw [hfalse k' (by omega)] at hk'
        have : (0 : Int) = c := congrArg Prod.fst hk'
        have hb : (true : Bool) = false := (congrArg Prod.snd hk').symm
        exact Bool.noConfusion hb
      rw [hvalid _ hklt] at hk'
      have hyv : yieldVal k' = c := congrArg Prod.fst hk'
      unfold yieldVal at hyv
      by_cases hlt : c < 0xD800
      · rw [if_pos hlt]
        split at hyv <;> omega
      · rw [if_neg hlt]
        split at hyv <;> omega
  · -- strictly ascending among yielded values
    intro j k hjk htrue
    have hk : k < numValid := by
      by_contra hge
      rw [hfalse k (by omega)] at htrue
      exact Bool.noConfusion htrue
    have hj : j < numValid := lt_trans hjk hk
    rw [hvalid _ hj, hvalid _ hk]
    exact yieldVal_strictMono hjk
  · -- no surrogate ever yielded
    intro k
    rcases Nat.lt_or_ge k numValid with hk | hk
    · rw [hvalid _ hk]
      unfold yieldVal
      split <;> (intro hcon; omega)
    · rw [hfalse _ hk]
      intro hcon
      omega

/-- Witness for C3 at the concrete code point `97`. -/
theorem utf8_iterator_enumerates_witness :
    ((0 : Int) ≤ 97 ∧ (97 : Int) ≤ 0x10FFFF ∧ ¬((0xD800 : Int) ≤ 97 ∧ (97 : Int) ≤ 0xDFFF)) ∧
    ((∃! k : Nat, nthOut NewUTF8Iter k = (97, true)) ∧
     (∀ j k : Nat, j < k → (nthOut NewUTF8Iter k).2 = true →
        (nthOut NewUTF8Iter j).1 < (nthOut NewUTF8Iter k).1) ∧
     (∀ k : Nat, ¬(0xD800 ≤ (nthOut NewUTF8Iter k).1 ∧ (nthOut NewUTF8Iter k).1 ≤ 0xDFFF)) ∧
     (∀ k : Nat, numValid ≤ k → nthOut NewUTF8Iter k = (0, false))) :=
  ⟨by norm_num, utf8_iterator_enumerates 97 (by norm_num)⟩

/-- Claim C10: `Reset` zeroes only the cursor and the count, keeping a
previously configured limit; after a reset the iterator restarts from code
point 0 and yields up to `n` values before reporting `found = false`. -/
theorem utf8_reset_restarts_with_limit (n : Int) (k j : Nat) :
    Reset (runIter (SetIteratorLimit NewUTF8Iter n) k) = ⟨0, 0, n⟩ ∧
    yieldVal 0 = 0 ∧
    ((j : Int) < n → j < numValid → nthOut ⟨0, 0, n⟩ j = (yieldVal j, true)) ∧
    ((n ≤ (j : Int) ∨ numValid ≤ j) → nthOut ⟨0, 0, n⟩ j = (0, false)) := by
  refine ⟨?_, rfl, fun h1 h2 => nthOut_valid n j h2 h1, fun h => nthOut_false n j h⟩
  unfold Reset
  rw [runIter_limit_inv]
  rfl

/-- Witness for C10 at `n = 2`, exercising both the yielding and the
exhausted branches after a reset. -/
theorem utf8_reset_restarts_with_limit_witness :
    Reset (runIter (SetIteratorLimit NewUTF8Iter 2) 3) = ⟨0, 0, 2⟩ ∧
    nthOut ⟨0, 0, 2⟩ 1 = (yieldVal 1, true) ∧
    nthOut ⟨0, 0, 2⟩ 5 = (0, false) :=
  ⟨(utf8_reset_restarts_with_limit 2 3 1).1,
   (utf8_reset_restarts_with_limit 2 3 1).2.2.1 (by norm_num) (by norm_num [numValid]),
   (utf8_reset_restarts_with_limit 2 3 5).2.2.2 (Or.inl (by norm_num))⟩

/-! ## RangeMapConstructor (range-map constructor source appended to src/README.md) -/

/-- A byte sequence; in well-formed data every element is `< 256`. -/
abbrev ByteSeq := List Nat

/-- Go `[2]byte` bounds for one byte position: `(min, max)`. -/
abbrev Bound := Nat × Nat

/-- Go `rangeBounds`: per-position `(min, max)` bounds. -/
abbrev RangeBounds := List Bound

/-- Go `rangeBounds.boundsContains`: the right bounds lie within the left. -/
def boundsContains (l r : Bound) : Bool :=
  decide (l.1 ≤ r.1) && decide (r.2 ≤ l.2)

/-- Go `rangeBounds.boundsAdjacent`: byte arithmetic wraps mod 256. -/
def boundsAdjacent (l r : Bound) : Bool :=
  ((l.2 + 1) % 256 == r.1 && l.2 != 255) || ((r.2 + 1) % 256 == l.1 && r.2 != 255)

/-- Go `rangeBounds.boundsMinMax`. -/
def boundsMinMax (l r : Bound) : Bound :=
  (min l.1 r.1, max l.2 r.2)

/-- Go `rangeBounds.contains`; `none` models the index-out-of-range panic
when `data` is shorter than the bounds. -/
def containsRB : RangeBounds → ByteSeq → Option Bool
  | [], _ => some true
  | _ :: _, [] => none
  | b :: bs, d :: ds =>
    if d < b.1 || b.2 < d then some false else containsRB bs ds

/-- Inner loop of Go `rangeBounds.differences` (only ever called on
equal-length bounds): counts adjacent-but-not-contained positions and
returns 2 as soon as some position is neither contained nor adjacent. -/
def differencesLoop : RangeBounds → RangeBounds → Nat → Nat
  | [], _, acc => acc
  | _ :: _, [], acc => acc
  | l :: ls, r :: rs, acc =>
    if boundsContains l r then differencesLoop ls rs acc
    else if boundsAdjacent l r then differencesLoop ls rs (acc + 1)
    else 2

/-- Go `rangeBounds.differences`. -/
def differences (r other : RangeBounds) : Nat :=
  if r.length ≠ other.length then 2 else differencesLoop r other 0

/-- Go `rangeBounds.merge`: extend to the per-position union. -/
def merge (r other : RangeBounds) : RangeBounds :=
  List.zipWith boundsMinMax r other

/-- One (input, output) pair of ranges held by the constructor. -/
abbrev RangePair := RangeBounds × RangeBounds

def mergePair (l c : RangePair) : RangePair :=
  (merge l.1 c.1, merge l.2 c.2)

/-- One pass of Go `consolidateRanges`, processing the remaining pairs
against the most recently kept (and possibly merged) pair `last`.  Returns
the consolidated pairs from `last` onward and whether any merge occurred. -/
def consolidatePassAux (last : RangePair) : List RangePair → List RangePair × Bool
  | [] => ([last], false)
  | c :: cs =>
    if differences last.1 c.1 ≤ 1 ∧ differences last.2 c.2 ≤ 1 then
      ((consolidatePassAux (mergePair last c) cs).1, true)
    else
      (last :: (consolidatePassAux c cs).1, (consolidatePassAux c cs).2)

/-- One full pass over the pair list. -/
def consolidatePass : List RangePair → List RangePair × Bool
  | [] => ([], false)
  | p :: ps => consolidatePassAux p ps

/-- The pass loop with explicit fuel; `consolidation_terminates` shows
fuel `l.length + 1` always suffices. -/
def consolidateLoop : Nat → List RangePair → List RangePair
  | 0, l => l
  | f + 1, l =>
    if (consolidatePass l).2 then consolidateLoop f (consolidatePass l).1
    else (consolidatePass l).1

/-- Go `consolidateRanges`: repeat passes until one performs no merge. -/
def consolidateRanges (l : List RangePair) : List RangePair :=
  consolidateLoop (l.length + 1) l

lemma consolidatePassAux_length (last : RangePair) (cs : List RangePair) :
    (consolidatePassAux last cs).1.length ≤ cs.length + 1 ∧
      ((consolidatePassAux last cs).2 = true →
        (consolidatePassAux last cs).1.length ≤ cs.length) ∧
      1 ≤ (consolidatePassAux last cs).1.length := by
  induction cs generalizing last with
  | nil => simp [consolidatePassAux]
  | cons c cs ih =>
    unfold consolidatePassAux
    by_cases h : differences last.1 c.1 ≤ 1 ∧ differences last.2 c.2 ≤ 1
    · rw [if_pos h]
      obtain ⟨h1, _, h3⟩ := ih (mergePair last c)
      exact ⟨by simpa using Nat.le_succ_of_le h1, fun _ => h1, h3⟩
    · rw [if_neg h]
      obtain ⟨h1, h2, h3⟩ := ih c
      refine ⟨by simpa using h1, ?_, by simp⟩
      intro hch
      have := h2 hch
      simpa using Nat.succ_le_succ this

lemma consolidatePassAux_unchanged (last : RangePair) (cs : List RangePair)
    (h : (consolidatePassAux last cs).2 = false) :
    (consolidatePassAux last cs).1 = last :: cs := by
  induction cs generalizing last with
  | nil => simp [consolidatePassAux]
  | cons c cs ih =>
    unfold consolidatePassAux at h ⊢
    by_cases hd : differences last.1 c.1 ≤ 1 ∧ differences last.2 c.2 ≤ 1
    · rw [if_pos hd] at h
      simp at h
    · rw [if_neg hd] at h ⊢
      show last :: (consolidatePassAux c cs).1 = last :: c :: cs
      rw [ih c (by simpa using h)]

lemma consolidatePass_length (l : List RangePair) :
    (consolidatePass l).1.length ≤ l.length ∧
      ((consolidatePass l).2 = true → (consolidatePass l).1.length < l.length) ∧
      (l ≠ [] → 1 ≤ (consolidatePass l).1.length) := by
  cases l with
  | nil => simp [consolidatePass]
  | cons p ps =>
    obtain ⟨h1, h2, h3⟩ := consolidatePassAux_length p ps
    refine ⟨by simpa using h1, ?_, fun _ => by simpa [consolidatePass] using h3⟩
    intro hch
    have := h2 hch
    simp only [consolidatePass, List.length_cons]
    omega

lemma consolidatePass_unchanged (l : List RangePair)
    (h : (consolidatePass l).2 = false) : (consolidatePass l).1 = l := by
  cases l with
  | nil => rfl
  | cons p ps => exact consolidatePassAux_unchanged p ps h

lemma consolidateLoop_fix (f : Nat) (l : List RangePair) (hf : l.length < f) :
    (consolidatePass (consolidateLoop f l)).2 = false := by
  induction f generalizing l with
  | zero => omega
  | succ f ih =>
    unfold consolidateLoop
    by_cases hch : (consolidatePass l).2
    · rw [if_pos hch]
      apply ih
      have := (consolidatePass_length l).2.1 hch
      omega
    · rw [if_neg hch]
      rw [consolidatePass_unchanged l (by simpa using hch)]
      simpa using hch

lemma consolidateLoop_ne_nil (f : Nat) (l : List RangePair) (hl : l ≠ []) :
    consolidateLoop f l ≠ [] := by
  induction f generalizing l with
  | zero => simpa [consolidateLoop]
  | succ f ih =>
    unfold consolidateLoop
    have hpos := (consolidatePass_length l).2.2 hl
    by_cases hch : (consolidatePass l).2
    · rw [if_pos hch]
      apply ih
      intro hcon
      rw [hcon] at hpos
      simp at hpos
    · rw [if_neg hch]
      intro hcon
      rw [hcon] at hpos
      simp at hpos

/-- Claim C9: range consolidation terminates: a pass that merges strictly
shrinks the pair list, a pass never grows it, the list stays nonempty, and
the fuel `l.length + 1` used by `consolidateRanges` reaches a pass with no
merge (the Go loop exit condition). -/
theorem consolidation_terminates (l : List RangePair) :
    ((consolidatePass l).2 = true → (consolidatePass l).1.length < l.length) ∧
    (consolidatePass l).1.length ≤ l.length ∧
    (l ≠ [] → 1 ≤ (consolidateRanges l).length) ∧
    (consolidatePass (consolidateRanges l)).2 = false := by
  refine ⟨(consolidatePass_length l).2.1, (consolidatePass_length l).1, ?_, ?_⟩
  · intro hl
    have := consolidateLoop_ne_nil (l.length + 1) l hl
    unfold consolidateRanges
    cases hres : consolidateLoop (l.length + 1) l with
    | nil => exact absurd hres this
    | cons a as => simp
  · unfold consolidateRanges
    exact consolidateLoop_fix (l.length + 1) l (Nat.lt_succ_self _)

/-- Witness for C9 on a concrete three-pair list that needs two passes. -/
theorem consolidation_terminates_witness :
    (([([(0,0)],[(0,0)]), ([(1,1)],[(1,1)]), ([(2,2)],[(2,2)])] : List RangePair) ≠ [] →
      1 ≤ (consolidateRanges [([(0,0)],[(0,0)]), ([(1,1)],[(1,1)]), ([(2,2)],[(2,2)])]).length) ∧
    (consolidatePass (consolidateRanges
      [([(0,0)],[(0,0)]), ([(1,1)],[(1,1)]), ([(2,2)],[(2,2)])])).2 = false ∧
    ((consolidatePass ([([(0,0)],[(0,0)]), ([(1,1)],[(1,1)]), ([(2,2)],[(2,2)])] :
        List RangePair)).2 = true →
      (consolidatePass [([(0,0)],[(0,0)]), ([(1,1)],[(1,1)]), ([(2,2)],[(2,2)])]).1.length < 3) :=
  ⟨(consolidation_terminates _).2.2.1,
   (consolidation_terminates _).2.2.2,
   (consolidation_terminates _).1⟩

lemma differencesLoop_spec (ls rs : RangeBounds) (acc : Nat) :
    ((∃ p ∈ ls.zip rs, boundsContains p.1 p.2 = false ∧ boundsAdjacent p.1 p.2 = false) →
        differencesLoop ls rs acc = 2) ∧
    ((∀ p ∈ ls.zip rs, boundsContains p.1 p.2 = true ∨ boundsAdjacent p.1 p.2 = true) →
        differencesLoop ls rs acc =
          acc + (ls.zip rs).countP (fun p => !boundsContains p.1 p.2)) := by
  induction ls generalizing rs acc with
  | nil => simp [differencesLoop]
  | cons l ls ih =>
    cases rs with
    | nil => simp [differencesLoop]
    | cons r rs =>
      constructor
      · rintro ⟨p, hp, hnc, hna⟩
        rcases List.mem_cons.mp (by simpa using hp) with hp | hp
        · subst hp
          simp [differencesLoop, hnc, hna]
        · unfold differencesLoop
          by_cases hc : boundsContains l r
          · rw [if_pos hc]
            exact (ih rs acc).1 ⟨p, hp, hnc, hna⟩
          · rw [if_neg hc]
            by_cases ha : boundsAdjacent l r
            · rw [if_pos ha]
              exact (ih rs (acc + 1)).1 ⟨p, hp, hnc, hna⟩
            · rw [if_neg ha]
      · intro hall
        have hhead := hall (l, r) (by simp)
        unfold differencesLoop
        by_cases hc : boundsContains l r
        · rw [if_pos hc]
          rw [(ih rs acc).2 (fun p hp => hall p (by simp [hp]))]
          simp [List.countP_cons, hc]
        · rw [if_neg hc]
          have ha : boundsAdjacent l r = true := by
            rcases hhead with h | h
            · exact absurd h (by simpa using hc)
            · exact h
          rw [if_pos ha]
          rw [(ih rs (acc + 1)).2 (fun p hp => hall p (by simp [hp]))]
          rw [List.zip_cons_cons, List.countP_cons]
          simp [hc]
          omega

/-- Claim C2: the difference count between adjacent recorded range pairs is
0 when every position of the current range is contained in the previous
one's bounds, grows by 1 per adjacent-but-not-contained position (current
min = previous max + 1 or vice versa, excluding byte 255), is 2 on any
length mismatch or any position neither contained nor adjacent; and the
pass merges (per-position min of mins, max of maxes) exactly when both the
input and the output side report at most 1. -/
theorem consolidation_difference_rule (r other : RangeBounds) (l b : Bound)
    (last c : RangePair) (cs : List RangePair)
    (hl : l.2 < 256) (hb : b.2 < 256) :
    (boundsContains l b = true ↔ (l.1 ≤ b.1 ∧ b.2 ≤ l.2)) ∧
    (boundsAdjacent l b = true ↔
      ((l.2 + 1 = b.1 ∧ l.2 ≠ 255) ∨ (b.2 + 1 = l.1 ∧ b.2 ≠ 255))) ∧
    (r.length ≠ other.length → differences r other = 2) ∧
    (r.length = other.length →
      ((∃ p ∈ r.zip other, boundsContains p.1 p.2 = false ∧ boundsAdjacent p.1 p.2 = false) →
          differences r other = 2) ∧
      ((∀ p ∈ r.zip other, boundsContains p.1 p.2 = true ∨ boundsAdjacent p.1 p.2 = true) →
          differences r other = (r.zip other).countP (fun p => !boundsContains p.1 p.2))) ∧
    (mergePair last c = (List.zipWith boundsMinMax last.1 c.1,
        List.zipWith boundsMinMax last.2 c.2)) ∧
    ((differences last.1 c.1 ≤ 1 ∧ differences last.2 c.2 ≤ 1) →
      consolidatePassAux last (c :: cs) =
        ((consolidatePassAux (mergePair last c) cs).1, true)) ∧
    (¬ (differences last.1 c.1 ≤ 1 ∧ differences last.2 c.2 ≤ 1) →
      consolidatePassAux last (c :: cs) =
        (last :: (consolidatePassAux c cs).1, (consolidatePassAux c cs).2)) := by
  refine ⟨?_, ?_, ?_, ?_, rfl, ?_, ?_⟩
  · unfold boundsContains
    simp
  · unfold boundsAdjacent
    constructor
    · intro h
      rcases Bool.or_eq_true_iff.mp h with h | h
      · obtain ⟨h1, h2⟩ := Bool.and_eq_true_iff.mp h
        have h1' : (l.2 + 1) % 256 = b.1 := by simpa using h1
        have h2' : l.2 ≠ 255 := by simpa using h2
        left
        refine ⟨?_, h2'⟩
        rw [← h1']
        rw [Nat.mod_eq_of_lt (by omega)]
      · obtain ⟨h1, h2⟩ := Bool.and_eq_true_iff.mp h
        have h1' : (b.2 + 1) % 256 = l.1 := by simpa using h1
        have h2' : b.2 ≠ 255 := by simpa using h2
        right
        refine ⟨?_, h2'⟩
        rw [← h1']
        rw [Nat.mod_eq_of_lt (by omega)]
    · intro h
      rcases h with ⟨h1, h2⟩ | ⟨h1, h2⟩
      · apply Bool.or_eq_true_iff.mpr
        left
        apply Bool.and_eq_true_iff.mpr
        refine ⟨?_, by simpa using h2⟩
        simp only [beq_iff_eq]
        rw [Nat.mod_eq_of_lt (by omega)]
        exact h1
      · apply Bool.or_eq_true_iff.mpr
        right
        apply Bool.and_eq_true_iff.mpr
        refine ⟨?_, by simpa using h2⟩
        simp only [beq_iff_eq]
        rw [Nat.mod_eq_of_lt (by omega)]
        exact h1
  · intro h
    unfold differences
    rw [if_pos h]
  · intro h
    refine ⟨?_, ?_⟩
    · intro hex
      unfold differences
      rw [if_neg (by simpa using h)]
      exact (differencesLoop_spec r other 0).1 hex
    · intro hall
      unfold differences
      rw [if_neg (by simpa using h)]
      simpa using (differencesLoop_spec r other 0).2 hall
  · intro h
    conv_lhs => unfold consolidatePassAux
    rw [if_pos h]
  · intro h
    conv_lhs => unfold consolidatePassAux
    rw [if_neg h]

/-- Witness for C2 at concrete bounds, ranges and pairs. -/
theorem consolidation_difference_rule_witness :
    ((0:Nat), (1:Nat)).2 < 256 ∧ ((2:Nat), (3:Nat)).2 < 256 ∧
    (boundsAdjacent (0, 1) (2, 3) = true ↔
      ((1 + 1 = 2 ∧ (1:Nat) ≠ 255) ∨ (3 + 1 = 0 ∧ (3:Nat) ≠ 255))) ∧
    (([((0:Nat),(1:Nat))] : RangeBounds).length ≠ ([] : RangeBounds).length →
      differences [(0,1)] [] = 2) :=
  ⟨by norm_num, by norm_num,
   (consolidation_difference_rule [(0,1)] [] (0,1) (2,3) ([(1,1)],[(1,1)]) ([(2,2)],[(2,2)]) []
      (by norm_num) (by norm_num)).2.1,
   (consolidation_difference_rule [(0,1)] [] (0,1) (2,3) ([(1,1)],[(1,1)]) ([(2,2)],[(2,2)]) []
      (by norm_num) (by norm_num)).2.2.1⟩

/-! ## RangeMap codec (Map/Decode/Encode) -/

/-- Go `rangeMapEntry`. -/
structure rangeMapEntry where
  inputRange : RangeBounds
  outputRange : RangeBounds
  inputMults : List Nat
  outputMults : List Nat
deriving DecidableEq

/-- Go `RangeMap`: entries bucketed by input length and by output length. -/
structure RangeMap where
  inputEntries : List (List rangeMapEntry)
  outputEntries : List (List rangeMapEntry)
deriving DecidableEq

/-- A degenerate range: every position is `[v, v]`. -/
def degenerate (bs : ByteSeq) : RangeBounds :=
  bs.map (fun v => (v, v))

/-- Go `AddValidEncoding`: records a degenerate range pair; empty inputs
are ignored. -/
def AddValidEncoding (acc : List RangePair) (inputCodepoint outputCodepoint : ByteSeq) :
    List RangePair :=
  if inputCodepoint = [] then acc
  else acc ++ [(degenerate inputCodepoint, degenerate outputCodepoint)]

/-- The constructor state after feeding all pairs through
`AddValidEncoding`. -/
def constructorState (pairs : List (ByteSeq × ByteSeq)) : List RangePair :=
  pairs.foldl (fun acc p => AddValidEncoding acc p.1 p.2) []

/-- Product of the position counts `(max - min + 1)` of a range. -/
def countProd (r : RangeBounds) : Nat :=
  r.foldr (fun b acc => (b.2 - b.1 + 1) * acc) 1

/-- The per-position multipliers computed by Go `Map`: the last position
has multiplier 1 and each earlier position's multiplier is the product of
the counts of all later positions. -/
def multsOf : RangeBounds → List Nat
  | [] => []
  | _ :: bs => countProd bs :: multsOf bs

/-- Append an entry to length bucket `idx`; `none` models the Go index
panic when the bucket does not exist. -/
def bucketAdd (buckets : List (List rangeMapEntry)) (idx : Nat) (e : rangeMapEntry) :
    Option (List (List rangeMapEntry)) :=
  match buckets.get? idx with
  | none => none
  | some b => some (buckets.set idx (b ++ [e]))

/-- The bucketing loop of Go `Map`; `none` models the index panic raised
when an entry's length is 0 (Go index `-1`) or exceeds 4. -/
def buildBuckets : RangeMap → List RangePair → Option RangeMap
  | rm, [] => some rm
  | rm, pr :: rest =>
    if pr.1.length = 0 ∨ pr.2.length = 0 then none
    else
      match bucketAdd rm.inputEntries (pr.1.length - 1) ⟨pr.1, pr.2, multsOf pr.1, multsOf pr.2⟩,
            bucketAdd rm.outputEntries (pr.2.length - 1) ⟨pr.1, pr.2, multsOf pr.1, multsOf pr.2⟩ with
      | some ib, some ob => buildBuckets ⟨ib, ob⟩ rest
      | _, _ => none

/-- Go `(*RangeMapConstructor).Map`: consolidate, then compute multipliers
and bucket every entry by input length and by output length. -/
def MapGo (rc : List RangePair) : Option RangeMap :=
  buildBuckets ⟨[[], [], [], []], [[], [], [], []]⟩ (consolidateRanges rc)

/-- The mixed-radix scalar index of `data` within bounds `r` using the
multipliers `ms` (the descending loop of Go `Decode`); `none` models an
index panic on length mismatch. -/
def mixedIndex : RangeBounds → ByteSeq → List Nat → Option Nat
  | [], _, _ => some 0
  | b :: bs, d :: ds, m :: ms =>
    (mixedIndex bs ds ms).map (fun s => (d - b.1) * m + s)
  | _, _, _ => none

/-- The reconstruction loop of Go `Decode`/`Encode`: successive division of
the index by each multiplier; `none` models a division-by-zero or index
panic.  The `% 256` mirrors the Go `byte(diff)` cast. -/
def reconstruct : RangeBounds → List Nat → Nat → Option ByteSeq
  | [], _, _ => some []
  | b :: bs, m :: ms, inc =>
    if m = 0 then none
    else (reconstruct bs ms (inc - inc / m * m)).map (fun rest => (b.1 + inc / m) % 256 :: rest)
  | _ :: _, [], _ => none

/-- The entry scan of Go `Decode`: first entry whose input range contains
the data wins. -/
def decodeScan : List rangeMapEntry → ByteSeq → Option (Option ByteSeq)
  | [], _ => some none
  | e :: es, data =>
    match containsRB e.inputRange data with
    | none => none
    | some false => decodeScan es data
    | some true =>
      match mixedIndex e.inputRange data e.inputMults with
      | none => none
      | some inc =>
        match reconstruct e.outputRange e.outputMults inc with
        | none => none
        | some out => some (some out)

/-- The entry scan of Go `Encode` (roles of input and output swapped). -/
def encodeScan : List rangeMapEntry → ByteSeq → Option (Option ByteSeq)
  | [], _ => some none
  | e :: es, data =>
    match containsRB e.outputRange data with
    | none => none
    | some false => encodeScan es data
    | some true =>
      match mixedIndex e.outputRange data e.outputMults with
      | none => none
      | some inc =>
        match reconstruct e.inputRange e.inputMults inc with
        | none => none
        | some out => some (some out)

/-- Go `(*RangeMap).Decode`.  Outer `none` is a panic; `some none` is the
normal `(nil, false)` miss; `some (some out)` is `(out, true)`. -/
def Decode (rm : RangeMap) (data : ByteSeq) : Option (Option ByteSeq) :=
  if rm.inputEntries.length < data.length then some none
  else
    match data.length with
    | 0 => none
    | n + 1 =>
      match rm.inputEntries.get? n with
      | none => none
      | some bucket => decodeScan bucket data

/-- Go `(*RangeMap).Encode`. -/
def Encode (rm : RangeMap) (data : ByteSeq) : Option (Option ByteSeq) :=
  if rm.outputEntries.length < data.length then some none
  else
    match data.length with
    | 0 => none
    | n + 1 =>
      match rm.outputEntries.get? n with
      | none => none
      | some bucket => encodeScan bucket data

/-! ### Structural invariants of the constructed RangeMap -/

/-- The entry Go `Map` builds from a consolidated pair. -/
def entryOf (p : RangePair) : rangeMapEntry :=
  ⟨p.1, p.2, multsOf p.1, multsOf p.2⟩

lemma mem_zipWith {α : Type} (f : α → α → α) (xs ys : List α) :
    ∀ z ∈ List.zipWith f xs ys, ∃ x ∈ xs, ∃ y ∈ ys, z = f x y := by
  induction xs generalizing ys with
  | nil => simp
  | cons x xs ih =>
    cases ys with
    | nil => simp
    | cons y ys =>
      intro z hz
      rcases List.mem_cons.mp hz with hz | hz
      · exact ⟨x, by simp, y, by simp, hz⟩
      · obtain ⟨a, ha, b, hb, hab⟩ := ih ys z hz
        exact ⟨a, by simp [ha], b, by simp [hb], hab⟩

lemma mergePair_length (p q : RangePair) :
    (mergePair p q).1.length = min p.1.length q.1.length ∧
      (mergePair p q).2.length = min p.2.length q.2.length := by
  simp [mergePair, merge]

lemma consolidatePassAux_preserves (P : RangePair → Prop)
    (hM : ∀ p q, P p → P q → P (mergePair p q))
    (last : RangePair) (cs : List RangePair) (hlast : P last) (hcs : ∀ c ∈ cs, P c) :
    ∀ x ∈ (consolidatePassAux last cs).1, P x := by
  induction cs generalizing last with
  | nil =>
    intro x hx
    simp only [consolidatePassAux, List.mem_singleton] at hx
    exact hx ▸ hlast
  | cons c cs ih =>
    intro x hx
    unfold consolidatePassAux at hx
    by_cases h : differences last.1 c.1 ≤ 1 ∧ differences last.2 c.2 ≤ 1
    · rw [if_pos h] at hx
      exact ih (mergePair last c) (hM _ _ hlast (hcs c (by simp)))
        (fun q hq => hcs q (by simp [hq])) x hx
    · rw [if_neg h] at hx
      rcases List.mem_cons.mp hx with hx | hx
      · exact hx ▸ hlast
      · exact ih c (hcs c (by simp)) (fun q hq => hcs q (by simp [hq])) x hx

lemma consolidateRanges_preserves (P : RangePair → Prop)
    (hM : ∀ p q, P p → P q → P (mergePair p q))
    (l : List RangePair) (hl : ∀ p ∈ l, P p) :
    ∀ x ∈ consolidateRanges l, P x := by
  have hpass : ∀ l : List RangePair, (∀ p ∈ l, P p) → ∀ x ∈ (consolidatePass l).1, P x := by
    intro l hl x hx
    cases l with
    | nil => simp [consolidatePass] at hx
    | cons p ps =>
      exact consolidatePassAux_preserves P hM p ps (hl p (by simp))
        (fun q hq => hl q (by simp [hq])) x hx
  have hloop : ∀ f (l : List RangePair), (∀ p ∈ l, P p) → ∀ x ∈ consolidateLoop f l, P x := by
    intro f
    induction f with
    | zero => intro l hl; simpa [consolidateLoop] using hl
    | succ f ih =>
      intro l hl x hx
      unfold consolidateLoop at hx
      by_cases hch : (consolidatePass l).2
      · rw [if_pos hch] at hx
        exact ih _ (hpass l hl) x hx
      · rw [if_neg hch] at hx
        exact hpass l hl x hx
  exact hloop _ l hl

lemma get?_set_self {α : Type} (l : List α) (i : Nat) (a : α) (h : i < l.length) :
    (l.set i a).get? i = some a := by
  simp [List.get?_eq_getElem?, List.getElem?_set_self, h]

lemma get?_set_other {α : Type} (l : List α) (i j : Nat) (a : α) (h : i ≠ j) :
    (l.set i a).get? j = l.get? j := by
  simp [List.get?_eq_getElem?, List.getElem?_set_ne h]

/-- `buildBuckets` succeeds on length-1..4 pairs and distributes every
entry, in order, to the bucket of its input length and to the bucket of
its output length. -/
lemma buildBuckets_spec (l : List RangePair) :
    ∀ rm0 : RangeMap, rm0.inputEntries.length = 4 → rm0.outputEntries.length = 4 →
    (∀ p ∈ l, 1 ≤ p.1.length ∧ p.1.length ≤ 4 ∧ 1 ≤ p.2.length ∧ p.2.length ≤ 4) →
    ∃ rm, buildBuckets rm0 l = some rm ∧
      rm.inputEntries.length = 4 ∧ rm.outputEntries.length = 4 ∧
      (∀ i, i < 4 → ∀ b0, rm0.inputEntries.get? i = some b0 →
        rm.inputEntries.get? i =
          some (b0 ++ (l.filter (fun p => p.1.length == i + 1)).map entryOf)) ∧
      (∀ i, i < 4 → ∀ b0, rm0.outputEntries.get? i = some b0 →
        rm.outputEntries.get? i =
          some (b0 ++ (l.filter (fun p => p.2.length == i + 1)).map entryOf)) := by
  induction l with
  | nil =>
    intro rm0 h1 h2 _
    exact ⟨rm0, rfl, h1, h2, fun i _ b0 hb => by simpa using hb,
      fun i _ b0 hb => by simpa using hb⟩
  | cons pr rest ih =>
    intro rm0 h1 h2 hlen
    obtain ⟨hp1, hp2, hp3, hp4⟩ := hlen pr (by simp)
    have hne : ¬ (pr.1.length = 0 ∨ pr.2.length = 0) := by omega
    set il := pr.1.length - 1 with hil
    set ol := pr.2.length - 1 with hol
    have hil4 : il < 4 := by omega
    have hol4 : ol < 4 := by omega
    obtain ⟨bi, hbi⟩ : ∃ bi, rm0.inputEntries.get? il = some bi := by
      rw [List.get?_eq_getElem?]
      exact ⟨_, List.getElem?_eq_getElem (by omega)⟩
    obtain ⟨bo, hbo⟩ : ∃ bo, rm0.outputEntries.get? ol = some bo := by
      rw [List.get?_eq_getElem?]
      exact ⟨_, List.getElem?_eq_getElem (by omega)⟩
    have hbuild : buildBuckets rm0 (pr :: rest) =
        buildBuckets ⟨rm0.inputEntries.set il (bi ++ [entryOf pr]),
                      rm0.outputEntries.set ol (bo ++ [entryOf pr])⟩ rest := by
      conv_lhs => unfold buildBuckets
      rw [if_neg hne]
      unfold bucketAdd
      rw [← hil, ← hol, hbi, hbo]
      rfl
    obtain ⟨rm, hrm, hlen1, hlen2, hinp, hout⟩ :=
      ih ⟨rm0.inputEntries.set il (bi ++ [entryOf pr]),
          rm0.outputEntries.set ol (bo ++ [entryOf pr])⟩
        (by simpa using h1) (by simpa using h2)
        (fun p hp => hlen p (by simp [hp]))
    refine ⟨rm, hbuild ▸ hrm, hlen1, hlen2, ?_, ?_⟩
    · intro i hi b0 hb0
      by_cases hieq : il = i
      · subst hieq
        have hbieq : bi = b0 := by rw [hbi] at hb0; exact Option.some.injEq _ _ ▸ hb0.symm ▸ rfl
        subst hbieq
        have hset : (rm0.inputEntries.set il (bi ++ [entryOf pr])).get? il =
            some (bi ++ [entryOf pr]) := get?_set_self _ _ _ (by omega)
        have := hinp il hi _ hset
        rw [this]
        have hfil : (pr :: rest).filter (fun p => p.1.length == il + 1) =
            pr :: rest.filter (fun p => p.1.length == il + 1) := by
          rw [List.filter_cons_of_pos]
          simp only [beq_iff_eq]
          omega
        rw [hfil]
        simp
      · have hset : (rm0.inputEntries.set il (bi ++ [entryOf pr])).get? i =
            some b0 := by rw [get?_set_other _ _ _ _ hieq]; exact hb0
        have := hinp i hi _ hset
        rw [this]
        have hfil : (pr :: rest).filter (fun p => p.1.length == i + 1) =
            rest.filter (fun p => p.1.length == i + 1) := by
          rw [List.filter_cons_of_neg]
          simp only [beq_iff_eq]
          omega
        rw [hfil]
    · intro i hi b0 hb0
      by_cases hieq : ol = i
      · subst hieq
        have hbieq : bo = b0 := by rw [hbo] at hb0; exact Option.some.injEq _ _ ▸ hb0.symm ▸ rfl
        subst hbieq
        have hset : (rm0.outputEntries.set ol (bo ++ [entryOf pr])).get? ol =
            some (bo ++ [entryOf pr]) := get?_set_self _ _ _ (by omega)
        have := hout ol hi _ hset
        rw [this]
        have hfil : (pr :: rest).filter (fun p => p.2.length == ol + 1) =
            pr :: rest.filter (fun p => p.2.length == ol + 1) := by
          rw [List.filter_cons_of_pos]
          simp only [beq_iff_eq]
          omega
        rw [hfil]
        simp
      · have hset : (rm0.outputEntries.set ol (bo ++ [entryOf pr])).get? i =
            some b0 := by rw [get?_set_other _ _ _ _ hieq]; exact hb0
        have := hout i hi _ hset
        rw [this]
        have hfil : (pr :: rest).filter (fun p => p.2.length == i + 1) =
            rest.filter (fun p => p.2.length == i + 1) := by
          rw [List.filter_cons_of_neg]
          simp only [beq_iff_eq]
          omega
        rw [hfil]

lemma multsOf_length (r : RangeBounds) : (multsOf r).length = r.length := by
  induction r with
  | nil => rfl
  | cons b bs ih => simp [multsOf, ih]

lemma countProd_pos (r : RangeBounds) : 0 < countProd r := by
  induction r with
  | nil => simp [countProd]
  | cons b bs ih =>
    simp only [countProd, List.foldr_cons]
    exact Nat.mul_pos (Nat.succ_pos _) ih

lemma multsOf_pos (r : RangeBounds) : ∀ m ∈ multsOf r, 0 < m := by
  induction r with
  | nil => simp [multsOf]
  | cons b bs ih =>
    intro m hm
    rcases List.mem_cons.mp hm with hm | hm
    · exact hm ▸ countProd_pos bs
    · exact ih m hm

lemma containsRB_total (r : RangeBounds) (data : ByteSeq) (h : r.length ≤ data.length) :
    ∃ b, containsRB r data = some b := by
  induction r generalizing data with
  | nil => exact ⟨true, rfl⟩
  | cons b bs ih =>
    cases data with
    | nil => simp at h
    | cons d ds =>
      unfold containsRB
      by_cases hc : d < b.1 || b.2 < d
      · exact ⟨false, by rw [if_pos hc]⟩
      · rw [if_neg hc]
        exact ih ds (by simpa using h)

lemma mixedIndex_total (r : RangeBounds) (data : ByteSeq) (ms : List Nat)
    (h1 : r.length ≤ data.length) (h2 : r.length ≤ ms.length) :
    ∃ n, mixedIndex r data ms = some n := by
  induction r generalizing data ms with
  | nil => exact ⟨0, rfl⟩
  | cons b bs ih =>
    cases data with
    | nil => simp at h1
    | cons d ds =>
      cases ms with
      | nil => simp at h2
      | cons m mss =>
        obtain ⟨n, hn⟩ := ih ds mss (by simpa using h1) (by simpa using h2)
        exact ⟨(d - b.1) * m + n, by simp [mixedIndex, hn]⟩

lemma reconstruct_total (r : RangeBounds) (ms : List Nat) (inc : Nat)
    (h1 : r.length ≤ ms.length) (hpos : ∀ m ∈ ms, 0 < m) :
    ∃ out, reconstruct r ms inc = some out ∧ out.length = r.length := by
  induction r generalizing ms inc with
  | nil => exact ⟨[], rfl, rfl⟩
  | cons b bs ih =>
    cases ms with
    | nil => simp at h1
    | cons m mss =>
      have hm : m ≠ 0 := Nat.pos_iff_ne_zero.mp (hpos m (by simp))
      obtain ⟨out, hout, hlen⟩ :=
        ih mss (inc - inc / m * m) (by simpa using h1) (fun x hx => hpos x (by simp [hx]))
      refine ⟨(b.1 + inc / m) % 256 :: out, ?_, by simp [hlen]⟩
      unfold reconstruct
      rw [if_neg hm, hout]
      rfl

/-- Well-formedness of a bucket with respect to the input side. -/
def inBucketWF (bucket : List rangeMapEntry) (n : Nat) : Prop :=
  ∀ e ∈ bucket, e.inputRange.length = n ∧ e.inputMults = multsOf e.inputRange ∧
    e.outputMults = multsOf e.outputRange ∧ e.outputRange.length ≤ 4

/-- Well-formedness of a bucket with respect to the output side. -/
def outBucketWF (bucket : List rangeMapEntry) (n : Nat) : Prop :=
  ∀ e ∈ bucket, e.outputRange.length = n ∧ e.inputMults = multsOf e.inputRange ∧
    e.outputMults = multsOf e.outputRange ∧ e.inputRange.length ≤ 4

lemma decodeScan_some (bucket : List rangeMapEntry) (data : ByteSeq)
    (hwf : inBucketWF bucket data.length) :
    ∃ r, decodeScan bucket data = some r ∧
      (r = none ↔ ∀ e ∈ bucket, containsRB e.inputRange data = some false) := by
  induction bucket with
  | nil => exact ⟨none, rfl, by simp⟩
  | cons e es ih =>
    obtain ⟨hel, hem, heo, _⟩ := hwf e (by simp)
    obtain ⟨b, hb⟩ := containsRB_total e.inputRange data (le_of_eq hel)
    cases b with
    | false =>
      obtain ⟨r, hr, hiff⟩ := ih (fun x hx => hwf x (by simp [hx]))
      refine ⟨r, ?_, ?_⟩
      · unfold decodeScan
        rw [hb]
        exact hr
      · rw [hiff]
        constructor
        · intro hall x hx
          rcases List.mem_cons.mp hx with hx | hx
          · exact hx ▸ hb
          · exact hall x hx
        · intro hall x hx
          exact hall x (by simp [hx])
    | true =>
      obtain ⟨n, hn⟩ := mixedIndex_total e.inputRange data e.inputMults (le_of_eq hel)
        (by rw [hem, multsOf_length])
      obtain ⟨out, hout, _⟩ := reconstruct_total e.outputRange e.outputMults n
        (by rw [heo, multsOf_length]) (by rw [heo]; exact multsOf_pos _)
      refine ⟨some out, ?_, ?_⟩
      · unfold decodeScan
        rw [hb, hn]
        show (match reconstruct e.outputRange e.outputMults n with
              | none => none
              | some out => some (some out)) = some (some out)
        rw [hout]
      · simp only [reduceCtorEq, false_iff]
        intro hall
        have := hall e (by simp)
        rw [hb] at this
        simp at this

lemma encodeScan_some (bucket : List rangeMapEntry) (data : ByteSeq)
    (hwf : outBucketWF bucket data.length) :
    ∃ r, encodeScan bucket data = some r ∧
      (r = none ↔ ∀ e ∈ bucket, containsRB e.outputRange data = some false) := by
  induction bucket with
  | nil => exact ⟨none, rfl, by simp⟩
  | cons e es ih =>
    obtain ⟨hel, hem, heo, _⟩ := hwf e (by simp)
    obtain ⟨b, hb⟩ := containsRB_total e.outputRange data (le_of_eq hel)
    cases b with
    | false =>
      obtain ⟨r, hr, hiff⟩ := ih (fun x hx => hwf x (by simp [hx]))
      refine ⟨r, ?_, ?_⟩
      · unfold encodeScan
        rw [hb]
        exact hr
      · rw [hiff]
        constructor
        · intro hall x hx
          rcases List.mem_cons.mp hx with hx | hx
          · exact hx ▸ hb
          · exact hall x hx
        · intro hall x hx
          exact hall x (by simp [hx])
    | true =>
      obtain ⟨n, hn⟩ := mixedIndex_total e.outputRange data e.outputMults (le_of_eq hel)
        (by rw [heo, multsOf_length])
      obtain ⟨out, hout, _⟩ := reconstruct_total e.inputRange e.inputMults n
        (by rw [hem, multsOf_length]) (by rw [hem]; exact multsOf_pos _)
      refine ⟨some out, ?_, ?_⟩
      · unfold encodeScan
        rw [hb, hn]
        show (match reconstruct e.inputRange e.inputMults n with
              | none => none
              | some out => some (some out)) = some (some out)
        rw [hout]
      · simp only [reduceCtorEq, false_iff]
        intro hall
        have := hall e (by simp)
        rw [hb] at this
        simp at this

/-- Closed form of the constructor state: every nonempty-input pair becomes
one degenerate range pair, in order. -/
lemma constructorState_closed (pairs : List (ByteSeq × ByteSeq)) :
    constructorState pairs =
      (pairs.filter (fun p => !(p.1 == []))).map
        (fun p => (degenerate p.1, degenerate p.2)) := by
  suffices h : ∀ acc, pairs.foldl (fun acc p => AddValidEncoding acc p.1 p.2) acc =
      acc ++ (pairs.filter (fun p => !(p.1 == []))).map
        (fun p => (degenerate p.1, degenerate p.2)) by
    simpa [constructorState] using h []
  induction pairs with
  | nil => simp
  | cons p ps ih =>
    intro acc
    simp only [List.foldl_cons]
    rw [ih]
    unfold AddValidEncoding
    by_cases hp : p.1 = []
    · rw [if_pos hp, List.filter_cons_of_neg (by simp [hp])]
    · rw [if_neg hp, List.filter_cons_of_pos (by simp [hp])]
      simp

lemma degenerate_length (bs : ByteSeq) : (degenerate bs).length = bs.length := by
  simp [degenerate]

/-- Abbreviation: the consolidated pair list the map is built from. -/
def consolidated (pairs : List (ByteSeq × ByteSeq)) : List RangePair :=
  consolidateRanges (constructorState pairs)

lemma consolidated_lengths (pairs : List (ByteSeq × ByteSeq))
    (hlen : ∀ p ∈ pairs, 1 ≤ p.1.length ∧ p.1.length ≤ 4 ∧ 1 ≤ p.2.length ∧ p.2.length ≤ 4) :
    ∀ p ∈ consolidated pairs,
      1 ≤ p.1.length ∧ p.1.length ≤ 4 ∧ 1 ≤ p.2.length ∧ p.2.length ≤ 4 := by
  apply consolidateRanges_preserves
  · intro p q hp hq
    obtain ⟨hm1, hm2⟩ := mergePair_length p q
    constructor
    · rw [hm1]; omega
    constructor
    · rw [hm1]; omega
    constructor
    · rw [hm2]; omega
    · rw [hm2]; omega
  · intro p hp
    rw [constructorState_closed] at hp
    obtain ⟨q, hq, hqd⟩ := List.mem_map.mp hp
    have hqmem := List.mem_filter.mp hq
    have := hlen q hqmem.1
    rw [← hqd]
    simp only [degenerate_length]
    exact this

lemma mapGo_wf (pairs : List (ByteSeq × ByteSeq))
    (hlen : ∀ p ∈ pairs, 1 ≤ p.1.length ∧ p.1.length ≤ 4 ∧ 1 ≤ p.2.length ∧ p.2.length ≤ 4) :
    ∃ rm, MapGo (constructorState pairs) = some rm ∧
      rm.inputEntries.length = 4 ∧ rm.outputEntries.length = 4 ∧
      (∀ i, i < 4 → rm.inputEntries.get? i =
        some (((consolidated pairs).filter (fun p => p.1.length == i + 1)).map entryOf)) ∧
      (∀ i, i < 4 → rm.outputEntries.get? i =
        some (((consolidated pairs).filter (fun p => p.2.length == i + 1)).map entryOf)) := by
  have hcons := consolidated_lengths pairs hlen
  obtain ⟨rm, hrm, h1, h2, hinp, hout⟩ :=
    buildBuckets_spec (consolidated pairs) ⟨[[], [], [], []], [[], [], [], []]⟩
      rfl rfl hcons
  have hinit : ∀ i, i < 4 →
      ([[], [], [], []] : List (List rangeMapEntry)).get? i = some [] := by
    intro i hi
    interval_cases i <;> rfl
  refine ⟨rm, hrm, h1, h2, ?_, ?_⟩
  · intro i hi
    have := hinp i hi [] (hinit i hi)
    simpa using this
  · intro i hi
    have := hout i hi [] (hinit i hi)
    simpa using this

/-- Claim C4 counterexample: on the map built from the spec's own concrete
scenario, `Decode` applied to the empty byte sequence indexes the bucket
array at `-1` and panics (modelled as `none`) instead of returning a
`(ByteSequence, ok)` pair. -/
theorem decode_empty_input_panics :
    (MapGo (constructorState [([65], [65]), ([66], [66])])).map (fun rm => Decode rm []) =
      some none := by
  rfl

/-- Claim C4 (amended): for maps built by the constructor from pairs of
lengths 1..4, `Decode` and `Encode` return normally on every *nonempty*
byte sequence (the empty sequence panics, see the counterexample), with
`ok = false` exactly when the input is longer than 4 bytes or no entry of
its length bucket contains it. -/
theorem decode_encode_total_nonempty (pairs : List (ByteSeq × ByteSeq))
    (hlen : ∀ p ∈ pairs, 1 ≤ p.1.length ∧ p.1.length ≤ 4 ∧ 1 ≤ p.2.length ∧ p.2.length ≤ 4) :
    ∃ rm, MapGo (constructorState pairs) = some rm ∧
      (∀ data : ByteSeq, data ≠ [] →
        (∃ r, Decode rm data = some r) ∧ (∃ r, Encode rm data = some r)) ∧
      (∀ data : ByteSeq, 4 < data.length →
        Decode rm data = some none ∧ Encode rm data = some none) ∧
      (∀ data : ByteSeq, data ≠ [] → data.length ≤ 4 →
        ((Decode rm data = some none ↔
          ∀ bucket, rm.inputEntries.get? (data.length - 1) = some bucket →
            ∀ e ∈ bucket, containsRB e.inputRange data = some false) ∧
         (Encode rm data = some none ↔
          ∀ bucket, rm.outputEntries.get? (data.length - 1) = some bucket →
            ∀ e ∈ bucket, containsRB e.outputRange data = some false))) := by
  obtain ⟨rm, hrm, h1, h2, hinp, hout⟩ := mapGo_wf pairs hlen
  have hcons := consolidated_lengths pairs hlen
  have hinWF : ∀ n : Nat, n < 4 → ∀ bucket, rm.inputEntries.get? n = some bucket →
      inBucketWF bucket (n + 1) := by
    intro n hn bucket hb
    rw [hinp n hn] at hb
    obtain rfl : ((consolidated pairs).filter (fun p => p.1.length == n + 1)).map entryOf
        = bucket := by simpa using hb
    intro e he
    obtain ⟨p, hp, hpe⟩ := List.mem_map.mp he
    have hpf := List.mem_filter.mp hp
    have hplen : p.1.length = n + 1 := by simpa using hpf.2
    have := hcons p hpf.1
    rw [← hpe]
    exact ⟨hplen, rfl, rfl, this.2.2.2⟩
  have houtWF : ∀ n : Nat, n < 4 → ∀ bucket, rm.outputEntries.get? n = some bucket →
      outBucketWF bucket (n + 1) := by
    intro n hn bucket hb
    rw [hout n hn] at hb
    obtain rfl : ((consolidated pairs).filter (fun p => p.2.length == n + 1)).map entryOf
        = bucket := by simpa using hb
    intro e he
    obtain ⟨p, hp, hpe⟩ := List.mem_map.mp he
    have hpf := List.mem_filter.mp hp
    have hplen : p.2.length = n + 1 := by simpa using hpf.2
    have := hcons p hpf.1
    rw [← hpe]
    exact ⟨hplen, rfl, rfl, this.2.1⟩
  refine ⟨rm, hrm, ?_, ?_, ?_⟩
  · -- totality on nonempty data
    intro data hne
    cases hdl : data.length with
    | zero => exact absurd (List.length_eq_zero.mp hdl) hne
    | succ n =>
      by_cases hbig : 4 < n + 1
      · constructor
        · exact ⟨none, by unfold Decode; rw [hdl, if_pos (by omega)]⟩
        · exact ⟨none, by unfold Encode; rw [hdl, if_pos (by omega)]⟩
      · have hn4 : n < 4 := by omega
        obtain ⟨ib, hib⟩ : ∃ b, rm.inputEntries.get? n = some b := ⟨_, hinp n hn4⟩
        obtain ⟨ob, hob⟩ : ∃ b, rm.outputEntries.get? n = some b := ⟨_, hout n hn4⟩
        obtain ⟨r1, hr1, _⟩ := decodeScan_some ib data (hdl ▸ hinWF n hn4 ib hib)
        obtain ⟨r2, hr2, _⟩ := encodeScan_some ob data (hdl ▸ houtWF n hn4 ob hob)
        constructor
        · refine ⟨r1, ?_⟩
          unfold Decode
          rw [hdl, if_neg (by omega)]
          show (match rm.inputEntries.get? n with
                | none => none
                | some bucket => decodeScan bucket data) = some r1
          rw [hib]
          exact hr1
        · refine ⟨r2, ?_⟩
          unfold Encode
          rw [hdl, if_neg (by omega)]
          show (match rm.outputEntries.get? n with
                | none => none
                | some bucket => encodeScan bucket data) = some r2
          rw [hob]
          exact hr2
  · -- over-long data misses
    intro data hbig
    have hd : Decode rm data = some none := by
      unfold Decode
      rw [if_pos (by omega)]
    have he : Encode rm data = some none := by
      unfold Encode
      rw [if_pos (by omega)]
    exact ⟨hd, he⟩
  · -- miss characterization for lengths 1..4
    intro data hne hle
    cases hdl : data.length with
    | zero => exact absurd (List.length_eq_zero.mp hdl) hne
    | succ n =>
      have hn4 : n < 4 := by omega
      obtain ⟨ib, hib⟩ : ∃ b, rm.inputEntries.get? n = some b := ⟨_, hinp n hn4⟩
      obtain ⟨ob, hob⟩ : ∃ b, rm.outputEntries.get? n = some b := ⟨_, hout n hn4⟩
      obtain ⟨r1, hr1, hiff1⟩ := decodeScan_some ib data (hdl ▸ hinWF n hn4 ib hib)
      obtain ⟨r2, hr2, hiff2⟩ := encodeScan_some ob data (hdl ▸ houtWF n hn4 ob hob)
      have hdec : Decode rm data = decodeScan ib data := by
        unfold Decode
        rw [hdl, if_neg (by omega)]
        show (match rm.inputEntries.get? n with
              | none => none
              | some bucket => decodeScan bucket data) = decodeScan ib data
        rw [hib]
      have henc : Encode rm data = encodeScan ob data := by
        unfold Encode
        rw [hdl, if_neg (by omega)]
        show (match rm.outputEntries.get? n with
              | none => none
              | some bucket => encodeScan bucket data) = encodeScan ob data
        rw [hob]
      constructor
      · rw [hdec, hr1]
        constructor
        · intro hnone bucket hbucket
          have : bucket = ib := by
            simp only [Nat.add_sub_cancel] at hbucket
            rw [hbucket] at hib
            exact Option.some_injective _ hib
          subst this
          exact hiff1.mp (by simpa using hnone)
        · intro hall
          have := hall ib (by simp only [Nat.add_sub_cancel]; exact hib)
          rw [hiff1.mpr this]
      · rw [henc, hr2]
        constructor
        · intro hnone bucket hbucket
          have : bucket = ob := by
            simp only [Nat.add_sub_cancel] at hbucket
            rw [hbucket] at hob
            exact Option.some_injective _ hob
          subst this
          exact hiff2.mp (by simpa using hnone)
        · intro hall
          have := hall ob (by simp only [Nat.add_sub_cancel]; exact hob)
          rw [hiff2.mpr this]

/-- Witness for the amended C4 on the spec's concrete two-pair scenario. -/
theorem decode_encode_total_nonempty_witness :
    (∀ p ∈ ([([65], [65]), ([66], [66])] : List (ByteSeq × ByteSeq)),
      1 ≤ p.1.length ∧ p.1.length ≤ 4 ∧ 1 ≤ p.2.length ∧ p.2.length ≤ 4) ∧
    (∃ rm, MapGo (constructorState [([65], [65]), ([66], [66])]) = some rm ∧
      (∀ data : ByteSeq, data ≠ [] →
        (∃ r, Decode rm data = some r) ∧ (∃ r, Encode rm data = some r)) ∧
      (∀ data : ByteSeq, 4 < data.length →
        Decode rm data = some none ∧ Encode rm data = some none) ∧
      (∀ data : ByteSeq, data ≠ [] → data.length ≤ 4 →
        ((Decode rm data = some none ↔
          ∀ bucket, rm.inputEntries.get? (data.length - 1) = some bucket →
            ∀ e ∈ bucket, containsRB e.inputRange data = some false) ∧
         (Encode rm data = some none ↔
          ∀ bucket, rm.outputEntries.get? (data.length - 1) = some bucket →
            ∀ e ∈ bucket, containsRB e.outputRange data = some false)))) :=
  ⟨by decide, decode_encode_total_nonempty _ (by decide)⟩

/-! ### Mixed-radix enumeration: rank and unrank of a hyperrectangle -/

/-- Well-formed bounds: ordered and byte-valued. -/
def rangeWF (r : RangeBounds) : Prop :=
  ∀ b ∈ r, b.1 ≤ b.2 ∧ b.2 < 256

/-- The `j`-th byte sequence of the hyperrectangle `r` in lexicographic
order (specification-side definition). -/
def unrankSpec : RangeBounds → Nat → ByteSeq
  | [], _ => []
  | b :: bs, j => (b.1 + j / countProd bs) :: unrankSpec bs (j % countProd bs)

/-- The lexicographic rank of a byte sequence within hyperrectangle `r`
(specification-side definition). -/
def rankSpec : RangeBounds → ByteSeq → Nat
  | [], _ => 0
  | _ :: _, [] => 0
  | b :: bs, d :: ds => (d - b.1) * countProd bs + rankSpec bs ds

/-- All byte sequences of the hyperrectangle `r`, in lexicographic order. -/
def enumRange : RangeBounds → List ByteSeq
  | [] => [[]]
  | b :: bs => (List.range (b.2 + 1 - b.1)).flatMap
      (fun v => (enumRange bs).map (fun rest => (b.1 + v) :: rest))

lemma countProd_cons (b : Bound) (bs : RangeBounds) :
    countProd (b :: bs) = (b.2 - b.1 + 1) * countProd bs := rfl

lemma range_mul_map {α : Type} (n m : Nat) (g : Nat → α) :
    (List.range (n * m)).map g =
      (List.range n).flatMap (fun v => (List.range m).map (fun w => g (v * m + w))) := by
  induction n with
  | zero => simp
  | succ n ih =>
    have h1 : (n + 1) * m = n * m + m := by ring
    rw [h1, List.range_add, List.map_append, ih, List.range_succ, List.flatMap_append]
    simp [List.flatMap]

lemma mixedIndex_rank (r : RangeBounds) (x : ByteSeq) (h : r.length ≤ x.length) :
    mixedIndex r x (multsOf r) = some (rankSpec r x) := by
  induction r generalizing x with
  | nil => rfl
  | cons b bs ih =>
    cases x with
    | nil => simp at h
    | cons d ds =>
      simp only [multsOf, mixedIndex, rankSpec]
      rw [ih ds (by simpa using h)]
      simp [Nat.add_comm]

lemma reconstruct_unrank (r : RangeBounds) (j : Nat) (hwf : rangeWF r)
    (hj : j < countProd r) :
    reconstruct r (multsOf r) j = some (unrankSpec r j) := by
  induction r generalizing j with
  | nil => rfl
  | cons b bs ih =>
    have hb := hwf b (by simp)
    have hP : 0 < countProd bs := countProd_pos bs
    simp only [multsOf, reconstruct, unrankSpec]
    rw [if_neg (Nat.pos_iff_ne_zero.mp hP)]
    have hdiv : j / countProd bs ≤ b.2 - b.1 := by
      rw [countProd_cons] at hj
      have h2 : j / countProd bs < b.2 - b.1 + 1 := (Nat.div_lt_iff_lt_mul hP).mpr hj
      omega
    have hmod : (b.1 + j / countProd bs) % 256 = b.1 + j / countProd bs := by
      apply Nat.mod_eq_of_lt
      omega
    have hsub : j - j / countProd bs * countProd bs = j % countProd bs := by
      have h3 := Nat.div_add_mod j (countProd bs)
      have h4 : j / countProd bs * countProd bs = countProd bs * (j / countProd bs) :=
        Nat.mul_comm _ _
      omega
    rw [hsub, ih (j % countProd bs) (fun q hq => hwf q (by simp [hq])) (Nat.mod_lt _ hP)]
    simp [hmod]

lemma unrankSpec_length (r : RangeBounds) (j : Nat) :
    (unrankSpec r j).length = r.length := by
  induction r generalizing j with
  | nil => rfl
  | cons b bs ih => simp [unrankSpec, ih]

lemma rank_unrank (r : RangeBounds) (j : Nat) (hj : j < countProd r) :
    rankSpec r (unrankSpec r j) = j := by
  induction r generalizing j with
  | nil =>
    have hj1 : j < 1 := by simpa [countProd] using hj
    have hj0 : j = 0 := by omega
    subst hj0
    rfl
  | cons b bs ih =>
    have hP : 0 < countProd bs := countProd_pos bs
    simp only [unrankSpec, rankSpec, Nat.add_sub_cancel_left]
    rw [ih _ (Nat.mod_lt _ hP)]
    have h3 := Nat.div_add_mod j (countProd bs)
    have h4 : j / countProd bs * countProd bs = countProd bs * (j / countProd bs) :=
      Nat.mul_comm _ _
    omega

lemma unrankSpec_contains (r : RangeBounds) (j : Nat) (hwf : rangeWF r)
    (hj : j < countProd r) :
    containsRB r (unrankSpec r j) = some true := by
  induction r generalizing j with
  | nil => rfl
  | cons b bs ih =>
    have hb := hwf b (by simp)
    have hP : 0 < countProd bs := countProd_pos bs
    have hdiv : j / countProd bs ≤ b.2 - b.1 := by
      rw [countProd_cons] at hj
      have h2 : j / countProd bs < b.2 - b.1 + 1 := (Nat.div_lt_iff_lt_mul hP).mpr hj
      omega
    simp only [unrankSpec, containsRB]
    rw [if_neg (by simp; omega)]
    exact ih _ (fun q hq => hwf q (by simp [hq])) (Nat.mod_lt _ hP)

lemma flatMap_congr_mem {α β : Type} (l : List α) (f g : α → List β)
    (h : ∀ a ∈ l, f a = g a) : l.flatMap f = l.flatMap g := by
  induction l with
  | nil => rfl
  | cons a as ih =>
    simp only [List.flatMap_cons]
    rw [h a (by simp), ih (fun x hx => h x (by simp [hx]))]

/-- Closed form of the enumeration: position `j` holds `unrankSpec r j`. -/
lemma enumRange_closed (r : RangeBounds) (hwf : rangeWF r) :
    enumRange r = (List.range (countProd r)).map (unrankSpec r) := by
  induction r with
  | nil => rfl
  | cons b bs ih =>
    have hb := hwf b (by simp)
    have hP : 0 < countProd bs := countProd_pos bs
    have hcnt : b.2 + 1 - b.1 = b.2 - b.1 + 1 := by omega
    rw [countProd_cons, range_mul_map]
    unfold enumRange
    rw [hcnt, ih (fun q hq => hwf q (by simp [hq]))]
    apply flatMap_congr_mem
    intro v hv
    rw [List.map_map]
    apply List.map_congr_left
    intro w hw
    have hwP : w < countProd bs := List.mem_range.mp hw
    simp only [Function.comp]
    show (b.1 + v) :: unrankSpec bs w = unrankSpec (b :: bs) (v * countProd bs + w)
    conv_rhs => rw [unrankSpec]
    have hdiv : (v * countProd bs + w) / countProd bs = v := by
      rw [Nat.add_comm, Nat.add_mul_div_right _ _ hP, Nat.div_eq_of_lt hwP]
      simp
    have hmod : (v * countProd bs + w) % countProd bs = w := by
      rw [Nat.add_comm, Nat.add_mul_mod_self_right]
      exact Nat.mod_eq_of_lt hwP
    rw [hdiv, hmod]

lemma enumRange_length_of_mem (r : RangeBounds) (x : ByteSeq) (hx : x ∈ enumRange r) :
    x.length = r.length := by
  induction r generalizing x with
  | nil =>
    simp only [enumRange, List.mem_singleton] at hx
    simp [hx]
  | cons b bs ih =>
    simp only [enumRange, List.mem_flatMap, List.mem_map] at hx
    obtain ⟨v, _, rest, hrest, hx⟩ := hx
    rw [← hx]
    simp [ih rest hrest]

lemma contains_iff_mem (r : RangeBounds) (x : ByteSeq) (hwf : rangeWF r)
    (hlen : x.length = r.length) :
    containsRB r x = some true ↔ x ∈ enumRange r := by
  induction r generalizing x with
  | nil =>
    have : x = [] := List.length_eq_zero.mp (by simpa using hlen)
    subst this
    simp [containsRB, enumRange]
  | cons b bs ih =>
    cases x with
    | nil => simp at hlen
    | cons d ds =>
      have hb := hwf b (by simp)
      unfold containsRB
      by_cases hout : d < b.1 || b.2 < d
      · rw [if_pos hout]
        constructor
        · intro hfalse
          exact absurd hfalse (by simp)
        intro hmem
        exfalso
        simp only [enumRange, List.mem_flatMap, List.mem_map] at hmem
        obtain ⟨v, hv, rest, _, heq⟩ := hmem
        have hd : d = b.1 + v := (List.cons.injEq _ _ _ _ ▸ heq).1.symm
        have hv' : v < b.2 + 1 - b.1 := List.mem_range.mp hv
        simp only [Bool.or_eq_true, decide_eq_true_eq] at hout
        omega
      · rw [if_neg hout]
        simp only [Bool.or_eq_true, decide_eq_true_eq, not_or, not_lt] at hout
        rw [ih ds (fun q hq => hwf q (by simp [hq])) (by simpa using hlen)]
        constructor
        · intro hmem
          simp only [enumRange, List.mem_flatMap, List.mem_map]
          exact ⟨d - b.1, List.mem_range.mpr (by omega), ds, hmem, by
            refine congrArg₂ _ ?_ rfl
            omega⟩
        · intro hmem
          simp only [enumRange, List.mem_flatMap, List.mem_map] at hmem
          obtain ⟨v, _, rest, hrest, heq⟩ := hmem
          have := List.cons.injEq _ _ _ _ ▸ heq
          rw [← this.2]
          exact hrest

/-- Closed form of the zip of two equal-cardinality enumerations. -/
lemma zip_enum_closed (a b : RangeBounds) (hwa : rangeWF a) (hwb : rangeWF b)
    (hc : countProd a = countProd b) :
    (enumRange a).zip (enumRange b) =
      (List.range (countProd a)).map (fun j => (unrankSpec a j, unrankSpec b j)) := by
  rw [enumRange_closed a hwa, enumRange_closed b hwb, ← hc, List.zip_map']

lemma mem_zip_enum (a b : RangeBounds) (hwa : rangeWF a) (hwb : rangeWF b)
    (hc : countProd a = countProd b) (x y : ByteSeq)
    (hxy : (x, y) ∈ (enumRange a).zip (enumRange b)) :
    ∃ j, j < countProd a ∧ x = unrankSpec a j ∧ y = unrankSpec b j := by
  rw [zip_enum_closed a b hwa hwb hc] at hxy
  obtain ⟨j, hj, hxy⟩ := List.mem_map.mp hxy
  have h1 := (Prod.mk.injEq _ _ _ _ ▸ hxy)
  exact ⟨j, List.mem_range.mp hj, h1.1.symm, h1.2.symm⟩

/-- The Go `Decode` entry scan finds the unique containing entry and
reproduces the paired output. -/
lemma decodeScan_finds (pre post : List RangePair) (p : RangePair) (x y : ByteSeq)
    (hwfpre : ∀ q ∈ pre, rangeWF q.1 ∧ q.1.length = x.length)
    (hwfp : rangeWF p.1 ∧ rangeWF p.2)
    (hj : ∃ j, j < countProd p.1 ∧ j < countProd p.2 ∧
      x = unrankSpec p.1 j ∧ y = unrankSpec p.2 j)
    (hpre : ∀ q ∈ pre, x ∉ enumRange q.1) :
    decodeScan ((pre ++ p :: post).map entryOf) x = some (some y) := by
  induction pre with
  | nil =>
    obtain ⟨j, hj1, hj2, hxj, hyj⟩ := hj
    simp only [List.nil_append, List.map_cons]
    unfold decodeScan
    have hcont : containsRB p.1 x = some true :=
      hxj ▸ unrankSpec_contains p.1 j hwfp.1 hj1
    rw [show (entryOf p).inputRange = p.1 from rfl, hcont]
    have hmix : mixedIndex p.1 x (multsOf p.1) = some j := by
      rw [hxj, mixedIndex_rank p.1 _ (le_of_eq (unrankSpec_length p.1 j).symm),
        rank_unrank p.1 j hj1]
    rw [show (entryOf p).inputMults = multsOf p.1 from rfl, hmix]
    show (match reconstruct (entryOf p).outputRange (entryOf p).outputMults j with
          | none => none
          | some out => some (some out)) = some (some y)
    rw [show (entryOf p).outputRange = p.2 from rfl,
      show (entryOf p).outputMults = multsOf p.2 from rfl,
      reconstruct_unrank p.2 j hwfp.2 hj2, ← hyj]
  | cons q pre ih =>
    obtain ⟨hqwf, hqlen⟩ := hwfpre q (by simp)
    have hcont : containsRB q.1 x = some false := by
      obtain ⟨bv, hbv⟩ := containsRB_total q.1 x (le_of_eq hqlen)
      cases bv with
      | false => exact hbv
      | true =>
        exfalso
        exact hpre q (by simp) ((contains_iff_mem q.1 x hqwf hqlen.symm).mp hbv)
    simp only [List.cons_append, List.map_cons]
    unfold decodeScan
    rw [show (entryOf q).inputRange = q.1 from rfl, hcont]
    exact ih (fun t ht => hwfpre t (by simp [ht])) (fun t ht => hpre t (by simp [ht]))

/-- The Go `Encode` entry scan, mirrored. -/
lemma encodeScan_finds (pre post : List RangePair) (p : RangePair) (x y : ByteSeq)
    (hwfpre : ∀ q ∈ pre, rangeWF q.2 ∧ q.2.length = y.length)
    (hwfp : rangeWF p.1 ∧ rangeWF p.2)
    (hj : ∃ j, j < countProd p.1 ∧ j < countProd p.2 ∧
      x = unrankSpec p.1 j ∧ y = unrankSpec p.2 j)
    (hpre : ∀ q ∈ pre, y ∉ enumRange q.2) :
    encodeScan ((pre ++ p :: post).map entryOf) y = some (some x) := by
  induction pre with
  | nil =>
    obtain ⟨j, hj1, hj2, hxj, hyj⟩ := hj
    simp only [List.nil_append, List.map_cons]
    unfold encodeScan
    have hcont : containsRB p.2 y = some true :=
      hyj ▸ unrankSpec_contains p.2 j hwfp.2 hj2
    rw [show (entryOf p).outputRange = p.2 from rfl, hcont]
    have hmix : mixedIndex p.2 y (multsOf p.2) = some j := by
      rw [hyj, mixedIndex_rank p.2 _ (le_of_eq (unrankSpec_length p.2 j).symm),
        rank_unrank p.2 j hj2]
    rw [show (entryOf p).outputMults = multsOf p.2 from rfl, hmix]
    show (match reconstruct (entryOf p).inputRange (entryOf p).inputMults j with
          | none => none
          | some out => some (some out)) = some (some x)
    rw [show (entryOf p).inputRange = p.1 from rfl,
      show (entryOf p).inputMults = multsOf p.1 from rfl,
      reconstruct_unrank p.1 j hwfp.1 hj1, ← hxj]
  | cons q pre ih =>
    obtain ⟨hqwf, hqlen⟩ := hwfpre q (by simp)
    have hcont : containsRB q.2 y = some false := by
      obtain ⟨bv, hbv⟩ := containsRB_total q.2 y (le_of_eq hqlen)
      cases bv with
      | false => exact hbv
      | true =>
        exfalso
        exact hpre q (by simp) ((contains_iff_mem q.2 y hqwf hqlen.symm).mp hbv)
    simp only [List.cons_append, List.map_cons]
    unfold encodeScan
    rw [show (entryOf q).outputRange = q.2 from rfl, hcont]
    exact ih (fun t ht => hwfpre t (by simp [ht])) (fun t ht => hpre t (by simp [ht]))

lemma flatten_sublist {α : Type} {L1 L2 : List (List α)} (h : L1.Sublist L2) :
    L1.flatten.Sublist L2.flatten := by
  induction h with
  | slnil => exact List.Sublist.refl _
  | @cons l1 l2 a _ ih =>
    rw [List.flatten_cons]
    exact ih.trans (List.sublist_append_right a l2.flatten)
  | @cons₂ l1 l2 a _ ih =>
    rw [List.flatten_cons, List.flatten_cons]
    exact (List.Sublist.refl a).append ih

lemma enumRange_length (r : RangeBounds) (hwf : rangeWF r) :
    (enumRange r).length = countProd r := by
  rw [enumRange_closed r hwf]
  simp

lemma consolidated_rangeWF (pairs : List (ByteSeq × ByteSeq))
    (hbytes : ∀ p ∈ pairs, (∀ v ∈ p.1, v < 256) ∧ (∀ v ∈ p.2, v < 256)) :
    ∀ p ∈ consolidated pairs, rangeWF p.1 ∧ rangeWF p.2 := by
  apply consolidateRanges_preserves
  · intro p q hp hq
    constructor
    · intro b hb
      obtain ⟨u, hu, v, hv, huv⟩ := mem_zipWith boundsMinMax p.1 q.1 b hb
      obtain ⟨hu1, hu2⟩ := hp.1 u hu
      obtain ⟨hv1, hv2⟩ := hq.1 v hv
      subst huv
      unfold boundsMinMax
      constructor
      · exact le_trans (min_le_left _ _) (le_trans hu1 (le_max_left _ _))
      · simp only [sup_lt_iff]
        exact ⟨hu2, hv2⟩
    · intro b hb
      obtain ⟨u, hu, v, hv, huv⟩ := mem_zipWith boundsMinMax p.2 q.2 b hb
      obtain ⟨hu1, hu2⟩ := hp.2 u hu
      obtain ⟨hv1, hv2⟩ := hq.2 v hv
      subst huv
      unfold boundsMinMax
      constructor
      · exact le_trans (min_le_left _ _) (le_trans hu1 (le_max_left _ _))
      · simp only [sup_lt_iff]
        exact ⟨hu2, hv2⟩
  · intro p hp
    rw [constructorState_closed] at hp
    obtain ⟨q, hq, hqd⟩ := List.mem_map.mp hp
    have hqb := hbytes q (List.mem_filter.mp hq).1
    rw [← hqd]
    constructor
    · intro b hb
      obtain ⟨v, hv, hvb⟩ := List.mem_map.mp hb
      rw [← hvb]
      exact ⟨le_refl _, hqb.1 v hv⟩
    · intro b hb
      obtain ⟨v, hv, hvb⟩ := List.mem_map.mp hb
      rw [← hvb]
      exact ⟨le_refl _, hqb.2 v hv⟩

/-- Claim C1 (amended): provided consolidation preserved the pairwise
correspondence — i.e. the consolidated entries enumerate, in order,
exactly the supplied `(input, output)` pairs, with equal input/output
cardinality per entry (the spec's own validity condition for a merge) —
the constructed RangeMap round-trips every supplied pair, and `Decode`
and `Encode` report `ok = false` on every nonempty byte sequence of
length at most 4 that was never supplied. -/
theorem rangeMap_roundtrip (pairs : List (ByteSeq × ByteSeq))
    (hlen : ∀ p ∈ pairs, 1 ≤ p.1.length ∧ p.1.length ≤ 4 ∧ 1 ≤ p.2.length ∧ p.2.length ≤ 4)
    (hbytes : ∀ p ∈ pairs, (∀ v ∈ p.1, v < 256) ∧ (∀ v ∈ p.2, v < 256))
    (hndin : (pairs.map Prod.fst).Nodup)
    (hndout : (pairs.map Prod.snd).Nodup)
    (hcorr : ((consolidated pairs).map
        (fun p => (enumRange p.1).zip (enumRange p.2))).flatten = pairs)
    (hcard : ∀ p ∈ consolidated pairs, countProd p.1 = countProd p.2) :
    ∃ rm, MapGo (constructorState pairs) = some rm ∧
      (∀ i o, (i, o) ∈ pairs → Decode rm i = some (some o) ∧ Encode rm o = some (some i)) ∧
      (∀ x : ByteSeq, x ≠ [] → x.length ≤ 4 → x ∉ pairs.map Prod.fst →
        Decode rm x = some none) ∧
      (∀ x : ByteSeq, x ≠ [] → x.length ≤ 4 → x ∉ pairs.map Prod.snd →
        Encode rm x = some none) := by
  obtain ⟨rm, hrm, h1, h2, hinp, hout⟩ := mapGo_wf pairs hlen
  have hlens := consolidated_lengths pairs hlen
  have hwfs := consolidated_rangeWF pairs hbytes
  -- the flattened input-side enumerations are exactly the supplied inputs
  have hinFlat : ((consolidated pairs).map (fun p => enumRange p.1)).flatten =
      pairs.map Prod.fst := by
    have hmap := congrArg (List.map Prod.fst) hcorr
    rw [List.map_flatten, List.map_map] at hmap
    rw [← hmap]
    congr 1
    apply List.map_congr_left
    intro p hp
    simp only [Function.comp]
    exact (List.map_fst_zip _ _ (by
      rw [enumRange_length p.1 (hwfs p hp).1, enumRange_length p.2 (hwfs p hp).2,
        hcard p hp])).symm
  have houtFlat : ((consolidated pairs).map (fun p => enumRange p.2)).flatten =
      pairs.map Prod.snd := by
    have hmap := congrArg (List.map Prod.snd) hcorr
    rw [List.map_flatten, List.map_map] at hmap
    rw [← hmap]
    congr 1
    apply List.map_congr_left
    intro p hp
    simp only [Function.comp]
    exact (List.map_snd_zip _ _ (by
      rw [enumRange_length p.1 (hwfs p hp).1, enumRange_length p.2 (hwfs p hp).2,
        hcard p hp])).symm
  have hndinF : (((consolidated pairs).map (fun p => enumRange p.1)).flatten).Nodup := by
    rw [hinFlat]; exact hndin
  have hndoutF : (((consolidated pairs).map (fun p => enumRange p.2)).flatten).Nodup := by
    rw [houtFlat]; exact hndout
  refine ⟨rm, hrm, ?_, ?_, ?_⟩
  · -- round trip
    intro i o hio
    rw [← hcorr] at hio
    obtain ⟨zl, hzl, hioz⟩ := List.mem_flatten.mp hio
    obtain ⟨p, hp, hpz⟩ := List.mem_map.mp hzl
    rw [← hpz] at hioz
    obtain ⟨j, hj, hij, hoj⟩ :=
      mem_zip_enum p.1 p.2 (hwfs p hp).1 (hwfs p hp).2 (hcard p hp) i o hioz
    have hj2 : j < countProd p.2 := (hcard p hp) ▸ hj
    have hilen : i.length = p.1.length := hij ▸ unrankSpec_length p.1 j
    have holen : o.length = p.2.length := hoj ▸ unrankSpec_length p.2 j
    obtain ⟨hl1, hl2, hl3, hl4⟩ := hlens p hp
    constructor
    · -- Decode
      set n := p.1.length - 1 with hn
      have hn4 : n < 4 := by omega
      have hfil : p ∈ (consolidated pairs).filter (fun q => q.1.length == n + 1) :=
        List.mem_filter.mpr ⟨hp, by simp; omega⟩
      obtain ⟨pre, post, hsplit⟩ := List.append_of_mem hfil
      have hpreq : ∀ q ∈ pre, q ∈ (consolidated pairs).filter
          (fun q => q.1.length == n + 1) := by
        intro q hq
        rw [hsplit]
        exact List.mem_append.mpr (Or.inl hq)
      have hnodupF : ((((consolidated pairs).filter (fun q => q.1.length == n + 1)).map
          (fun p => enumRange p.1)).flatten).Nodup :=
        (flatten_sublist ((List.filter_sublist _).map _)).nodup hndinF
      have hpre : ∀ q ∈ pre, i ∉ enumRange q.1 := by
        intro q hq hmem
        rw [hsplit, List.map_append, List.map_cons, List.flatten_append,
          List.flatten_cons] at hnodupF
        obtain ⟨_, _, hdisj⟩ := List.nodup_append.mp hnodupF
        exact hdisj (List.mem_flatten.mpr ⟨enumRange q.1, List.mem_map_of_mem _ hq, hmem⟩)
          (List.mem_append.mpr (Or.inl (hij ▸ (contains_iff_mem p.1 _ (hwfs p hp).1
            (by rw [← hij, hilen])).mp (unrankSpec_contains p.1 j (hwfs p hp).1 hj))))
      have hwfpre : ∀ q ∈ pre, rangeWF q.1 ∧ q.1.length = i.length := by
        intro q hq
        have hqf := List.mem_filter.mp (hpreq q hq)
        refine ⟨(hwfs q hqf.1).1, ?_⟩
        have : q.1.length = n + 1 := by simpa using hqf.2
        omega
      have hscan := decodeScan_finds pre post p i o hwfpre ⟨(hwfs p hp).1, (hwfs p hp).2⟩
        ⟨j, hj, hj2, hij, hoj⟩ hpre
      unfold Decode
      rw [h1]
      have hieq : i.length = n + 1 := by omega
      rw [hieq, if_neg (by omega)]
      show (match rm.inputEntries.get? n with
            | none => none
            | some bucket => decodeScan bucket i) = some (some o)
      rw [hinp n hn4]
      show decodeScan (((consolidated pairs).filter
        (fun q => q.1.length == n + 1)).map entryOf) i = some (some o)
      rw [hsplit]
      exact hscan
    · -- Encode
      set n := p.2.length - 1 with hn
      have hn4 : n < 4 := by omega
      have hfil : p ∈ (consolidated pairs).filter (fun q => q.2.length == n + 1) :=
        List.mem_filter.mpr ⟨hp, by simp; omega⟩
      obtain ⟨pre, post, hsplit⟩ := List.append_of_mem hfil
      have hpreq : ∀ q ∈ pre, q ∈ (consolidated pairs).filter
          (fun q => q.2.length == n + 1) := by
        intro q hq
        rw [hsplit]
        exact List.mem_append.mpr (Or.inl hq)
      have hnodupF : ((((consolidated pairs).filter (fun q => q.2.length == n + 1)).map
          (fun p => enumRange p.2)).flatten).Nodup :=
        (flatten_sublist ((List.filter_sublist _).map _)).nodup hndoutF
      have hpre : ∀ q ∈ pre, o ∉ enumRange q.2 := by
        intro q hq hmem
        rw [hsplit, List.map_append, List.map_cons, List.flatten_append,
          List.flatten_cons] at hnodupF
        obtain ⟨_, _, hdisj⟩ := List.nodup_append.mp hnodupF
        exact hdisj (List.mem_flatten.mpr ⟨enumRange q.2, List.mem_map_of_mem _ hq, hmem⟩)
          (List.mem_append.mpr (Or.inl (hoj ▸ (contains_iff_mem p.2 _ (hwfs p hp).2
            (by rw [← hoj, holen])).mp (unrankSpec_contains p.2 j (hwfs p hp).2 hj2))))
      have hwfpre : ∀ q ∈ pre, rangeWF q.2 ∧ q.2.length = o.length := by
        intro q hq
        have hqf := List.mem_filter.mp (hpreq q hq)
        refine ⟨(hwfs q hqf.1).2, ?_⟩
        have : q.2.length = n + 1 := by simpa using hqf.2
        omega
      have hscan := encodeScan_finds pre post p i o hwfpre ⟨(hwfs p hp).1, (hwfs p hp).2⟩
        ⟨j, hj, hj2, hij, hoj⟩ hpre
      unfold Encode
      rw [h2]
      have hoeq : o.length = n + 1 := by omega
      rw [hoeq, if_neg (by omega)]
      show (match rm.outputEntries.get? n with
            | none => none
            | some bucket => encodeScan bucket o) = some (some i)
      rw [hout n hn4]
      show encodeScan (((consolidated pairs).filter
        (fun q => q.2.length == n + 1)).map entryOf) o = some (some i)
      rw [hsplit]
      exact hscan
  · -- Decode miss on unsupplied sequences
    intro x hne hx4 hxmem
    cases hdl : x.length with
    | zero => exact absurd (List.length_eq_zero.mp hdl) hne
    | succ n =>
      have hn4 : n < 4 := by omega
      have hWF : inBucketWF (((consolidated pairs).filter
          (fun q => q.1.length == n + 1)).map entryOf) x.length := by
        intro e he
        obtain ⟨q, hq, hqe⟩ := List.mem_map.mp he
        have hqf := List.mem_filter.mp hq
        have hql : q.1.length = n + 1 := by simpa using hqf.2
        rw [← hqe]
        exact ⟨by rw [hdl]; exact hql, rfl, rfl, (hlens q hqf.1).2.2.2⟩
      obtain ⟨r, hr, hiff⟩ := decodeScan_some _ x hWF
      have hall : ∀ e ∈ ((consolidated pairs).filter
          (fun q => q.1.length == n + 1)).map entryOf,
          containsRB e.inputRange x = some false := by
        intro e he
        obtain ⟨q, hq, hqe⟩ := List.mem_map.mp he
        have hqf := List.mem_filter.mp hq
        have hql : q.1.length = n + 1 := by simpa using hqf.2
        obtain ⟨bv, hbv⟩ := containsRB_total q.1 x (by rw [hql, hdl])
        cases bv with
        | false => rw [← hqe]; exact hbv
        | true =>
          exfalso
          have hmem : x ∈ enumRange q.1 :=
            (contains_iff_mem q.1 x (hwfs q hqf.1).1 (by omega)).mp hbv
          apply hxmem
          rw [← hinFlat]
          exact List.mem_flatten.mpr ⟨enumRange q.1,
            List.mem_map_of_mem _ hqf.1, hmem⟩
      unfold Decode
      rw [h1, hdl, if_neg (by omega)]
      show (match rm.inputEntries.get? n with
            | none => none
            | some bucket => decodeScan bucket x) = some none
      rw [hinp n hn4]
      show decodeScan (((consolidated pairs).filter
        (fun q => q.1.length == n + 1)).map entryOf) x = some none
      rw [hr, hiff.mpr hall]
  · -- Encode miss on unsupplied sequences
    intro x hne hx4 hxmem
    cases hdl : x.length with
    | zero => exact absurd (List.length_eq_zero.mp hdl) hne
    | succ n =>
      have hn4 : n < 4 := by omega
      have hWF : outBucketWF (((consolidated pairs).filter
          (fun q => q.2.length == n + 1)).map entryOf) x.length := by
        intro e he
        obtain ⟨q, hq, hqe⟩ := List.mem_map.mp he
        have hqf := List.mem_filter.mp hq
        have hql : q.2.length = n + 1 := by simpa using hqf.2
        rw [← hqe]
        exact ⟨by rw [hdl]; exact hql, rfl, rfl, (hlens q hqf.1).2.1⟩
      obtain ⟨r, hr, hiff⟩ := encodeScan_some _ x hWF
      have hall : ∀ e ∈ ((consolidated pairs).filter
          (fun q => q.2.length == n + 1)).map entryOf,
          containsRB e.outputRange x = some false := by
        intro e he
        obtain ⟨q, hq, hqe⟩ := List.mem_map.mp he
        have hqf := List.mem_filter.mp hq
        have hql : q.2.length = n + 1 := by simpa using hqf.2
        obtain ⟨bv, hbv⟩ := containsRB_total q.2 x (by rw [hql, hdl])
        cases bv with
        | false => rw [← hqe]; exact hbv
        | true =>
          exfalso
          have hmem : x ∈ enumRange q.2 :=
            (contains_iff_mem q.2 x (hwfs q hqf.1).2 (by omega)).mp hbv
          apply hxmem
          rw [← houtFlat]
          exact List.mem_flatten.mpr ⟨enumRange q.2,
            List.mem_map_of_mem _ hqf.1, hmem⟩
      unfold Encode
      rw [h2, hdl, if_neg (by omega)]
      show (match rm.outputEntries.get? n with
            | none => none
            | some bucket => encodeScan bucket x) = some none
      rw [hout n hn4]
      show encodeScan (((consolidated pairs).filter
        (fun q => q.2.length == n + 1)).map entryOf) x = some none
      rw [hr, hiff.mpr hall]

/-- Claim C1 counterexample: the pairs `([0],[0]), ([1],[1]), ([2],[1])`
are in length-then-lexicographic order with distinct inputs (a tree
iterator can produce them), yet after consolidation merges them into the
single entry `[0,2] → [0,1]`, `Decode([2])` returns `([2], true)` instead
of the supplied output `[1]` — the round-trip law of the claim fails. -/
theorem roundtrip_fails_after_heuristic_merge :
    List.Pairwise (fun p q : ByteSeq × ByteSeq =>
        p.1.length < q.1.length ∨ (p.1.length = q.1.length ∧ List.Lex (· < ·) p.1 q.1))
      [([0], [0]), ([1], [1]), ([2], [1])] ∧
    (([2], [1]) ∈ ([([0], [0]), ([1], [1]), ([2], [1])] : List (ByteSeq × ByteSeq))) ∧
    (MapGo (constructorState [([0], [0]), ([1], [1]), ([2], [1])])).map
        (fun rm => Decode rm [2]) = some (some (some [2])) ∧
    ([2] : ByteSeq) ≠ [1] :=
  ⟨by decide, by decide, by rfl, by decide⟩

/-- Witness for the amended C1 on the spec's concrete two-pair scenario
(byte `0x41` ↔ `A`, byte `0x42` ↔ `B`), whose single consolidated entry
does satisfy the correspondence condition. -/
theorem rangeMap_roundtrip_witness :
    ((((consolidated [([65], [65]), ([66], [66])]).map
        (fun p => (enumRange p.1).zip (enumRange p.2))).flatten =
      ([([65], [65]), ([66], [66])] : List (ByteSeq × ByteSeq))) ∧
     (∀ p ∈ consolidated [([65], [65]), ([66], [66])], countProd p.1 = countProd p.2)) ∧
    (∃ rm, MapGo (constructorState [([65], [65]), ([66], [66])]) = some rm ∧
      (∀ i o, (i, o) ∈ ([([65], [65]), ([66], [66])] : List (ByteSeq × ByteSeq)) →
        Decode rm i = some (some o) ∧ Encode rm o = some (some i)) ∧
      (∀ x : ByteSeq, x ≠ [] → x.length ≤ 4 →
        x ∉ ([([65], [65]), ([66], [66])] : List (ByteSeq × ByteSeq)).map Prod.fst →
        Decode rm x = some none) ∧
      (∀ x : ByteSeq, x ≠ [] → x.length ≤ 4 →
        x ∉ ([([65], [65]), ([66], [66])] : List (ByteSeq × ByteSeq)).map Prod.snd →
        Encode rm x = some none)) :=
  ⟨⟨by decide, by decide⟩,
   rangeMap_roundtrip [([65], [65]), ([66], [66])]
     (by decide) (by decide) (by decide) (by decide) (by decide) (by decide)⟩

/-! ## RuneComparator (src/utils/rune_comparator.go) -/

/-- Go `RuneComparator`; the comparator function is `none` until
`SetComparator` is called (a nil function pointer in Go). -/
structure RuneComparator where
  values : List (List Int)
  comparator : Option (Int → Int → Int)

/-- Go `NewRuneComparator`. -/
def NewRuneComparator : RuneComparator := ⟨[], none⟩

/-- Go `(*RuneComparator).SetComparator`. -/
def SetComparator (rc : RuneComparator) (comparator : Int → Int → Int) : RuneComparator :=
  { rc with comparator := some comparator }

/-- Go `insertNewRow`: insert a singleton row at `idx`, shifting the rest. -/
def insertNewRow (values : List (List Int)) (r : Int) (idx : Nat) : List (List Int) :=
  values.insertIdx idx [r]

/-- The binary-search loop of Go `Insert`, with fuel bounding the shrinking
`high - low` interval.  `none` models an index panic on an empty row or a
comparator result outside `{-1, 0, 1}` (on which the Go loop never
terminates). -/
def insertLoop (cmp : Int → Int → Int) (r : Int) (values : List (List Int)) :
    Nat → Nat → Nat → Option (Sum (List (List Int)) Nat)
  | fuel, low, high =>
    if high ≤ low then some (Sum.inr low)
    else
      match fuel with
      | 0 => none
      | fuel + 1 =>
        match (values.get? ((high + low) / 2)).bind (fun row => row.get? 0) with
        | none => none
        | some v =>
          if cmp r v = 1 then insertLoop cmp r values fuel ((high + low) / 2 + 1) high
          else if cmp r v = -1 then insertLoop cmp r values fuel low ((high + low) / 2)
          else if cmp r v = 0 then
            some (Sum.inl (values.set ((high + low) / 2)
              ((values.get? ((high + low) / 2)).getD [] ++ [r])))
          else none

/-- Go `(*RuneComparator).Insert`.  `none` models a panic (nil comparator
dereference, index out of range) or the non-terminating loop on an
out-of-range comparator result. -/
def Insert (rc : RuneComparator) (r : Int) : Option RuneComparator :=
  if rc.values = [] then some { rc with values := [[r]] }
  else
    match rc.comparator with
    | none => none
    | some cmp =>
      match insertLoop cmp r rc.values rc.values.length 0 (rc.values.length - 1) with
      | none => none
      | some (Sum.inl vs) => some { rc with values := vs }
      | some (Sum.inr low) =>
        match (rc.values.get? low).bind (fun row => row.get? 0) with
        | none => none
        | some v =>
          if cmp r v = 1 then some { rc with values := insertNewRow rc.values r (low + 1) }
          else if cmp r v = -1 then some { rc with values := insertNewRow rc.values r low }
          else if cmp r v = 0 then
            some { rc with values := rc.values.set low ((rc.values.get? low).getD [] ++ [r]) }
          else some rc

/-- Claim C6 counterexample: the very first `Insert` into an empty catalog
succeeds (appending a singleton row) without consulting the unset
comparator, rather than failing. -/
theorem first_insert_succeeds_without_comparator :
    Insert NewRuneComparator 65 = some ⟨[[65]], none⟩ := rfl

/-- Claim C6 (amended): with no comparator configured, `Insert` panics (nil
comparator dereference) precisely when the catalog is nonempty; the very
first insert into an empty catalog succeeds without touching the
comparator. -/
theorem insert_without_comparator (rc : RuneComparator) (r : Int)
    (h : rc.comparator = none) :
    (rc.values = [] → Insert rc r = some ⟨[[r]], none⟩) ∧
    (rc.values ≠ [] → Insert rc r = none) := by
  constructor
  · intro hv
    unfold Insert
    rw [if_pos hv]
    have : ({ rc with values := [[r]] } : RuneComparator) = ⟨[[r]], none⟩ := by
      rw [← h]
    rw [this]
  · intro hv
    unfold Insert
    rw [if_neg hv, h]

/-- Witness for C6: both branches of the amended claim at concrete
catalogs. -/
theorem insert_without_comparator_witness :
    NewRuneComparator.comparator = none ∧
    Insert NewRuneComparator 7 = some ⟨[[7]], none⟩ ∧
    Insert ⟨[[1]], none⟩ 7 = none :=
  ⟨rfl, (insert_without_comparator NewRuneComparator 7 rfl).1 rfl,
   (insert_without_comparator ⟨[[1]], none⟩ 7 rfl).2 (by simp)⟩

/-! ## RangeCompressor: static and dynamic weight ranges
(`RuneComparatorToGoFile` in src/utils/rune_comparator.go) -/

/-- Go `staticWeightRange`. -/
structure staticWeightRange where
  Weight : Int
  Lower : Int
  Upper : Int
deriving DecidableEq

/-- Go `dynamicWeightRange`. -/
structure dynamicWeightRange where
  Offset : Int
  Lower : Int
  Upper : Int
deriving DecidableEq

/-- Go `staticWeightRange.Count`. -/
def staticWeightRange.Count (s : staticWeightRange) : Int :=
  s.Upper - s.Lower + 1

/-- Go `staticWeightRange.LowerOffset`. -/
def staticWeightRange.LowerOffset (s : staticWeightRange) : Int :=
  s.Weight - s.Lower

/-- Go `dynamicWeightRange.Count`. -/
def dynamicWeightRange.Count (d : dynamicWeightRange) : Int :=
  d.Upper - d.Lower + 1

/-- Go `dynamicWeightRange.IsNext`. -/
def IsNext (dyn : dynamicWeightRange) (s : staticWeightRange) : Bool :=
  if s.Count > 1 then false
  else if s.Lower ≠ dyn.Upper + 1 then false
  else if s.LowerOffset ≠ dyn.Offset then false
  else true

/-- The `(rune, weight)` stream processed by the static-range loop: rows in
order, row index as the weight. -/
def rowsPairs (values : List (List Int)) : List (Int × Int) :=
  (values.enum.map (fun wr => wr.2.map (fun r => (r, (wr.1 : Int))))).flatten

/-- The static-range construction loop, carrying the range currently being
extended. -/
def buildStaticsAux (cur : staticWeightRange) :
    List (Int × Int) → List staticWeightRange
  | [] => [cur]
  | (r, w) :: ps =>
    if cur.Upper + 1 = r ∧ cur.Weight = w then
      buildStaticsAux { cur with Upper := r } ps
    else
      cur :: buildStaticsAux ⟨w, r, r⟩ ps

/-- The first loop of `RuneComparatorToGoFile`: maximal static ranges. -/
def buildStatics : List (Int × Int) → List staticWeightRange
  | [] => []
  | (r, w) :: ps => buildStaticsAux ⟨w, r, r⟩ ps

/-- The inner `upperIdx` scan of the dynamic-range loop: absorb successive
`IsNext` singletons, returning the extended dynamic range, the absorbed
statics, and the rest. -/
def absorb (dyn : dynamicWeightRange) :
    List staticWeightRange →
      dynamicWeightRange × List staticWeightRange × List staticWeightRange
  | [] => (dyn, [], [])
  | s :: ss =>
    if IsNext dyn s then
      ((absorb { dyn with Upper := s.Lower } ss).1,
       s :: (absorb { dyn with Upper := s.Lower } ss).2.1,
       (absorb { dyn with Upper := s.Lower } ss).2.2)
    else (dyn, [], s :: ss)

lemma absorb_rest_length (dyn : dynamicWeightRange) (ss : List staticWeightRange) :
    (absorb dyn ss).2.2.length ≤ ss.length := by
  induction ss generalizing dyn with
  | nil => simp [absorb]
  | cons s ss ih =>
    unfold absorb
    by_cases h : IsNext dyn s
    · rw [if_pos h]
      exact le_trans (ih _) (Nat.le_succ _)
    · rw [if_neg h]

/-- The second loop of `RuneComparatorToGoFile` with explicit fuel
(`buildDynamics` supplies sufficient fuel): promote runs of `IsNext`
singleton statics into dynamic ranges when they reach the size-100 cutoff,
removing them from the static list.  After a removal, the Go loop
increment skips the element that slid into the removal position, so that
element is kept uninspected. -/
def buildDynamicsFuel :
    Nat → List staticWeightRange → List staticWeightRange × List dynamicWeightRange
  | 0, st => (st, [])
  | _ + 1, [] => ([], [])
  | f + 1, s :: ss =>
    if s.Count > 1 then
      (s :: (buildDynamicsFuel f ss).1, (buildDynamicsFuel f ss).2)
    else
      if (absorb ⟨s.LowerOffset, s.Lower, s.Upper⟩ ss).1.Count ≥ 100 then
        match (absorb ⟨s.LowerOffset, s.Lower, s.Upper⟩ ss).2.2 with
        | [] => ([], [(absorb ⟨s.LowerOffset, s.Lower, s.Upper⟩ ss).1])
        | x :: rest2 =>
          (x :: (buildDynamicsFuel f rest2).1,
           (absorb ⟨s.LowerOffset, s.Lower, s.Upper⟩ ss).1 :: (buildDynamicsFuel f rest2).2)
      else
        (s :: ((absorb ⟨s.LowerOffset, s.Lower, s.Upper⟩ ss).2.1 ++
          (buildDynamicsFuel f (absorb ⟨s.LowerOffset, s.Lower, s.Upper⟩ ss).2.2).1),
         (buildDynamicsFuel f (absorb ⟨s.LowerOffset, s.Lower, s.Upper⟩ ss).2.2).2)

/-- The dynamic-range promotion pass of `RuneComparatorToGoFile`. -/
def buildDynamics (st : List staticWeightRange) :
    List staticWeightRange × List dynamicWeightRange :=
  buildDynamicsFuel (st.length + 1) st

/-- The `(code point, weight)` pairs covered by a static range. -/
def expandS (s : staticWeightRange) : List (Int × Int) :=
  (List.range (s.Upper - s.Lower + 1).toNat).map
    (fun (i : Nat) => (s.Lower + (i : Int), s.Weight))

/-- The `(code point, weight)` pairs covered by a dynamic range. -/
def expandD (d : dynamicWeightRange) : List (Int × Int) :=
  (List.range (d.Upper - d.Lower + 1).toNat).map
    (fun (i : Nat) => (d.Lower + (i : Int), d.Lower + (i : Int) + d.Offset))

def expandStatics (l : List staticWeightRange) : List (Int × Int) :=
  (l.map expandS).flatten

def expandDyns (l : List dynamicWeightRange) : List (Int × Int) :=
  (l.map expandD).flatten

lemma expandS_mem (s : staticWeightRange) (x y : Int) :
    (x, y) ∈ expandS s ↔ (s.Lower ≤ x ∧ x ≤ s.Upper ∧ y = s.Weight) := by
  unfold expandS
  constructor
  · intro h
    obtain ⟨i, hi, hxy⟩ := List.mem_map.mp h
    have hi' : (i : Int) < s.Upper - s.Lower + 1 := Int.lt_toNat.mp (List.mem_range.mp hi)
    have h1 := Prod.mk.injEq _ _ _ _ ▸ hxy
    obtain ⟨hx, hy⟩ := h1
    constructor
    · omega
    constructor
    · omega
    · omega
  · rintro ⟨h1, h2, rfl⟩
    apply List.mem_map.mpr
    refine ⟨(x - s.Lower).toNat, ?_, ?_⟩
    · apply List.mem_range.mpr
      omega
    · have : ((x - s.Lower).toNat : Int) = x - s.Lower := Int.toNat_of_nonneg (by omega)
      rw [Prod.mk.injEq]
      omega

lemma expandD_mem (d : dynamicWeightRange) (x y : Int) :
    (x, y) ∈ expandD d ↔ (d.Lower ≤ x ∧ x ≤ d.Upper ∧ y = x + d.Offset) := by
  unfold expandD
  constructor
  · intro h
    obtain ⟨i, hi, hxy⟩ := List.mem_map.mp h
    have hi' : (i : Int) < d.Upper - d.Lower + 1 := Int.lt_toNat.mp (List.mem_range.mp hi)
    have h1 := Prod.mk.injEq _ _ _ _ ▸ hxy
    obtain ⟨hx, hy⟩ := h1
    refine ⟨by omega, by omega, by omega⟩
  · rintro ⟨h1, h2, rfl⟩
    apply List.mem_map.mpr
    refine ⟨(x - d.Lower).toNat, ?_, ?_⟩
    · apply List.mem_range.mpr
      omega
    · have : ((x - d.Lower).toNat : Int) = x - d.Lower := Int.toNat_of_nonneg (by omega)
      rw [Prod.mk.injEq]
      omega

lemma expandStatics_mem (l : List staticWeightRange) (p : Int × Int) :
    p ∈ expandStatics l ↔ ∃ s ∈ l, p ∈ expandS s := by
  unfold expandStatics
  rw [List.mem_flatten]
  constructor
  · rintro ⟨block, hb, hp⟩
    obtain ⟨s, hs, hmap⟩ := List.mem_map.mp hb
    exact ⟨s, hs, hmap ▸ hp⟩
  · rintro ⟨s, hs, hp⟩
    exact ⟨expandS s, List.mem_map_of_mem _ hs, hp⟩

lemma expandDyns_mem (l : List dynamicWeightRange) (p : Int × Int) :
    p ∈ expandDyns l ↔ ∃ d ∈ l, p ∈ expandD d := by
  unfold expandDyns
  rw [List.mem_flatten]
  constructor
  · rintro ⟨block, hb, hp⟩
    obtain ⟨d, hd, hmap⟩ := List.mem_map.mp hb
    exact ⟨d, hd, hmap ▸ hp⟩
  · rintro ⟨d, hd, hp⟩
    exact ⟨expandD d, List.mem_map_of_mem _ hd, hp⟩

lemma expandStatics_cons (s : staticWeightRange) (l : List staticWeightRange) :
    expandStatics (s :: l) = expandS s ++ expandStatics l := by
  simp [expandStatics]

lemma expandStatics_append (a b : List staticWeightRange) :
    expandStatics (a ++ b) = expandStatics a ++ expandStatics b := by
  simp [expandStatics]

lemma expandDyns_cons (d : dynamicWeightRange) (l : List dynamicWeightRange) :
    expandDyns (d :: l) = expandD d ++ expandDyns l := by
  simp [expandDyns]

lemma rowsPairs_fst (values : List (List Int)) :
    (rowsPairs values).map Prod.fst = values.flatten := by
  unfold rowsPairs
  rw [List.map_flatten, List.map_map]
  have hfun : (List.map Prod.fst ∘ fun wr : Nat × List Int =>
      wr.2.map (fun r => (r, (wr.1 : Int)))) = fun wr => wr.2 := by
    funext wr
    show List.map Prod.fst (wr.2.map (fun r => (r, (wr.1 : Int)))) = wr.2
    rw [List.map_map]
    exact List.map_id wr.2
  rw [hfun]
  rw [List.enum_map_snd]

lemma rowsPairs_mem_of (values : List (List Int)) (w : Nat) (row : List Int)
    (hw : values.get? w = some row) (c : Int) (hc : c ∈ row) :
    (c, (w : Int)) ∈ rowsPairs values := by
  unfold rowsPairs
  apply List.mem_flatten.mpr
  refine ⟨row.map (fun r => (r, (w : Int))), ?_, List.mem_map_of_mem _ hc⟩
  apply List.mem_map.mpr
  refine ⟨(w, row), ?_, rfl⟩
  apply List.mem_enum_iff_getElem?.mpr
  rw [← List.get?_eq_getElem?]
  exact hw

lemma expandS_singleton (w r : Int) : expandS ⟨w, r, r⟩ = [(r, w)] := by
  unfold expandS
  norm_num [List.range_succ]

lemma expandS_extend (cur : staticWeightRange) (h : cur.Lower ≤ cur.Upper + 1) :
    expandS { cur with Upper := cur.Upper + 1 } =
      expandS cur ++ [(cur.Upper + 1, cur.Weight)] := by
  unfold expandS
  have hcnt : (cur.Upper + 1 - cur.Lower + 1).toNat = (cur.Upper - cur.Lower + 1).toNat + 1 := by
    omega
  rw [show ({ cur with Upper := cur.Upper + 1 } : staticWeightRange).Upper = cur.Upper + 1
    from rfl]
  rw [show ({ cur with Upper := cur.Upper + 1 } : staticWeightRange).Lower = cur.Lower
    from rfl]
  rw [show ({ cur with Upper := cur.Upper + 1 } : staticWeightRange).Weight = cur.Weight
    from rfl]
  rw [hcnt, List.range_succ, List.map_append]
  congr 1
  simp only [List.map_cons, List.map_nil, List.cons.injEq, and_true]
  rw [Prod.mk.injEq]
  constructor
  · have : (((cur.Upper - cur.Lower + 1).toNat : Int)) = cur.Upper - cur.Lower + 1 := by
      omega
    omega
  · rfl

lemma expandD_extend (d : dynamicWeightRange) (h : d.Lower ≤ d.Upper + 1) :
    expandD { d with Upper := d.Upper + 1 } =
      expandD d ++ [(d.Upper + 1, d.Upper + 1 + d.Offset)] := by
  unfold expandD
  have hcnt : (d.Upper + 1 - d.Lower + 1).toNat = (d.Upper - d.Lower + 1).toNat + 1 := by
    omega
  rw [show ({ d with Upper := d.Upper + 1 } : dynamicWeightRange).Upper = d.Upper + 1
    from rfl]
  rw [show ({ d with Upper := d.Upper + 1 } : dynamicWeightRange).Lower = d.Lower
    from rfl]
  rw [show ({ d with Upper := d.Upper + 1 } : dynamicWeightRange).Offset = d.Offset
    from rfl]
  rw [hcnt, List.range_succ, List.map_append]
  congr 1
  simp only [List.map_cons, List.map_nil, List.cons.injEq, and_true]
  have : (((d.Upper - d.Lower + 1).toNat : Int)) = d.Upper - d.Lower + 1 := by omega
  rw [Prod.mk.injEq]
  omega

lemma buildStaticsAux_expand (ps : List (Int × Int)) :
    ∀ cur : staticWeightRange, cur.Lower ≤ cur.Upper →
      expandStatics (buildStaticsAux cur ps) = expandS cur ++ ps := by
  induction ps with
  | nil =>
    intro cur _
    simp [buildStaticsAux, expandStatics]
  | cons p ps ih =>
    intro cur hcur
    obtain ⟨r, w⟩ := p
    unfold buildStaticsAux
    by_cases h : cur.Upper + 1 = r ∧ cur.Weight = w
    · rw [if_pos h]
      obtain ⟨hr, hw⟩ := h
      have hext := ih { cur with Upper := cur.Upper + 1 } (by simp; omega)
      rw [show ({ cur with Upper := r } : staticWeightRange)
          = { cur with Upper := cur.Upper + 1 } by rw [← hr]]
      rw [hext, expandS_extend cur (by omega), hr, hw]
      simp
    · rw [if_neg h]
      rw [expandStatics_cons, ih ⟨w, r, r⟩ (le_refl _), expandS_singleton]
      simp

lemma buildStatics_expand (ps : List (Int × Int)) :
    expandStatics (buildStatics ps) = ps := by
  cases ps with
  | nil => simp [buildStatics, expandStatics]
  | cons p ps =>
    obtain ⟨r, w⟩ := p
    unfold buildStatics
    rw [buildStaticsAux_expand ps ⟨w, r, r⟩ (le_refl _), expandS_singleton]
    rfl

lemma buildStaticsAux_LB (ps : List (Int × Int)) :
    ∀ cur : staticWeightRange, cur.Lower ≤ cur.Upper →
      ∀ s ∈ buildStaticsAux cur ps, s.Lower ≤ s.Upper := by
  induction ps with
  | nil =>
    intro cur hcur s hs
    simp only [buildStaticsAux, List.mem_singleton] at hs
    exact hs ▸ hcur
  | cons p ps ih =>
    intro cur hcur s hs
    obtain ⟨r, w⟩ := p
    unfold buildStaticsAux at hs
    by_cases h : cur.Upper + 1 = r ∧ cur.Weight = w
    · rw [if_pos h] at hs
      refine ih { cur with Upper := r } ?_ s hs
      simp
      omega
    · rw [if_neg h] at hs
      rcases List.mem_cons.mp hs with hs | hs
      · exact hs ▸ hcur
      · exact ih ⟨w, r, r⟩ (le_refl _) s hs

lemma buildStatics_LB (ps : List (Int × Int)) :
    ∀ s ∈ buildStatics ps, s.Lower ≤ s.Upper := by
  cases ps with
  | nil => simp [buildStatics]
  | cons p ps =>
    obtain ⟨r, w⟩ := p
    exact buildStaticsAux_LB ps ⟨w, r, r⟩ (le_refl _)

lemma IsNext_true (dyn : dynamicWeightRange) (s : staticWeightRange)
    (h : IsNext dyn s = true) :
    s.Count ≤ 1 ∧ s.Lower = dyn.Upper + 1 ∧ s.LowerOffset = dyn.Offset := by
  unfold IsNext at h
  by_cases h1 : s.Count > 1
  · rw [if_pos h1] at h
    exact absurd h (by simp)
  · rw [if_neg h1] at h
    by_cases h2 : s.Lower ≠ dyn.Upper + 1
    · rw [if_pos h2] at h
      exact absurd h (by simp)
    · rw [if_neg h2] at h
      by_cases h3 : s.LowerOffset ≠ dyn.Offset
      · rw [if_pos h3] at h
        exact absurd h (by simp)
      · exact ⟨by omega, by omega, by
          have := not_not.mp h3
          exact this⟩

lemma absorb_spec (ss : List staticWeightRange) :
    ∀ dyn : dynamicWeightRange, (∀ s ∈ ss, s.Lower ≤ s.Upper) →
      dyn.Lower ≤ dyn.Upper →
      (absorb dyn ss).2.1 ++ (absorb dyn ss).2.2 = ss ∧
      (absorb dyn ss).1.Lower = dyn.Lower ∧
      dyn.Upper ≤ (absorb dyn ss).1.Upper ∧
      (absorb dyn ss).1.Offset = dyn.Offset ∧
      (absorb dyn ss).1.Lower ≤ (absorb dyn ss).1.Upper ∧
      expandD (absorb dyn ss).1 = expandD dyn ++ expandStatics (absorb dyn ss).2.1 := by
  induction ss with
  | nil =>
    intro dyn _ hd
    refine ⟨rfl, rfl, le_refl _, rfl, hd, by simp [absorb, expandStatics]⟩
  | cons s ss ih =>
    intro dyn hss hd
    unfold absorb
    by_cases h : IsNext dyn s
    · rw [if_pos h]
      obtain ⟨hc1, hc2, hc3⟩ := IsNext_true dyn s h
      have hsLB := hss s (by simp)
      have hsing : s.Lower = s.Upper := by
        unfold staticWeightRange.Count at hc1
        omega
      have hext : ({ dyn with Upper := s.Lower } : dynamicWeightRange)
          = { dyn with Upper := dyn.Upper + 1 } := by
        rw [hc2]
      obtain ⟨ih1, ih2, ih3, ih4, ih5, ih6⟩ :=
        ih { dyn with Upper := s.Lower } (fun q hq => hss q (by simp [hq]))
          (by simp; omega)
      refine ⟨?_, ih2, ?_, ih4, ih5, ?_⟩
      · simp only [List.cons_append, List.cons.injEq, true_and]
        exact ih1
      · show dyn.Upper ≤ (absorb { dyn with Upper := s.Lower } ss).1.Upper
        have h5 : ({ dyn with Upper := s.Lower } : dynamicWeightRange).Upper = s.Lower := rfl
        omega
      · rw [ih6, hext, expandD_extend dyn (by omega), expandStatics_cons]
        have hel : (dyn.Upper + 1, dyn.Upper + 1 + dyn.Offset) = (s.Lower, s.Weight) := by
          unfold staticWeightRange.LowerOffset at hc3
          rw [Prod.mk.injEq]
          omega
        have hes : expandS s = [(s.Lower, s.Weight)] := by
          unfold expandS
          rw [show (s.Upper - s.Lower + 1).toNat = 1 by omega]
          norm_num [List.range_succ]
        rw [hel, hes]
        simp
    · rw [if_neg h]
      refine ⟨rfl, rfl, le_refl _, rfl, hd, by simp [expandStatics]⟩

lemma perm_swap_blocks {α : Type} (a b c : List α) :
    (a ++ (b ++ c)).Perm (b ++ (a ++ c)) := by
  have h1 : (a ++ (b ++ c)) = (a ++ b) ++ c := (List.append_assoc _ _ _).symm
  have h2 : ((a ++ b) ++ c).Perm ((b ++ a) ++ c) :=
    List.perm_append_comm.append_right c
  have h3 : ((b ++ a) ++ c) = b ++ (a ++ c) := List.append_assoc _ _ _
  rw [h1, ← h3]
  exact h2

/-- The dynamic-range pass only repartitions the covered `(code point,
weight)` pairs: the statics it keeps plus the dynamics it promotes expand
to a permutation of the original statics' expansion. -/
lemma buildDynamicsFuel_perm (f : Nat) :
    ∀ st : List staticWeightRange, st.length < f → (∀ s ∈ st, s.Lower ≤ s.Upper) →
      (expandStatics (buildDynamicsFuel f st).1 ++
        expandDyns (buildDynamicsFuel f st).2).Perm (expandStatics st) := by
  induction f with
  | zero =>
    intro st h
    omega
  | succ f ih =>
    intro st hlt hLB
    cases st with
    | nil =>
      simp [buildDynamicsFuel, expandStatics, expandDyns]
    | cons s ss =>
      have hslen : ss.length < f := by
        simp only [List.length_cons] at hlt
        omega
      have hsLB : s.Lower ≤ s.Upper := hLB s (by simp)
      have hssLB : ∀ q ∈ ss, q.Lower ≤ q.Upper := fun q hq => hLB q (by simp [hq])
      by_cases hc : s.Count > 1
      · have heq : buildDynamicsFuel (f + 1) (s :: ss) =
            (s :: (buildDynamicsFuel f ss).1, (buildDynamicsFuel f ss).2) := by
          conv_lhs => unfold buildDynamicsFuel
          rw [if_pos hc]
        rw [heq, expandStatics_cons, expandStatics_cons, List.append_assoc]
        exact (ih ss hslen hssLB).append_left (expandS s)
      · have hsing : s.Lower = s.Upper := by
          unfold staticWeightRange.Count at hc
          omega
        obtain ⟨hA1, hA2, hA3, hA4, hA5, hA6⟩ :=
          absorb_spec ss (⟨s.LowerOffset, s.Lower, s.Upper⟩ : dynamicWeightRange)
            hssLB (by simpa using hsLB)
        have hd0exp : expandD (⟨s.LowerOffset, s.Lower, s.Upper⟩ : dynamicWeightRange) =
            expandS s := by
          unfold expandD expandS
          rw [show ((⟨s.LowerOffset, s.Lower, s.Upper⟩ :
            dynamicWeightRange).Upper - (⟨s.LowerOffset, s.Lower, s.Upper⟩ :
            dynamicWeightRange).Lower + 1).toNat = 1 from by simp; omega]
          norm_num [List.range_succ, staticWeightRange.LowerOffset]
        have hAexp : expandD (absorb (⟨s.LowerOffset, s.Lower, s.Upper⟩ :
            dynamicWeightRange) ss).1 = expandS s ++
            expandStatics (absorb (⟨s.LowerOffset, s.Lower, s.Upper⟩ :
              dynamicWeightRange) ss).2.1 := by
          rw [hA6, hd0exp]
        by_cases h100 : (absorb (⟨s.LowerOffset, s.Lower, s.Upper⟩ :
            dynamicWeightRange) ss).1.Count ≥ 100
        · cases hA22 : (absorb (⟨s.LowerOffset, s.Lower, s.Upper⟩ :
              dynamicWeightRange) ss).2.2 with
          | nil =>
            have heq : buildDynamicsFuel (f + 1) (s :: ss) =
                ([], [(absorb (⟨s.LowerOffset, s.Lower, s.Upper⟩ :
                  dynamicWeightRange) ss).1]) := by
              conv_lhs => unfold buildDynamicsFuel
              rw [if_neg hc, if_pos h100, hA22]
            rw [heq]
            have hss_eq : (absorb (⟨s.LowerOffset, s.Lower, s.Upper⟩ :
                dynamicWeightRange) ss).2.1 = ss := by
              rw [hA22, List.append_nil] at hA1
              exact hA1
            have hL : expandStatics ([] : List staticWeightRange) ++
                expandDyns [(absorb (⟨s.LowerOffset, s.Lower, s.Upper⟩ :
                  dynamicWeightRange) ss).1] =
                expandD (absorb (⟨s.LowerOffset, s.Lower, s.Upper⟩ :
                  dynamicWeightRange) ss).1 := by
              simp [expandStatics, expandDyns]
            rw [hL, hAexp, hss_eq, expandStatics_cons]
          | cons x rest2 =>
            have heq : buildDynamicsFuel (f + 1) (s :: ss) =
                (x :: (buildDynamicsFuel f rest2).1,
                 (absorb (⟨s.LowerOffset, s.Lower, s.Upper⟩ :
                   dynamicWeightRange) ss).1 :: (buildDynamicsFuel f rest2).2) := by
              conv_lhs => unfold buildDynamicsFuel
              rw [if_neg hc, if_pos h100, hA22]
            rw [heq]
            rw [hA22] at hA1
            have hr2LB : ∀ q ∈ rest2, q.Lower ≤ q.Upper := by
              intro q hq
              exact hssLB q (by rw [← hA1]; simp [hq])
            have hr2len : rest2.length < f := by
              have h2 : rest2.length + 1 ≤ ss.length := by
                rw [← hA1]
                simp
              omega
            have hIH := ih rest2 hr2len hr2LB
            have hgoalR : expandStatics (s :: ss) =
                (expandS s ++ expandStatics (absorb (⟨s.LowerOffset, s.Lower, s.Upper⟩ :
                  dynamicWeightRange) ss).2.1) ++
                  (expandS x ++ expandStatics rest2) := by
              rw [expandStatics_cons]
              conv_lhs => rw [← hA1]
              rw [expandStatics_append, expandStatics_cons]
              exact (List.append_assoc _ _ _).symm
            rw [hgoalR, expandStatics_cons, expandDyns_cons, hAexp]
            refine (perm_swap_blocks
              (expandS x ++ expandStatics (buildDynamicsFuel f rest2).1)
              (expandS s ++ expandStatics (absorb (⟨s.LowerOffset, s.Lower, s.Upper⟩ :
                dynamicWeightRange) ss).2.1)
              (expandDyns (buildDynamicsFuel f rest2).2)).trans ?_
            apply List.Perm.append_left
            rw [List.append_assoc]
            exact hIH.append_left (expandS x)
        · have heq : buildDynamicsFuel (f + 1) (s :: ss) =
              (s :: ((absorb (⟨s.LowerOffset, s.Lower, s.Upper⟩ :
                dynamicWeightRange) ss).2.1 ++
                (buildDynamicsFuel f (absorb (⟨s.LowerOffset, s.Lower, s.Upper⟩ :
                  dynamicWeightRange) ss).2.2).1),
               (buildDynamicsFuel f (absorb (⟨s.LowerOffset, s.Lower, s.Upper⟩ :
                 dynamicWeightRange) ss).2.2).2) := by
            conv_lhs => unfold buildDynamicsFuel
            rw [if_neg hc, if_neg h100]
          rw [heq]
          have hrLB : ∀ q ∈ (absorb (⟨s.LowerOffset, s.Lower, s.Upper⟩ :
              dynamicWeightRange) ss).2.2, q.Lower ≤ q.Upper := by
            intro q hq
            exact hssLB q (by rw [← hA1]; simp [hq])
          have hrlen : (absorb (⟨s.LowerOffset, s.Lower, s.Upper⟩ :
              dynamicWeightRange) ss).2.2.length < f := by
            have h1 : (absorb (⟨s.LowerOffset, s.Lower, s.Upper⟩ :
                dynamicWeightRange) ss).2.2.length ≤ ss.length :=
              absorb_rest_length _ _
            omega
          have hIH := ih _ hrlen hrLB
          rw [expandStatics_cons, expandStatics_append, expandStatics_cons]
          conv_rhs => rw [← hA1]
          rw [expandStatics_append]
          rw [List.append_assoc, List.append_assoc]
          apply List.Perm.append_left
          apply List.Perm.append_left
          exact hIH

lemma nodupFst_unique {L : List (Int × Int)} (h : (L.map Prod.fst).Nodup)
    {x y1 y2 : Int} (h1 : (x, y1) ∈ L) (h2 : (x, y2) ∈ L) : y1 = y2 := by
  induction L with
  | nil => simp at h1
  | cons p ps ih =>
    simp only [List.map_cons, List.nodup_cons] at h
    rcases List.mem_cons.mp h1 with h1 | h1 <;> rcases List.mem_cons.mp h2 with h2 | h2
    · rw [← h1] at h2
      exact (Prod.mk.injEq _ _ _ _ ▸ h2).2.symm
    · exfalso
      apply h.1
      apply List.mem_map.mpr
      exact ⟨(x, y2), h2, by rw [← h1]⟩
    · exfalso
      apply h.1
      apply List.mem_map.mpr
      exact ⟨(x, y1), h1, by rw [← h2]⟩
    · exact ih h.2 h1 h2

/-- Claim C8: for a finalized row sequence (rows of pairwise-distinct code
points), the static and dynamic weight ranges computed by
`RuneComparatorToGoFile` are disjoint, their union covers exactly the
inserted code points, and lookup is correct: every dynamic range containing
a code point `c` of row `w` satisfies `c + Offset = w`, and when no dynamic
range contains `c` some static range contains it with `Weight = w`. -/
theorem compressor_ranges_correct (values : List (List Int))
    (hnd : values.flatten.Nodup) :
    (∀ c : Int,
      ¬((∃ d ∈ (buildDynamics (buildStatics (rowsPairs values))).2,
            d.Lower ≤ c ∧ c ≤ d.Upper) ∧
        (∃ s ∈ (buildDynamics (buildStatics (rowsPairs values))).1,
            s.Lower ≤ c ∧ c ≤ s.Upper))) ∧
    (∀ c : Int,
      ((∃ d ∈ (buildDynamics (buildStatics (rowsPairs values))).2,
          d.Lower ≤ c ∧ c ≤ d.Upper) ∨
       (∃ s ∈ (buildDynamics (buildStatics (rowsPairs values))).1,
          s.Lower ≤ c ∧ c ≤ s.Upper)) ↔ c ∈ values.flatten) ∧
    (∀ (w : Nat) (row : List Int), values.get? w = some row → ∀ c ∈ row,
      (∀ d ∈ (buildDynamics (buildStatics (rowsPairs values))).2,
          d.Lower ≤ c → c ≤ d.Upper → c + d.Offset = (w : Int)) ∧
      ((∀ d ∈ (buildDynamics (buildStatics (rowsPairs values))).2,
          ¬(d.Lower ≤ c ∧ c ≤ d.Upper)) →
        ∃ s ∈ (buildDynamics (buildStatics (rowsPairs values))).1,
          s.Lower ≤ c ∧ c ≤ s.Upper ∧ s.Weight = (w : Int))) := by
  have hLB := buildStatics_LB (rowsPairs values)
  have hperm0 := buildDynamicsFuel_perm ((buildStatics (rowsPairs values)).length + 1)
    (buildStatics (rowsPairs values)) (Nat.lt_succ_self _) hLB
  rw [buildStatics_expand] at hperm0
  have hperm : (expandStatics (buildDynamics (buildStatics (rowsPairs values))).1 ++
      expandDyns (buildDynamics (buildStatics (rowsPairs values))).2).Perm
      (rowsPairs values) := hperm0
  have hfst : ((expandStatics (buildDynamics (buildStatics (rowsPairs values))).1 ++
      expandDyns (buildDynamics (buildStatics (rowsPairs values))).2).map
        Prod.fst).Perm values.flatten := by
    have h1 := hperm.map Prod.fst
    rw [rowsPairs_fst] at h1
    exact h1
  have hndL : ((expandStatics (buildDynamics (buildStatics (rowsPairs values))).1 ++
      expandDyns (buildDynamics (buildStatics (rowsPairs values))).2).map
        Prod.fst).Nodup := hfst.nodup_iff.mpr hnd
  have hdisj : (List.map Prod.fst
      (expandStatics (buildDynamics (buildStatics (rowsPairs values))).1)).Disjoint
      (List.map Prod.fst
        (expandDyns (buildDynamics (buildStatics (rowsPairs values))).2)) := by
    rw [List.map_append] at hndL
    exact (List.nodup_append.mp hndL).2.2
  refine ⟨?_, ?_, ?_⟩
  · rintro c ⟨⟨d, hd, hdc1, hdc2⟩, ⟨s, hs, hsc1, hsc2⟩⟩
    have hpd : (c, c + d.Offset) ∈
        expandDyns (buildDynamics (buildStatics (rowsPairs values))).2 :=
      (expandDyns_mem _ _).mpr ⟨d, hd, (expandD_mem _ _ _).mpr ⟨hdc1, hdc2, rfl⟩⟩
    have hps : (c, s.Weight) ∈
        expandStatics (buildDynamics (buildStatics (rowsPairs values))).1 :=
      (expandStatics_mem _ _).mpr ⟨s, hs, (expandS_mem _ _ _).mpr ⟨hsc1, hsc2, rfl⟩⟩
    exact hdisj (List.mem_map.mpr ⟨(c, s.Weight), hps, rfl⟩)
      (List.mem_map.mpr ⟨(c, c + d.Offset), hpd, rfl⟩)
  · intro c
    constructor
    · rintro (⟨d, hd, hdc1, hdc2⟩ | ⟨s, hs, hsc1, hsc2⟩)
      · have hpd : (c, c + d.Offset) ∈
            expandDyns (buildDynamics (buildStatics (rowsPairs values))).2 :=
          (expandDyns_mem _ _).mpr ⟨d, hd, (expandD_mem _ _ _).mpr ⟨hdc1, hdc2, rfl⟩⟩
        refine hfst.mem_iff.mp ?_
        exact List.mem_map.mpr ⟨(c, c + d.Offset), List.mem_append_right _ hpd, rfl⟩
      · have hps : (c, s.Weight) ∈
            expandStatics (buildDynamics (buildStatics (rowsPairs values))).1 :=
          (expandStatics_mem _ _).mpr ⟨s, hs, (expandS_mem _ _ _).mpr ⟨hsc1, hsc2, rfl⟩⟩
        refine hfst.mem_iff.mp ?_
        exact List.mem_map.mpr ⟨(c, s.Weight), List.mem_append_left _ hps, rfl⟩
    · intro hc
      rw [← rowsPairs_fst] at hc
      obtain ⟨p, hp, hpc⟩ := List.mem_map.mp hc
      obtain ⟨c', y⟩ := p
      have hp' : (c, y) ∈ rowsPairs values := by
        rw [← hpc]
        exact hp
      have hpL : (c, y) ∈
          expandStatics (buildDynamics (buildStatics (rowsPairs values))).1 ++
            expandDyns (buildDynamics (buildStatics (rowsPairs values))).2 :=
        hperm.mem_iff.mpr hp'
      rcases List.mem_append.mp hpL with hL | hL
      · obtain ⟨s, hs, hm⟩ := (expandStatics_mem _ _).mp hL
        obtain ⟨h1, h2, _⟩ := (expandS_mem _ _ _).mp hm
        exact Or.inr ⟨s, hs, h1, h2⟩
      · obtain ⟨d, hd, hm⟩ := (expandDyns_mem _ _).mp hL
        obtain ⟨h1, h2, _⟩ := (expandD_mem _ _ _).mp hm
        exact Or.inl ⟨d, hd, h1, h2⟩
  · intro w row hw c hc
    have hpair : (c, (w : Int)) ∈ rowsPairs values :=
      rowsPairs_mem_of values w row hw c hc
    have hpairL : (c, (w : Int)) ∈
        expandStatics (buildDynamics (buildStatics (rowsPairs values))).1 ++
          expandDyns (buildDynamics (buildStatics (rowsPairs values))).2 :=
      hperm.mem_iff.mpr hpair
    constructor
    · intro d hd h1 h2
      have hpd : (c, c + d.Offset) ∈
          expandDyns (buildDynamics (buildStatics (rowsPairs values))).2 :=
        (expandDyns_mem _ _).mpr ⟨d, hd, (expandD_mem _ _ _).mpr ⟨h1, h2, rfl⟩⟩
      exact nodupFst_unique hndL (List.mem_append_right _ hpd) hpairL
    · intro hnone
      rcases List.mem_append.mp hpairL with hL | hL
      · obtain ⟨s, hs, hm⟩ := (expandStatics_mem _ _).mp hL
        obtain ⟨h1, h2, hyw⟩ := (expandS_mem _ _ _).mp hm
        exact ⟨s, hs, h1, h2, hyw.symm⟩
      · obtain ⟨d, hd, hm⟩ := (expandDyns_mem _ _).mp hL
        obtain ⟨h1, h2, _⟩ := (expandD_mem _ _ _).mp hm
        exact absurd ⟨h1, h2⟩ (hnone d hd)

/-! ## CharacterSetEncodingTree: AddChild / SetData
(src/utils/character_set_encoding_tree.go) -/

/-- Go `CharacterSetEncodingTree`: payload, children keyed by byte value,
and the cached min/max child byte.  The Go map is modelled as an
association list. -/
inductive CSTree where
  | mk (data : Option (List Nat)) (nodes : List (Nat × CSTree)) (min max : Nat)

def CSTree.data : CSTree → Option (List Nat)
  | CSTree.mk d _ _ _ => d

def CSTree.nodes : CSTree → List (Nat × CSTree)
  | CSTree.mk _ ns _ _ => ns

def CSTree.min : CSTree → Nat
  | CSTree.mk _ _ mn _ => mn

def CSTree.max : CSTree → Nat
  | CSTree.mk _ _ _ mx => mx

/-- Go `NewCharacterSetEncodingTree`: nil data, empty node map, zero-valued
min/max. -/
def NewCharacterSetEncodingTree : CSTree := CSTree.mk none [] 0 0

/-- Go `cset.nodes[val]` (map read). -/
def lookupChild : List (Nat × CSTree) → Nat → Option CSTree
  | [], _ => none
  | (w, c) :: rest, v => if w = v then some c else lookupChild rest v

/-- Go `cset.nodes[val] = child` when the key is already present. -/
def updateChild : List (Nat × CSTree) → Nat → CSTree → List (Nat × CSTree)
  | [], _, _ => []
  | (w, c) :: rest, v, t => if w = v then (w, t) :: rest else (w, c) :: updateChild rest v t

/-- Go `AddChild` acting on a single node: update min/max from the
pre-insertion state, then return the existing subtree or insert a fresh
empty child.  The payload is never inspected. -/
def addChildNode (t : CSTree) (v : Nat) : CSTree :=
  CSTree.mk t.data
    (match lookupChild t.nodes v with
     | some _ => t.nodes
     | none => t.nodes ++ [(v, CSTree.mk none [] 0 0)])
    (match t.nodes with
     | [] => v
     | _ :: _ => if v < t.min then v else t.min)
    (match t.nodes with
     | [] => v
     | _ :: _ => if v < t.min then t.max else if v > t.max then v else t.max)

/-- Go `SetData`: fails (returning the node unchanged and `false`) when the
node has subtrees or data was set previously. -/
def setDataNode (t : CSTree) (d : List Nat) : CSTree × Bool :=
  if t.nodes.length > 0 ∨ t.data ≠ none then (t, false)
  else (CSTree.mk (some d) t.nodes t.min t.max, true)

/-- Descend from the root along a byte path. -/
def lookupPath : CSTree → List Nat → Option CSTree
  | t, [] => some t
  | t, v :: q =>
    match lookupChild t.nodes v with
    | none => none
    | some c => lookupPath c q

/-- Apply a node transformation at the end of an existing byte path,
rebuilding the spine (Go mutates the pointed-to node in place). -/
def modifyAt : CSTree → List Nat → (CSTree → CSTree) → Option CSTree
  | t, [], f => some (f t)
  | t, v :: q, f =>
    match lookupChild t.nodes v with
    | none => none
    | some c =>
      match modifyAt c q f with
      | none => none
      | some c' => some (CSTree.mk t.data (updateChild t.nodes v c') t.min t.max)

/-- A client call on a node previously obtained from chained `AddChild`
returns: `AddChild(v)` or `SetData(d)` at a byte path from the root. -/
inductive TreeOp where
  | addChild (path : List Nat) (v : Nat)
  | setData (path : List Nat) (d : List Nat)

def applyOp (t : CSTree) : TreeOp → Option CSTree
  | TreeOp.addChild path v => modifyAt t path (fun n => addChildNode n v)
  | TreeOp.setData path d => modifyAt t path (fun n => (setDataNode n d).1)

def applyOps (t : CSTree) : List TreeOp → Option CSTree
  | [] => some t
  | op :: ops =>
    match applyOp t op with
    | none => none
    | some t' => applyOps t' ops

/-- An `AddChild` call is well-targeted when the node it is invoked on does
not already hold a payload (the usage pattern of the extractor: children
are added only along interior prefixes, payloads only at complete
sequences). -/
def goodOp (t : CSTree) : TreeOp → Bool
  | TreeOp.addChild path _ =>
    match lookupPath t path with
    | none => true
    | some c => decide (c.data = none)
  | TreeOp.setData _ _ => true

def goodSeq (t : CSTree) : List TreeOp → Bool
  | [] => true
  | op :: ops =>
    goodOp t op &&
      (match applyOp t op with
       | none => true
       | some t' => goodSeq t' ops)

/-- No reachable node holds both a payload and a child. -/
def NoBoth (t : CSTree) : Prop :=
  ∀ q c, lookupPath t q = some c → c.data = none ∨ c.nodes = []

lemma lookupPath_cons (t : CSTree) (v : Nat) (q : List Nat) :
    lookupPath t (v :: q) =
      match lookupChild t.nodes v with
      | none => none
      | some c => lookupPath c q := rfl

lemma NoBoth.root {t : CSTree} (h : NoBoth t) : t.data = none ∨ t.nodes = [] :=
  h [] t rfl

lemma NoBoth.child {t : CSTree} (h : NoBoth t) {v : Nat} {c : CSTree}
    (hc : lookupChild t.nodes v = some c) : NoBoth c := by
  intro q c' hq
  refine h (v :: q) c' ?_
  rw [lookupPath_cons, hc]
  exact hq

lemma NoBoth_mk {d : Option (List Nat)} {ns : List (Nat × CSTree)} {mn mx : Nat}
    (hroot : d = none ∨ ns = [])
    (hch : ∀ v c, lookupChild ns v = some c → NoBoth c) :
    NoBoth (CSTree.mk d ns mn mx) := by
  intro q c hq
  cases q with
  | nil =>
    cases hq
    exact hroot
  | cons v q' =>
    rw [lookupPath_cons] at hq
    have hq' : (match lookupChild ns v with
        | none => none
        | some c => lookupPath c q') = some c := hq
    clear hq
    revert hq'
    cases hvc : lookupChild ns v with
    | none => intro hq'; exact absurd hq' (by simp)
    | some c0 =>
      intro hq'
      exact hch v c0 hvc q' c hq'

lemma NoBoth_empty : NoBoth (CSTree.mk none [] 0 0) := by
  refine NoBoth_mk (Or.inl rfl) ?_
  intro v c hvc
  exact absurd hvc (by simp [lookupChild])

lemma lookupChild_updateChild (ns : List (Nat × CSTree)) (v : Nat) (c c' : CSTree)
    (hv : lookupChild ns v = some c) (w : Nat) :
    lookupChild (updateChild ns v c') w =
      if w = v then some c' else lookupChild ns w := by
  induction ns with
  | nil => simp [lookupChild] at hv
  | cons p rest ih =>
    obtain ⟨u, x⟩ := p
    simp only [lookupChild] at hv
    by_cases huv : u = v
    · subst huv
      simp only [updateChild, if_pos rfl, lookupChild]
      by_cases hwu : w = u
      · subst hwu
        rw [if_pos rfl, if_pos rfl]
      · rw [if_neg (fun h => hwu h.symm), if_neg hwu, if_neg (fun h => hwu h.symm)]
    · rw [if_neg huv] at hv
      simp only [updateChild, if_neg huv, lookupChild]
      by_cases huw : u = w
      · have hwv : ¬ w = v := fun h => huv (huw.trans h)
        rw [if_pos huw, if_neg hwv, if_pos huw]
      · rw [if_neg huw, ih hv, if_neg huw]

lemma lookupChild_append_some (ns : List (Nat × CSTree)) (v w : Nat)
    (e c : CSTree) (hw : lookupChild ns w = some c) :
    lookupChild (ns ++ [(v, e)]) w = some c := by
  induction ns with
  | nil => simp [lookupChild] at hw
  | cons p rest ih =>
    obtain ⟨u, x⟩ := p
    simp only [lookupChild] at hw
    simp only [List.cons_append, lookupChild]
    by_cases huw : u = w
    · rw [if_pos huw]
      rw [if_pos huw] at hw
      exact hw
    · rw [if_neg huw]
      rw [if_neg huw] at hw
      exact ih hw

lemma lookupChild_append_none (ns : List (Nat × CSTree)) (v w : Nat)
    (e : CSTree) (hw : lookupChild ns w = none) :
    lookupChild (ns ++ [(v, e)]) w = if v = w then some e else none := by
  induction ns with
  | nil =>
    show (if v = w then some e else lookupChild [] w) = _
    rfl
  | cons p rest ih =>
    obtain ⟨u, x⟩ := p
    simp only [lookupChild] at hw
    simp only [List.cons_append, lookupChild]
    by_cases huw : u = w
    · rw [if_pos huw] at hw
      exact absurd hw (by simp)
    · rw [if_neg huw] at hw
      rw [if_neg huw]
      exact ih hw

lemma addChildNode_NoBoth (n : CSTree) (v : Nat) (hn : NoBoth n)
    (hd : n.data = none) : NoBoth (addChildNode n v) := by
  unfold addChildNode
  cases hl : lookupChild n.nodes v with
  | some c0 =>
    refine NoBoth_mk (Or.inl hd) ?_
    intro w c hwc
    exact hn.child hwc
  | none =>
    refine NoBoth_mk (Or.inl hd) ?_
    intro w c hwc
    have hwc' : lookupChild (n.nodes ++ [(v, CSTree.mk none [] 0 0)]) w = some c := hwc
    clear hwc
    cases hw : lookupChild n.nodes w with
    | some c1 =>
      rw [lookupChild_append_some n.nodes v w _ c1 hw] at hwc'
      cases hwc'
      exact hn.child hw
    | none =>
      rw [lookupChild_append_none n.nodes v w _ hw] at hwc'
      by_cases hvw : v = w
      · rw [if_pos hvw] at hwc'
        cases hwc'
        exact NoBoth_empty
      · rw [if_neg hvw] at hwc'
        exact absurd hwc' (by simp)

lemma setDataNode_NoBoth (n : CSTree) (d : List Nat) (hn : NoBoth n) :
    NoBoth (setDataNode n d).1 := by
  unfold setDataNode
  by_cases hg : n.nodes.length > 0 ∨ n.data ≠ none
  · rw [if_pos hg]
    exact hn
  · rw [if_neg hg]
    push_neg at hg
    have hns : n.nodes = [] := List.length_eq_zero.mp (Nat.le_zero.mp hg.1)
    refine NoBoth_mk (Or.inr hns) ?_
    intro w c hwc
    rw [hns] at hwc
    exact absurd hwc (by simp [lookupChild])

lemma modifyAt_lookup : ∀ (p : List Nat) (t : CSTree) (f : CSTree → CSTree)
    (t' : CSTree), modifyAt t p f = some t' → ∃ n, lookupPath t p = some n := by
  intro p
  induction p with
  | nil =>
    intro t f t' _
    exact ⟨t, rfl⟩
  | cons v q ih =>
    intro t f t' hm
    unfold modifyAt at hm
    revert hm
    cases hl : lookupChild t.nodes v with
    | none => intro hm; exact absurd hm (by simp)
    | some c =>
      intro hm
      have hm2 : (match modifyAt c q f with
          | none => none
          | some c' =>
            some (CSTree.mk t.data (updateChild t.nodes v c') t.min t.max)) =
          some t' := hm
      clear hm
      revert hm2
      cases hmc : modifyAt c q f with
      | none => intro hm2; exact absurd hm2 (by simp)
      | some c' =>
        intro _
        obtain ⟨n, hn⟩ := ih c f c' hmc
        refine ⟨n, ?_⟩
        rw [lookupPath_cons, hl]
        exact hn

lemma modifyAt_NoBoth (Pre : CSTree → Prop) (f : CSTree → CSTree)
    (hf : ∀ n, NoBoth n → Pre n → NoBoth (f n)) :
    ∀ (p : List Nat) (t t' : CSTree), NoBoth t →
      (∀ n, lookupPath t p = some n → Pre n) →
      modifyAt t p f = some t' → NoBoth t' := by
  intro p
  induction p with
  | nil =>
    intro t t' ht hpre hm
    have hm' : some (f t) = some t' := hm
    cases hm'
    exact hf t ht (hpre t rfl)
  | cons v q ih =>
    intro t t' ht hpre hm
    unfold modifyAt at hm
    revert hm
    cases hl : lookupChild t.nodes v with
    | none => intro hm; exact absurd hm (by simp)
    | some c =>
      intro hm
      have hm2 : (match modifyAt c q f with
          | none => none
          | some c' =>
            some (CSTree.mk t.data (updateChild t.nodes v c') t.min t.max)) =
          some t' := hm
      clear hm
      revert hm2
      cases hmc : modifyAt c q f with
      | none => intro hm2; exact absurd hm2 (by simp)
      | some c' =>
        intro hm
        have hm' : some (CSTree.mk t.data (updateChild t.nodes v c') t.min t.max)
            = some t' := hm
        clear hm
        cases hm'
        have hcNB : NoBoth c := ht.child hl
        have hpre' : ∀ n, lookupPath c q = some n → Pre n := by
          intro n hn
          refine hpre n ?_
          rw [lookupPath_cons, hl]
          exact hn
        have hc'NB : NoBoth c' := ih c c' hcNB hpre' hmc
        refine NoBoth_mk ?_ ?_
        · rcases ht.root with hroot | hroot
          · exact Or.inl hroot
          · rw [hroot] at hl
            exact absurd hl (by simp [lookupChild])
        · intro w cw hwc
          rw [lookupChild_updateChild t.nodes v c c' hl w] at hwc
          by_cases hwv : w = v
          · rw [if_pos hwv] at hwc
            cases hwc
            exact hc'NB
          · rw [if_neg hwv] at hwc
            exact ht.child hwc

lemma applyOps_NoBoth : ∀ (ops : List TreeOp) (t t' : CSTree), NoBoth t →
    goodSeq t ops = true → applyOps t ops = some t' → NoBoth t' := by
  intro ops
  induction ops with
  | nil =>
    intro t t' ht _ ha
    have ha' : some t = some t' := ha
    cases ha'
    exact ht
  | cons op ops ih =>
    intro t t' ht hg ha
    unfold applyOps at ha
    revert ha
    cases hap : applyOp t op with
    | none => intro ha; exact absurd ha (by simp)
    | some t1 =>
      intro ha
      unfold goodSeq at hg
      rw [hap] at hg
      rw [Bool.and_eq_true] at hg
      have ht1 : NoBoth t1 := by
        cases op with
        | addChild p v =>
          have hm : modifyAt t p (fun n => addChildNode n v) = some t1 := hap
          obtain ⟨n, hn⟩ := modifyAt_lookup p t _ t1 hm
          have hgo : goodOp t (TreeOp.addChild p v) = true := hg.1
          have hgo2 : (match lookupPath t p with
              | none => true
              | some c => decide (c.data = none)) = true := hgo
          rw [hn] at hgo2
          have hnd : n.data = none := of_decide_eq_true hgo2
          refine modifyAt_NoBoth (fun m => m.data = none)
            (fun m => addChildNode m v)
            (fun m hm hp => addChildNode_NoBoth m v hm hp) p t t1 ht ?_ hm
          intro m hmq
          rw [hn] at hmq
          cases hmq
          exact hnd
        | setData p dd =>
          have hm : modifyAt t p (fun n => (setDataNode n dd).1) = some t1 := hap
          exact modifyAt_NoBoth (fun _ => True)
            (fun m => (setDataNode m dd).1)
            (fun m hm _ => setDataNode_NoBoth m dd hm) p t t1 ht
            (fun _ _ => trivial) hm
      exact ih t1 t' ht1 hg.2 ha

/-- Claim C5 counterexample: `SetData` then `AddChild` on the root yields a
node holding both a payload and a child, and the fresh tree has neither a
payload nor children, refuting both directions of the claimed invariant. -/
theorem tree_invariant_violated :
    applyOps NewCharacterSetEncodingTree
        [TreeOp.setData [] [1], TreeOp.addChild [] 0] =
      some (CSTree.mk (some [1]) [(0, CSTree.mk none [] 0 0)] 0 0) ∧
    ((CSTree.mk (some [1]) [(0, CSTree.mk none [] 0 0)] 0 0 : CSTree).data ≠ none ∧
     (CSTree.mk (some [1]) [(0, CSTree.mk none [] 0 0)] 0 0 : CSTree).nodes ≠ []) ∧
    NewCharacterSetEncodingTree.data = none ∧
    NewCharacterSetEncodingTree.nodes = [] := by
  refine ⟨rfl, ⟨?_, ?_⟩, rfl, rfl⟩
  · show some [1] ≠ none
    simp
  · show [(0, CSTree.mk none [] 0 0)] ≠ []
    simp

/-- Claim C5 (amended): `SetData` succeeds exactly on a node with no
children and no previously-set payload (storing the payload on success and
leaving the node unchanged on failure), and — provided every `AddChild`
call targets a node not already holding a payload, as in the extractor's
usage — no node reachable from the root ever holds both a payload and a
child.  (The unrestricted claim is false: `AddChild` never checks the
payload, see the counterexample.) -/
theorem tree_payload_children_exclusive (ops : List TreeOp) (t' : CSTree)
    (hgood : goodSeq NewCharacterSetEncodingTree ops = true)
    (happ : applyOps NewCharacterSetEncodingTree ops = some t') :
    (∀ (n : CSTree) (d : List Nat),
      ((setDataNode n d).2 = true ↔ (n.nodes = [] ∧ n.data = none)) ∧
      ((setDataNode n d).2 = true →
        (setDataNode n d).1 = CSTree.mk (some d) n.nodes n.min n.max) ∧
      ((setDataNode n d).2 = false → (setDataNode n d).1 = n)) ∧
    NoBoth t' := by
  constructor
  · intro n d
    unfold setDataNode
    by_cases hg : n.nodes.length > 0 ∨ n.data ≠ none
    · rw [if_pos hg]
      refine ⟨?_, ?_, ?_⟩
      · constructor
        · intro hfalse
          exact absurd hfalse (by simp)
        · rintro ⟨h1, h2⟩
          exfalso
          rcases hg with hg | hg
          · rw [h1] at hg
            exact absurd hg (by simp)
          · exact hg h2
      · intro hfalse
        exact absurd hfalse (by simp)
      · intro _
        rfl
    · rw [if_neg hg]
      push_neg at hg
      have hns : n.nodes = [] := List.length_eq_zero.mp (Nat.le_zero.mp hg.1)
      refine ⟨?_, ?_, ?_⟩
      · constructor
        · intro _
          exact ⟨hns, hg.2⟩
        · intro _
          rfl
      · intro _
        rfl
      · intro hfalse
        exact absurd hfalse (by simp)
  · exact applyOps_NoBoth ops NewCharacterSetEncodingTree t' NoBoth_empty hgood happ

/-- Witness for the amended C5 on the op sequence that stores payload `[7]`
beneath child `0` of the root. -/
theorem tree_payload_children_exclusive_witness :
    goodSeq NewCharacterSetEncodingTree
        [TreeOp.addChild [] 0, TreeOp.setData [0] [7]] = true ∧
    applyOps NewCharacterSetEncodingTree
        [TreeOp.addChild [] 0, TreeOp.setData [0] [7]] =
      some (CSTree.mk none [(0, CSTree.mk (some [7]) [] 0 0)] 0 0) ∧
    ((∀ (n : CSTree) (d : List Nat),
      ((setDataNode n d).2 = true ↔ (n.nodes = [] ∧ n.data = none)) ∧
      ((setDataNode n d).2 = true →
        (setDataNode n d).1 = CSTree.mk (some d) n.nodes n.min n.max) ∧
      ((setDataNode n d).2 = false → (setDataNode n d).1 = n)) ∧
    NoBoth (CSTree.mk none [(0, CSTree.mk (some [7]) [] 0 0)] 0 0)) :=
  ⟨rfl, rfl,
   tree_payload_children_exclusive
     [TreeOp.addChild [] 0, TreeOp.setData [0] [7]]
     (CSTree.mk none [(0, CSTree.mk (some [7]) [] 0 0)] 0 0) rfl rfl⟩

/-- Witness for C8 on the concrete rows `[[0, 1, 2], [5]]`: the hypothesis
holds and the covered-union part places the inserted code point `1` in some
range. -/
theorem compressor_ranges_correct_witness :
    ([[0, 1, 2], [5]] : List (List Int)).flatten.Nodup ∧
    ((∃ d ∈ (buildDynamics (buildStatics (rowsPairs
        ([[0, 1, 2], [5]] : List (List Int))))).2,
        d.Lower ≤ (1 : Int) ∧ (1 : Int) ≤ d.Upper) ∨
     (∃ s ∈ (buildDynamics (buildStatics (rowsPairs
        ([[0, 1, 2], [5]] : List (List Int))))).1,
        s.Lower ≤ (1 : Int) ∧ (1 : Int) ≤ s.Upper)) :=
  ⟨by decide,
   ((compressor_ranges_correct [[0, 1, 2], [5]] (by decide)).2.1 1).mpr (by decide)⟩

/-! ## CharacterSetEncodingIterator
(`Iterator` / `CharacterSetEncodingIterator.Next` in
src/utils/character_set_encoding_tree.go) -/

/-- Go `CharacterSetEncodingIterator`: the parallel `trees`/`progress`
stacks are fused into pairs, stored top-first with the top split off so
the stack is never empty (the root is only popped by bumping `depth`). -/
structure IterState where
  top : CSTree × Nat
  rest : List (CSTree × Nat)
  depth : Nat

/-- Result of one iteration of the `Next` loop body: return `false`, return
an encoding pair, or continue. -/
inductive StepRes where
  | done
  | emit (p : List Nat × List Nat) (s : IterState)
  | silent (s : IterState)

/-- The progress-beyond-max branch of `Next`: at level 0 bump the depth and
reset progress to the root's min; otherwise pop and increment the parent's
progress. -/
def popState (t : CSTree) (rest : List (CSTree × Nat)) (depth : Nat) : IterState :=
  match rest with
  | [] => ⟨(t, t.min), [], depth + 1⟩
  | (t0, p0) :: rest0 => ⟨(t0, p0 + 1), rest0, depth⟩

/-- One iteration of the `for` loop in `CharacterSetEncodingIterator.Next`. -/
def step : IterState → StepRes
  | ⟨(t, pr), rest, depth⟩ =>
    if depth ≥ 4 then StepRes.done
    else if pr > t.max then StepRes.silent (popState t rest depth)
    else
      match lookupChild t.nodes pr with
      | none => StepRes.silent ⟨(t, pr + 1), rest, depth⟩
      | some sub =>
        if rest.length = depth then
          match sub.data, sub.nodes with
          | some dat, [] =>
            StepRes.emit (((t, pr) :: rest).reverse.map Prod.snd, dat)
              ⟨(t, pr + 1), rest, depth⟩
          | _, _ => StepRes.silent ⟨(t, pr + 1), rest, depth⟩
        else
          match sub.nodes with
          | [] => StepRes.silent ⟨(t, pr + 1), rest, depth⟩
          | _ :: _ => StepRes.silent ⟨(sub, sub.min), (t, pr) :: rest, depth⟩

/-- Go `Iterator()`: root on the stack, progress at the root's min,
depth 0. -/
def initIter (t : CSTree) : IterState := ⟨(t, t.min), [], 0⟩

/-- Drive `Next` to completion with fuel, collecting every emitted pair:
`some l` when the iterator reaches its `ok=false` return having emitted
`l`, `none` when the fuel ran out first. -/
def runIterO : Nat → IterState → Option (List (List Nat × List Nat))
  | 0, _ => none
  | fu + 1, s =>
    match step s with
    | StepRes.done => some []
    | StepRes.emit p s' => (runIterO fu s').map (fun l => p :: l)
    | StepRes.silent s' => runIterO fu s'

/-- Reference enumeration: the pairs contributed by byte `p` of node `t`,
with `d` further bytes to descend. -/
def emitOf : Nat → CSTree → Nat → List (List Nat × List Nat)
  | 0, t, p =>
    (match lookupChild t.nodes p with
     | none => []
     | some sub =>
       match sub.data, sub.nodes with
       | some dat, [] => [([p], dat)]
       | _, _ => [])
  | d + 1, t, p =>
    (match lookupChild t.nodes p with
     | none => []
     | some sub =>
       ((List.range' sub.min (sub.max + 1 - sub.min)).flatMap (emitOf d sub)).map
         (fun pr => (p :: pr.1, pr.2)))

/-- All pairs of byte-length `d + 1`, in lexicographic order. -/
def enumAtDepth (t : CSTree) (d : Nat) : List (List Nat × List Nat) :=
  (List.range' t.min (t.max + 1 - t.min)).flatMap (emitOf d t)

/-- The full expected output: lengths 1 to 4, shortest first, lexicographic
within a length. -/
def enumList (t : CSTree) : List (List Nat × List Nat) :=
  (List.range 4).flatMap (fun d => enumAtDepth t d)

/-- Key sanity to the given depth: every child key of every node within
`fu` levels lies in the node's cached `[min, max]` byte range (with the
byte fields themselves byte-sized), as holds for every tree built through
`AddChild`. -/
def keysOK : Nat → CSTree → Bool
  | 0, _ => true
  | fu + 1, t =>
    decide (t.min ≤ 255) && decide (t.max ≤ 255) &&
      t.nodes.all (fun p => decide (t.min ≤ p.1) && decide (p.1 ≤ t.max) &&
        keysOK fu p.2)

lemma runIterO_succ (fu : Nat) (s : IterState) :
    runIterO (fu + 1) s =
      match step s with
      | StepRes.done => some []
      | StepRes.emit p s' => (runIterO fu s').map (fun l => p :: l)
      | StepRes.silent s' => runIterO fu s' := rfl

lemma runIterO_done {s : IterState} (h : step s = StepRes.done) (fu : Nat) :
    runIterO (fu + 1) s = some [] := by
  rw [runIterO_succ, h]

lemma runIterO_emit {s s' : IterState} {p : List Nat × List Nat}
    (h : step s = StepRes.emit p s') (fu : Nat) :
    runIterO (fu + 1) s = (runIterO fu s').map (fun l => p :: l) := by
  rw [runIterO_succ, h]

lemma runIterO_silent {s s' : IterState} (h : step s = StepRes.silent s') (fu : Nat) :
    runIterO (fu + 1) s = runIterO fu s' := by
  rw [runIterO_succ, h]

lemma step_eq (t : CSTree) (pr : Nat) (rest : List (CSTree × Nat)) (depth : Nat) :
    step ⟨(t, pr), rest, depth⟩ =
      (if depth ≥ 4 then StepRes.done
       else if pr > t.max then StepRes.silent (popState t rest depth)
       else
         match lookupChild t.nodes pr with
         | none => StepRes.silent ⟨(t, pr + 1), rest, depth⟩
         | some sub =>
           if rest.length = depth then
             match sub.data, sub.nodes with
             | some dat, [] =>
               StepRes.emit (((t, pr) :: rest).reverse.map Prod.snd, dat)
                 ⟨(t, pr + 1), rest, depth⟩
             | _, _ => StepRes.silent ⟨(t, pr + 1), rest, depth⟩
           else
             match sub.nodes with
             | [] => StepRes.silent ⟨(t, pr + 1), rest, depth⟩
             | _ :: _ => StepRes.silent ⟨(sub, sub.min), (t, pr) :: rest, depth⟩) := rfl

lemma step_done {t : CSTree} {pr : Nat} {rest : List (CSTree × Nat)} {depth : Nat}
    (h4 : 4 ≤ depth) : step ⟨(t, pr), rest, depth⟩ = StepRes.done := by
  rw [step_eq]
  rw [if_pos h4]

lemma step_pop {t : CSTree} {pr : Nat} {rest : List (CSTree × Nat)} {depth : Nat}
    (h4 : depth < 4) (hmax : t.max < pr) :
    step ⟨(t, pr), rest, depth⟩ = StepRes.silent (popState t rest depth) := by
  rw [step_eq]
  rw [if_neg (by omega), if_pos (by omega)]

lemma step_nochild {t : CSTree} {pr : Nat} {rest : List (CSTree × Nat)} {depth : Nat}
    (h4 : depth < 4) (hmax : pr ≤ t.max) (hlc : lookupChild t.nodes pr = none) :
    step ⟨(t, pr), rest, depth⟩ = StepRes.silent ⟨(t, pr + 1), rest, depth⟩ := by
  rw [step_eq]
  rw [if_neg (by omega), if_neg (by omega)]
  simp only [hlc]

lemma step_emit {t : CSTree} {pr : Nat} {rest : List (CSTree × Nat)} {depth : Nat}
    {sub : CSTree} {dat : List Nat}
    (h4 : depth < 4) (hmax : pr ≤ t.max) (hlc : lookupChild t.nodes pr = some sub)
    (hlen : rest.length = depth) (hsd : sub.data = some dat) (hsn : sub.nodes = []) :
    step ⟨(t, pr), rest, depth⟩ =
      StepRes.emit (((t, pr) :: rest).reverse.map Prod.snd, dat)
        ⟨(t, pr + 1), rest, depth⟩ := by
  rw [step_eq]
  rw [if_neg (by omega), if_neg (by omega)]
  simp only [hlc, if_pos hlen, hsd, hsn]

lemma step_skip_nodata {t : CSTree} {pr : Nat} {rest : List (CSTree × Nat)}
    {depth : Nat} {sub : CSTree}
    (h4 : depth < 4) (hmax : pr ≤ t.max) (hlc : lookupChild t.nodes pr = some sub)
    (hlen : rest.length = depth) (hsd : sub.data = none) :
    step ⟨(t, pr), rest, depth⟩ = StepRes.silent ⟨(t, pr + 1), rest, depth⟩ := by
  rw [step_eq]
  rw [if_neg (by omega), if_neg (by omega)]
  simp only [hlc, if_pos hlen, hsd]

lemma step_skip_notleaf {t : CSTree} {pr : Nat} {rest : List (CSTree × Nat)}
    {depth : Nat} {sub : CSTree} {dat : List Nat} {x : Nat × CSTree}
    {xs : List (Nat × CSTree)}
    (h4 : depth < 4) (hmax : pr ≤ t.max) (hlc : lookupChild t.nodes pr = some sub)
    (hlen : rest.length = depth) (hsd : sub.data = some dat)
    (hsn : sub.nodes = x :: xs) :
    step ⟨(t, pr), rest, depth⟩ = StepRes.silent ⟨(t, pr + 1), rest, depth⟩ := by
  rw [step_eq]
  rw [if_neg (by omega), if_neg (by omega)]
  simp only [hlc, if_pos hlen, hsd, hsn]

lemma step_skip_childless {t : CSTree} {pr : Nat} {rest : List (CSTree × Nat)}
    {depth : Nat} {sub : CSTree}
    (h4 : depth < 4) (hmax : pr ≤ t.max) (hlc : lookupChild t.nodes pr = some sub)
    (hlen : rest.length ≠ depth) (hsn : sub.nodes = []) :
    step ⟨(t, pr), rest, depth⟩ = StepRes.silent ⟨(t, pr + 1), rest, depth⟩ := by
  rw [step_eq]
  rw [if_neg (by omega), if_neg (by omega)]
  simp only [hlc, if_neg hlen, hsn]

lemma step_push {t : CSTree} {pr : Nat} {rest : List (CSTree × Nat)}
    {depth : Nat} {sub : CSTree} {x : Nat × CSTree} {xs : List (Nat × CSTree)}
    (h4 : depth < 4) (hmax : pr ≤ t.max) (hlc : lookupChild t.nodes pr = some sub)
    (hlen : rest.length ≠ depth) (hsn : sub.nodes = x :: xs) :
    step ⟨(t, pr), rest, depth⟩ =
      StepRes.silent ⟨(sub, sub.min), (t, pr) :: rest, depth⟩ := by
  rw [step_eq]
  rw [if_neg (by omega), if_neg (by omega)]
  simp only [hlc, if_neg hlen, hsn]

lemma emitOf_nochild (d : Nat) (t : CSTree) (p : Nat)
    (h : lookupChild t.nodes p = none) : emitOf d t p = [] := by
  cases d <;> (unfold emitOf; simp only [h])

lemma emitOf_zero_nodata (t : CSTree) (p : Nat) (sub : CSTree)
    (h : lookupChild t.nodes p = some sub) (hsd : sub.data = none) :
    emitOf 0 t p = [] := by
  unfold emitOf
  simp only [h, hsd]

lemma emitOf_zero_notleaf (t : CSTree) (p : Nat) (sub : CSTree) (x : Nat × CSTree)
    (xs : List (Nat × CSTree)) (h : lookupChild t.nodes p = some sub)
    (hsn : sub.nodes = x :: xs) : emitOf 0 t p = [] := by
  unfold emitOf
  simp only [h, hsn]
  cases sub.data <;> rfl

lemma emitOf_zero_leaf (t : CSTree) (p : Nat) (sub : CSTree) (dat : List Nat)
    (h : lookupChild t.nodes p = some sub) (hsd : sub.data = some dat)
    (hsn : sub.nodes = []) : emitOf 0 t p = [([p], dat)] := by
  unfold emitOf
  simp only [h, hsd, hsn]

lemma emitOf_succ_some (d : Nat) (t : CSTree) (p : Nat) (sub : CSTree)
    (h : lookupChild t.nodes p = some sub) :
    emitOf (d + 1) t p =
      ((List.range' sub.min (sub.max + 1 - sub.min)).flatMap (emitOf d sub)).map
        (fun pr => (p :: pr.1, pr.2)) := by
  unfold emitOf
  simp only [h]

lemma flatMap_nil_of {α β : Type} (l : List α) (f : α → List β)
    (h : ∀ x, f x = []) : l.flatMap f = [] := by
  induction l with
  | nil => rfl
  | cons a l ih => simp [List.flatMap_cons, h a, ih]

lemma emitOf_succ_emptyNodes (d : Nat) (t : CSTree) (p : Nat) (sub : CSTree)
    (h : lookupChild t.nodes p = some sub) (hsn : sub.nodes = []) :
    emitOf (d + 1) t p = [] := by
  rw [emitOf_succ_some d t p sub h]
  rw [flatMap_nil_of _ _ (fun q => emitOf_nochild d sub q (by rw [hsn]; rfl))]
  rfl

lemma map_cons_prefix {o : Option (List (List Nat × List Nat))}
    {A : List (List Nat × List Nat)} {pr : List Nat × List Nat} :
    (o.map (fun l => A ++ l)).map (fun l => pr :: l) =
      o.map (fun l => (pr :: A) ++ l) := by
  cases o <;> simp

lemma map_prefix_prefix {o : Option (List (List Nat × List Nat))}
    {A B : List (List Nat × List Nat)} :
    (o.map (fun l => A ++ l)).map (fun l => B ++ l) =
      o.map (fun l => (B ++ A) ++ l) := by
  cases o <;> simp

lemma scan_empty (d : Nat) (t : CSTree) (p : Nat) (hp : t.max < p)
    (rest : List (CSTree × Nat)) (depth : Nat) (h4 : depth < 4) (F : Nat) :
    runIterO (1 + F) ⟨(t, p), rest, depth⟩ =
      (runIterO F (popState t rest depth)).map
        (fun l => ((List.range' p (t.max + 1 - p)).flatMap (emitOf d t)).map
          (fun pr => (rest.reverse.map Prod.snd ++ pr.1, pr.2)) ++ l) := by
  rw [show 1 + F = F + 1 by omega]
  rw [runIterO_silent (step_pop h4 hp)]
  rw [show t.max + 1 - p = 0 by omega]
  cases runIterO F (popState t rest depth) <;> simp

/-- Core simulation: scanning the current level from progress `p` emits the
reference enumeration of the remaining range, then continues from the
popped state. -/
lemma scan_run : ∀ (d : Nat) (t : CSTree) (k : Nat), ∀ (p : Nat),
    t.max + 1 - p ≤ k →
    ∀ (rest : List (CSTree × Nat)) (depth : Nat), depth < 4 →
      rest.length + d = depth →
    ∃ n, ∀ F, runIterO (n + F) ⟨(t, p), rest, depth⟩ =
      (runIterO F (popState t rest depth)).map
        (fun l => ((List.range' p (t.max + 1 - p)).flatMap (emitOf d t)).map
          (fun pr => (rest.reverse.map Prod.snd ++ pr.1, pr.2)) ++ l) := by
  intro d
  induction d with
  | zero =>
    intro t k
    induction k with
    | zero =>
      intro p hk rest depth h4 hlen
      exact ⟨1, fun F => scan_empty 0 t p (by omega) rest depth h4 F⟩
    | succ k ihk =>
      intro p hk rest depth h4 hlen
      by_cases hpm : t.max < p
      · exact ⟨1, fun F => scan_empty 0 t p hpm rest depth h4 F⟩
      · push_neg at hpm
        have hrange : List.range' p (t.max + 1 - p) =
            p :: List.range' (p + 1) (t.max + 1 - (p + 1)) := by
          rw [show t.max + 1 - p = (t.max + 1 - (p + 1)) + 1 by omega]
          rw [List.range'_succ]
        have hlen0 : rest.length = depth := by omega
        obtain ⟨n, hn⟩ := ihk (p + 1) (by omega) rest depth h4 hlen
        cases hlc : lookupChild t.nodes p with
        | none =>
          refine ⟨n + 1, ?_⟩
          intro F
          rw [show n + 1 + F = (n + F) + 1 by omega]
          rw [runIterO_silent (step_nochild h4 hpm hlc)]
          rw [hn F, hrange, List.flatMap_cons, emitOf_nochild 0 t p hlc,
            List.nil_append]
        | some sub =>
          cases hsd : sub.data with
          | none =>
            refine ⟨n + 1, ?_⟩
            intro F
            rw [show n + 1 + F = (n + F) + 1 by omega]
            rw [runIterO_silent (step_skip_nodata h4 hpm hlc hlen0 hsd)]
            rw [hn F, hrange, List.flatMap_cons,
              emitOf_zero_nodata t p sub hlc hsd, List.nil_append]
          | some dat =>
            cases hsn : sub.nodes with
            | cons x xs =>
              refine ⟨n + 1, ?_⟩
              intro F
              rw [show n + 1 + F = (n + F) + 1 by omega]
              rw [runIterO_silent (step_skip_notleaf h4 hpm hlc hlen0 hsd hsn)]
              rw [hn F, hrange, List.flatMap_cons,
                emitOf_zero_notleaf t p sub x xs hlc hsn, List.nil_append]
            | nil =>
              refine ⟨n + 1, ?_⟩
              intro F
              rw [show n + 1 + F = (n + F) + 1 by omega]
              rw [runIterO_emit (step_emit h4 hpm hlc hlen0 hsd hsn)]
              rw [hn F, map_cons_prefix]
              rw [hrange, List.flatMap_cons, emitOf_zero_leaf t p sub dat hlc hsd hsn]
              have hpair : ((t, p) :: rest).reverse.map Prod.snd =
                  rest.reverse.map Prod.snd ++ [p] := by
                rw [List.reverse_cons, List.map_append]
                rfl
              cases runIterO F (popState t rest depth) <;>
                simp [hpair, List.map_append]
  | succ d ihd =>
    intro t k
    induction k with
    | zero =>
      intro p hk rest depth h4 hlen
      exact ⟨1, fun F => scan_empty (d + 1) t p (by omega) rest depth h4 F⟩
    | succ k ihk =>
      intro p hk rest depth h4 hlen
      by_cases hpm : t.max < p
      · exact ⟨1, fun F => scan_empty (d + 1) t p hpm rest depth h4 F⟩
      · push_neg at hpm
        have hrange : List.range' p (t.max + 1 - p) =
            p :: List.range' (p + 1) (t.max + 1 - (p + 1)) := by
          rw [show t.max + 1 - p = (t.max + 1 - (p + 1)) + 1 by omega]
          rw [List.range'_succ]
        have hlenne : rest.length ≠ depth := by omega
        obtain ⟨n, hn⟩ := ihk (p + 1) (by omega) rest depth h4 hlen
        cases hlc : lookupChild t.nodes p with
        | none =>
          refine ⟨n + 1, ?_⟩
          intro F
          rw [show n + 1 + F = (n + F) + 1 by omega]
          rw [runIterO_silent (step_nochild h4 hpm hlc)]
          rw [hn F, hrange, List.flatMap_cons, emitOf_nochild (d + 1) t p hlc,
            List.nil_append]
        | some sub =>
          cases hsn : sub.nodes with
          | nil =>
            refine ⟨n + 1, ?_⟩
            intro F
            rw [show n + 1 + F = (n + F) + 1 by omega]
            rw [runIterO_silent (step_skip_childless h4 hpm hlc hlenne hsn)]
            rw [hn F, hrange, List.flatMap_cons,
              emitOf_succ_emptyNodes d t p sub hlc hsn, List.nil_append]
          | cons x xs =>
            obtain ⟨n1, h1⟩ := ihd sub (sub.max + 1 - sub.min) sub.min (le_refl _)
              ((t, p) :: rest) depth h4
              (by simp only [List.length_cons]; omega)
            refine ⟨1 + n1 + n, ?_⟩
            intro F
            rw [show 1 + n1 + n + F = (n1 + (n + F)) + 1 by omega]
            rw [runIterO_silent (step_push h4 hpm hlc hlenne hsn)]
            rw [h1 (n + F)]
            rw [show popState sub ((t, p) :: rest) depth =
              ⟨(t, p + 1), rest, depth⟩ from rfl]
            rw [hn F, map_prefix_prefix]
            have hpair : ((t, p) :: rest).reverse.map Prod.snd =
                rest.reverse.map Prod.snd ++ [p] := by
              rw [List.reverse_cons, List.map_append]
              rfl
            have hC : ((List.range' sub.min (sub.max + 1 - sub.min)).flatMap
                (emitOf d sub)).map (fun pr =>
                  (((t, p) :: rest).reverse.map Prod.snd ++ pr.1, pr.2)) =
                (emitOf (d + 1) t p).map (fun pr =>
                  (rest.reverse.map Prod.snd ++ pr.1, pr.2)) := by
              rw [emitOf_succ_some d t p sub hlc, List.map_map]
              have hfun : ((fun (pr : List Nat × List Nat) =>
                  (rest.reverse.map Prod.snd ++ pr.1, pr.2)) ∘
                    (fun (pr : List Nat × List Nat) => (p :: pr.1, pr.2))) =
                  (fun (pr : List Nat × List Nat) =>
                    (((t, p) :: rest).reverse.map Prod.snd ++ pr.1, pr.2)) := by
                funext pr
                show (rest.reverse.map Prod.snd ++ (p :: pr.1), pr.2) = _
                rw [hpair, List.append_assoc]
                rfl
              rw [hfun]
            rw [hC, hrange, List.flatMap_cons, List.map_append]

lemma map_empty_prefix (L : List (List Nat × List Nat)) :
    L.map (fun pr =>
      (([] : List (CSTree × Nat)).reverse.map Prod.snd ++ pr.1, pr.2)) = L := by
  simp

/-- Running the iterator from `Iterator()` with enough fuel terminates with
`ok = false` having produced exactly the reference enumeration. -/
lemma runIter_full (t : CSTree) :
    ∃ N, ∀ F, runIterO (N + F) (initIter t) = some (enumList t) := by
  obtain ⟨n0, h0⟩ := scan_run 0 t (t.max + 1 - t.min) t.min (le_refl _) [] 0
    (by omega) rfl
  obtain ⟨n1, h1⟩ := scan_run 1 t (t.max + 1 - t.min) t.min (le_refl _) [] 1
    (by omega) rfl
  obtain ⟨n2, h2⟩ := scan_run 2 t (t.max + 1 - t.min) t.min (le_refl _) [] 2
    (by omega) rfl
  obtain ⟨n3, h3⟩ := scan_run 3 t (t.max + 1 - t.min) t.min (le_refl _) [] 3
    (by omega) rfl
  refine ⟨n0 + n1 + n2 + n3 + 1, ?_⟩
  intro F
  show runIterO (n0 + n1 + n2 + n3 + 1 + F) (⟨(t, t.min), [], 0⟩ : IterState) =
    some (enumList t)
  rw [show n0 + n1 + n2 + n3 + 1 + F = n0 + (n1 + (n2 + (n3 + (F + 1))))
    from by omega]
  rw [h0 (n1 + (n2 + (n3 + (F + 1))))]
  rw [show popState t [] 0 = (⟨(t, t.min), [], 1⟩ : IterState) from rfl]
  rw [h1 (n2 + (n3 + (F + 1))), map_prefix_prefix]
  rw [show popState t [] 1 = (⟨(t, t.min), [], 2⟩ : IterState) from rfl]
  rw [h2 (n3 + (F + 1)), map_prefix_prefix]
  rw [show popState t [] 2 = (⟨(t, t.min), [], 3⟩ : IterState) from rfl]
  rw [h3 (F + 1), map_prefix_prefix]
  rw [show popState t [] 3 = (⟨(t, t.min), [], 4⟩ : IterState) from rfl]
  rw [runIterO_done (step_done (by omega)) F]
  simp only [Option.map_some, map_empty_prefix, List.append_nil]
  rw [show enumList t =
    enumAtDepth t 0 ++ (enumAtDepth t 1 ++ (enumAtDepth t 2 ++
      (enumAtDepth t 3 ++ []))) from rfl]
  unfold enumAtDepth
  simp [List.append_assoc]

lemma lookupChild_mem : ∀ (ns : List (Nat × CSTree)) (v : Nat) (c : CSTree),
    lookupChild ns v = some c → (v, c) ∈ ns := by
  intro ns
  induction ns with
  | nil =>
    intro v c h
    simp [lookupChild] at h
  | cons p rest ih =>
    intro v c h
    obtain ⟨u, x⟩ := p
    simp only [lookupChild] at h
    by_cases huv : u = v
    · rw [if_pos huv] at h
      cases h
      subst huv
      exact List.mem_cons_self _ _
    · rw [if_neg huv] at h
      exact List.mem_cons_of_mem _ (ih v c h)

lemma keysOK_succ (fu : Nat) (t : CSTree) (h : keysOK (fu + 1) t = true) :
    t.min ≤ 255 ∧ t.max ≤ 255 ∧
      ∀ v c, (v, c) ∈ t.nodes → t.min ≤ v ∧ v ≤ t.max ∧ keysOK fu c = true := by
  unfold keysOK at h
  rw [Bool.and_eq_true, Bool.and_eq_true] at h
  obtain ⟨⟨h1, h2⟩, h3⟩ := h
  refine ⟨of_decide_eq_true h1, of_decide_eq_true h2, ?_⟩
  intro v c hvc
  have h4 := List.all_eq_true.mp h3 (v, c) hvc
  rw [Bool.and_eq_true, Bool.and_eq_true] at h4
  exact ⟨of_decide_eq_true h4.1.1, of_decide_eq_true h4.1.2, h4.2⟩

lemma keysOK_build (fu : Nat) (t : CSTree)
    (h1 : t.min ≤ 255) (h2 : t.max ≤ 255)
    (h3 : ∀ v c, (v, c) ∈ t.nodes → t.min ≤ v ∧ v ≤ t.max ∧ keysOK fu c = true) :
    keysOK (fu + 1) t = true := by
  unfold keysOK
  rw [Bool.and_eq_true, Bool.and_eq_true]
  refine ⟨⟨decide_eq_true h1, decide_eq_true h2⟩, ?_⟩
  refine List.all_eq_true.mpr ?_
  intro x hx
  obtain ⟨hb1, hb2, hk⟩ := h3 x.1 x.2 hx
  rw [Bool.and_eq_true, Bool.and_eq_true]
  exact ⟨⟨decide_eq_true hb1, decide_eq_true hb2⟩, hk⟩

lemma keysOK_down : ∀ (n : Nat) (t : CSTree),
    keysOK (n + 1) t = true → keysOK n t = true := by
  intro n
  induction n with
  | zero =>
    intro t _
    rfl
  | succ m ih =>
    intro t h
    obtain ⟨h1, h2, h3⟩ := keysOK_succ (m + 1) t h
    refine keysOK_build m t h1 h2 ?_
    intro v c hvc
    obtain ⟨hb1, hb2, hk⟩ := h3 v c hvc
    exact ⟨hb1, hb2, ih c hk⟩

lemma emitOf_shape : ∀ (d : Nat) (t : CSTree) (p : Nat) (pr : List Nat × List Nat),
    pr ∈ emitOf d t p → ∃ q, pr.1 = p :: q ∧ q.length = d := by
  intro d
  induction d with
  | zero =>
    intro t p pr h
    cases hlc : lookupChild t.nodes p with
    | none =>
      rw [emitOf_nochild 0 t p hlc] at h
      simp at h
    | some sub =>
      cases hsd : sub.data with
      | none =>
        rw [emitOf_zero_nodata t p sub hlc hsd] at h
        simp at h
      | some dat =>
        cases hsn : sub.nodes with
        | cons x xs =>
          rw [emitOf_zero_notleaf t p sub x xs hlc hsn] at h
          simp at h
        | nil =>
          rw [emitOf_zero_leaf t p sub dat hlc hsd hsn, List.mem_singleton] at h
          subst h
          exact ⟨[], rfl, rfl⟩
  | succ d ih =>
    intro t p pr h
    cases hlc : lookupChild t.nodes p with
    | none =>
      rw [emitOf_nochild (d + 1) t p hlc] at h
      simp at h
    | some sub =>
      rw [emitOf_succ_some d t p sub hlc] at h
      obtain ⟨pr', hpr', heq⟩ := List.mem_map.mp h
      obtain ⟨p2, hp2, hm2⟩ := List.mem_flatMap.mp hpr'
      obtain ⟨q2, hq1, hq2⟩ := ih sub p2 pr' hm2
      subst heq
      refine ⟨pr'.1, rfl, ?_⟩
      rw [hq1]
      simp [hq2]

lemma emitOf_mem : ∀ (d : Nat) (t : CSTree), keysOK (d + 1) t = true →
    ∀ (p : Nat) (pr o : List Nat),
    ((pr, o) ∈ emitOf d t p ↔
      ∃ q, pr = p :: q ∧ q.length = d ∧
        ∃ c, lookupPath t (p :: q) = some c ∧ c.data = some o ∧ c.nodes = []) := by
  intro d
  induction d with
  | zero =>
    intro t hk p pr o
    cases hlc : lookupChild t.nodes p with
    | none =>
      rw [emitOf_nochild 0 t p hlc]
      constructor
      · intro h
        exact absurd h (List.not_mem_nil _)
      · rintro ⟨q, hq, hqlen, c, hlp, hcd, hcn⟩
        rw [lookupPath_cons, hlc] at hlp
        exact absurd hlp (by simp)
    | some sub =>
      cases hsd : sub.data with
      | none =>
        rw [emitOf_zero_nodata t p sub hlc hsd]
        constructor
        · intro h
          exact absurd h (List.not_mem_nil _)
        · rintro ⟨q, hq, hqlen, c, hlp, hcd, hcn⟩
          have hq0 : q = [] := List.length_eq_zero.mp hqlen
          subst hq0
          rw [lookupPath_cons, hlc] at hlp
          have hlp' : some sub = some c := hlp
          cases hlp'
          rw [hsd] at hcd
          exact absurd hcd (by simp)
      | some dat =>
        cases hsn : sub.nodes with
        | cons x xs =>
          rw [emitOf_zero_notleaf t p sub x xs hlc hsn]
          constructor
          · intro h
            exact absurd h (List.not_mem_nil _)
          · rintro ⟨q, hq, hqlen, c, hlp, hcd, hcn⟩
            have hq0 : q = [] := List.length_eq_zero.mp hqlen
            subst hq0
            rw [lookupPath_cons, hlc] at hlp
            have hlp' : some sub = some c := hlp
            cases hlp'
            rw [hsn] at hcn
            exact absurd hcn (by simp)
        | nil =>
          rw [emitOf_zero_leaf t p sub dat hlc hsd hsn]
          constructor
          · intro h
            rw [List.mem_singleton] at h
            injection h with h1 h2
            refine ⟨[], h1, rfl, sub, ?_, ?_, hsn⟩
            · rw [lookupPath_cons, hlc]
              rfl
            · rw [hsd, h2]
          · rintro ⟨q, hq, hqlen, c, hlp, hcd, hcn⟩
            have hq0 : q = [] := List.length_eq_zero.mp hqlen
            subst hq0
            rw [lookupPath_cons, hlc] at hlp
            have hlp' : some sub = some c := hlp
            cases hlp'
            rw [hsd] at hcd
            have ho : o = dat := by
              injection hcd with hh
              exact hh.symm
            rw [List.mem_singleton, hq, ho]
  | succ d ih =>
    intro t hk p pr o
    cases hlc : lookupChild t.nodes p with
    | none =>
      rw [emitOf_nochild (d + 1) t p hlc]
      constructor
      · intro h
        exact absurd h (List.not_mem_nil _)
      · rintro ⟨q, hq, hqlen, c, hlp, hcd, hcn⟩
        rw [lookupPath_cons, hlc] at hlp
        exact absurd hlp (by simp)
    | some sub =>
      have hsubk : keysOK (d + 1) sub = true := by
        obtain ⟨-, -, h3⟩ := keysOK_succ (d + 1) t hk
        exact (h3 p sub (lookupChild_mem _ _ _ hlc)).2.2
      obtain ⟨-, -, hbounds⟩ := keysOK_succ d sub hsubk
      rw [emitOf_succ_some d t p sub hlc]
      constructor
      · intro h
        obtain ⟨pr', hpr', heq⟩ := List.mem_map.mp h
        obtain ⟨p2, hp2, hm2⟩ := List.mem_flatMap.mp hpr'
        injection heq with he1 he2
        obtain ⟨q2, hq1, hq2, c, hlpc, hcd, hcn⟩ :=
          (ih sub hsubk p2 pr'.1 pr'.2).mp hm2
        refine ⟨p2 :: q2, ?_, ?_, c, ?_, ?_, hcn⟩
        · rw [← he1, hq1]
        · simp [hq2]
        · rw [lookupPath_cons, hlc]
          exact hlpc
        · rw [← he2]
          exact hcd
      · rintro ⟨q, hq, hqlen, c, hlp, hcd, hcn⟩
        cases q with
        | nil => simp at hqlen
        | cons p2 q2 =>
          rw [lookupPath_cons, hlc] at hlp
          have hlp2 : lookupPath sub (p2 :: q2) = some c := hlp
          have hchild : ∃ c0, lookupChild sub.nodes p2 = some c0 := by
            rw [lookupPath_cons] at hlp2
            revert hlp2
            cases hcc : lookupChild sub.nodes p2 with
            | none => intro hlp2; exact absurd hlp2 (by simp)
            | some c0 => intro _; exact ⟨c0, rfl⟩
          obtain ⟨c0, hc0⟩ := hchild
          obtain ⟨hb1, hb2, -⟩ := hbounds p2 c0 (lookupChild_mem _ _ _ hc0)
          refine List.mem_map.mpr ⟨(p2 :: q2, o), ?_, ?_⟩
          · refine List.mem_flatMap.mpr ⟨p2, ?_, ?_⟩
            · rw [List.mem_range'_1]
              exact ⟨hb1, by omega⟩
            · refine (ih sub hsubk p2 (p2 :: q2) o).mpr
                ⟨q2, rfl, ?_, c, ?_, hcd, hcn⟩
              · have h5 := hqlen
                simp only [List.length_cons] at h5
                omega
              · exact hlp2
          · rw [hq]

lemma enumAtDepth_mem (d : Nat) (t : CSTree) (hk : keysOK (d + 1) t = true)
    (pr o : List Nat) :
    ((pr, o) ∈ enumAtDepth t d ↔
      pr.length = d + 1 ∧
        ∃ c, lookupPath t pr = some c ∧ c.data = some o ∧ c.nodes = []) := by
  unfold enumAtDepth
  rw [List.mem_flatMap]
  constructor
  · rintro ⟨p, hp, hm⟩
    obtain ⟨q, hq, hqlen, c, hlp, hcd, hcn⟩ := (emitOf_mem d t hk p pr o).mp hm
    subst hq
    exact ⟨by simp [hqlen], c, hlp, hcd, hcn⟩
  · rintro ⟨hlen, c, hlp, hcd, hcn⟩
    cases pr with
    | nil => simp at hlen
    | cons p q =>
      have hchild : ∃ c0, lookupChild t.nodes p = some c0 := by
        rw [lookupPath_cons] at hlp
        revert hlp
        cases hcc : lookupChild t.nodes p with
        | none => intro hlp; exact absurd hlp (by simp)
        | some c0 => intro _; exact ⟨c0, rfl⟩
      obtain ⟨c0, hc0⟩ := hchild
      obtain ⟨-, -, hbounds⟩ := keysOK_succ d t hk
      obtain ⟨hb1, hb2, -⟩ := hbounds p c0 (lookupChild_mem _ _ _ hc0)
      refine ⟨p, ?_, ?_⟩
      · rw [List.mem_range'_1]
        exact ⟨hb1, by omega⟩
      · refine (emitOf_mem d t hk p (p :: q) o).mpr ⟨q, rfl, ?_, c, hlp, hcd, hcn⟩
        have h5 := hlen
        simp only [List.length_cons] at h5
        omega

lemma lex_irrefl : ∀ (l : List Nat), ¬ List.Lex (· < ·) l l := by
  intro l
  induction l with
  | nil =>
    intro h
    cases h
  | cons a l ih =>
    intro h
    cases h with
    | cons h1 => exact ih h1
    | rel h1 => exact absurd h1 (lt_irrefl a)

lemma flatMap_lex_sorted (f : Nat → List (List Nat × List Nat))
    (hf : ∀ p, (f p).Pairwise (fun a b => List.Lex (· < ·) a.1 b.1))
    (hshape : ∀ p pr, pr ∈ f p → ∃ q, pr.1 = p :: q) :
    ∀ (n s : Nat), ((List.range' s n).flatMap f).Pairwise
      (fun a b => List.Lex (· < ·) a.1 b.1) := by
  intro n
  induction n with
  | zero =>
    intro s
    simp
  | succ m ih =>
    intro s
    rw [List.range'_succ, List.flatMap_cons, List.pairwise_append]
    refine ⟨hf s, ih (s + 1), ?_⟩
    intro a ha b hb
    obtain ⟨qa, hqa⟩ := hshape s a ha
    obtain ⟨p2, hp2, hb2⟩ := List.mem_flatMap.mp hb
    obtain ⟨qb, hqb⟩ := hshape p2 b hb2
    have hlt : s < p2 := by
      have h5 := (List.mem_range'_1.mp hp2).1
      omega
    rw [hqa, hqb]
    exact List.Lex.rel hlt

lemma emitOf_sorted : ∀ (d : Nat) (t : CSTree) (p : Nat),
    (emitOf d t p).Pairwise (fun a b => List.Lex (· < ·) a.1 b.1) := by
  intro d
  induction d with
  | zero =>
    intro t p
    cases hlc : lookupChild t.nodes p with
    | none =>
      rw [emitOf_nochild 0 t p hlc]
      exact List.Pairwise.nil
    | some sub =>
      cases hsd : sub.data with
      | none =>
        rw [emitOf_zero_nodata t p sub hlc hsd]
        exact List.Pairwise.nil
      | some dat =>
        cases hsn : sub.nodes with
        | cons x xs =>
          rw [emitOf_zero_notleaf t p sub x xs hlc hsn]
          exact List.Pairwise.nil
        | nil =>
          rw [emitOf_zero_leaf t p sub dat hlc hsd hsn]
          simp
  | succ d ih =>
    intro t p
    cases hlc : lookupChild t.nodes p with
    | none =>
      rw [emitOf_nochild (d + 1) t p hlc]
      exact List.Pairwise.nil
    | some sub =>
      rw [emitOf_succ_some d t p sub hlc]
      rw [List.pairwise_map]
      refine (flatMap_lex_sorted (emitOf d sub) (ih sub)
        (fun q2 pr2 hm2 => (emitOf_shape d sub q2 pr2 hm2).imp (fun a h => h.1))
        (sub.max + 1 - sub.min) sub.min).imp ?_
      intro a b hab
      exact List.Lex.cons hab

lemma enumAtDepth_sorted (t : CSTree) (d : Nat) :
    (enumAtDepth t d).Pairwise (fun a b => List.Lex (· < ·) a.1 b.1) :=
  flatMap_lex_sorted (emitOf d t) (fun p => emitOf_sorted d t p)
    (fun p pr hm => (emitOf_shape d t p pr hm).imp (fun _ h => h.1)) _ _

lemma enumAtDepth_len (t : CSTree) (d : Nat) (pr : List Nat × List Nat)
    (h : pr ∈ enumAtDepth t d) : pr.1.length = d + 1 := by
  obtain ⟨p, hp, hm⟩ := List.mem_flatMap.mp h
  obtain ⟨q, hq1, hq2⟩ := emitOf_shape d t p pr hm
  rw [hq1]
  simp [hq2]

lemma flatMap_pathLT (g : Nat → List (List Nat × List Nat))
    (hg : ∀ d, (g d).Pairwise (fun a b => List.Lex (· < ·) a.1 b.1))
    (hlen : ∀ d pr, pr ∈ g d → pr.1.length = d + 1) :
    ∀ (n s : Nat), ((List.range' s n).flatMap g).Pairwise
      (fun a b => a.1.length < b.1.length ∨
        (a.1.length = b.1.length ∧ List.Lex (· < ·) a.1 b.1)) := by
  intro n
  induction n with
  | zero =>
    intro s
    simp
  | succ m ih =>
    intro s
    rw [List.range'_succ, List.flatMap_cons, List.pairwise_append]
    refine ⟨?_, ih (s + 1), ?_⟩
    · refine (hg s).imp_of_mem ?_
      intro a b ha hb hab
      exact Or.inr ⟨by rw [hlen s a ha, hlen s b hb], hab⟩
    · intro a ha b hb
      obtain ⟨d2, hd2, hb2⟩ := List.mem_flatMap.mp hb
      have h2 : s < d2 := by
        have h5 := (List.mem_range'_1.mp hd2).1
        omega
      refine Or.inl ?_
      rw [hlen s a ha, hlen d2 b hb2]
      omega

lemma enumList_sorted (t : CSTree) :
    (enumList t).Pairwise (fun a b => a.1.length < b.1.length ∨
      (a.1.length = b.1.length ∧ List.Lex (· < ·) a.1 b.1)) := by
  unfold enumList
  rw [List.range_eq_range']
  exact flatMap_pathLT (fun d => enumAtDepth t d) (enumAtDepth_sorted t)
    (fun d pr h => enumAtDepth_len t d pr h) 4 0

/-- Claim C7: for every encoding tree with the `min`/`max` bookkeeping
`AddChild` maintains (`keysOK`), the iterator — run from `Iterator()` to
its `ok = false` return — emits exactly the `(inputBytes, payload)` pairs
stored at data leaves reachable in 1 to 4 bytes, each exactly once, sorted
by byte-length first and lexicographic byte order within a length. -/
theorem iterator_enumeration (t : CSTree) (hwf : keysOK 5 t = true) :
    (∃ N, ∀ F, N ≤ F → runIterO F (initIter t) = some (enumList t)) ∧
    (∀ pr o : List Nat, ((pr, o) ∈ enumList t ↔
      1 ≤ pr.length ∧ pr.length ≤ 4 ∧
        ∃ c, lookupPath t pr = some c ∧ c.data = some o ∧ c.nodes = [])) ∧
    (enumList t).Pairwise (fun a b => a.1.length < b.1.length ∨
      (a.1.length = b.1.length ∧ List.Lex (· < ·) a.1 b.1)) ∧
    (enumList t).Nodup := by
  have k4 : keysOK 4 t = true := keysOK_down 4 t hwf
  have k3 : keysOK 3 t = true := keysOK_down 3 t k4
  have k2 : keysOK 2 t = true := keysOK_down 2 t k3
  have k1 : keysOK 1 t = true := keysOK_down 1 t k2
  refine ⟨?_, ?_, enumList_sorted t, ?_⟩
  · obtain ⟨N, hN⟩ := runIter_full t
    refine ⟨N, fun F hF => ?_⟩
    rw [show F = N + (F - N) from by omega]
    exact hN (F - N)
  · intro pr o
    constructor
    · intro h
      unfold enumList at h
      obtain ⟨d, hd, hm⟩ := List.mem_flatMap.mp h
      have hd4 : d < 4 := List.mem_range.mp hd
      have hdk : keysOK (d + 1) t = true := by
        interval_cases d
        · exact k1
        · exact k2
        · exact k3
        · exact k4
      obtain ⟨hlen, c, hc⟩ := (enumAtDepth_mem d t hdk pr o).mp hm
      exact ⟨by omega, by omega, c, hc⟩
    · rintro ⟨h1, h4, c, hc⟩
      unfold enumList
      refine List.mem_flatMap.mpr ⟨pr.length - 1, List.mem_range.mpr (by omega), ?_⟩
      have hdk : keysOK (pr.length - 1 + 1) t = true := by
        rw [show pr.length - 1 + 1 = pr.length from by omega]
        have h5 : pr.length = 1 ∨ pr.length = 2 ∨ pr.length = 3 ∨
            pr.length = 4 := by omega
        rcases h5 with h5 | h5 | h5 | h5 <;> rw [h5]
        · exact k1
        · exact k2
        · exact k3
        · exact k4
      exact (enumAtDepth_mem (pr.length - 1) t hdk pr o).mpr ⟨by omega, c, hc⟩
  · refine (enumList_sorted t).imp_of_mem ?_
    intro a b ha hb hab heq
    subst heq
    rcases hab with hab | hab
    · omega
    · exact lex_irrefl a.1 hab.2

/-- Witness for C7 on a two-level tree: payload `[5]` at path `[1]` and
payload `[9]` at path `[0, 2]`. -/
theorem iterator_enumeration_witness :
    keysOK 5 (CSTree.mk none
      [(1, CSTree.mk (some [5]) [] 0 0),
       (0, CSTree.mk none [(2, CSTree.mk (some [9]) [] 2 2)] 2 2)] 0 1) = true ∧
    ((∃ N, ∀ F, N ≤ F → runIterO F (initIter (CSTree.mk none
        [(1, CSTree.mk (some [5]) [] 0 0),
         (0, CSTree.mk none [(2, CSTree.mk (some [9]) [] 2 2)] 2 2)] 0 1)) =
      some (enumList (CSTree.mk none
        [(1, CSTree.mk (some [5]) [] 0 0),
         (0, CSTree.mk none [(2, CSTree.mk (some [9]) [] 2 2)] 2 2)] 0 1))) ∧
    (∀ pr o : List Nat, ((pr, o) ∈ enumList (CSTree.mk none
        [(1, CSTree.mk (some [5]) [] 0 0),
         (0, CSTree.mk none [(2, CSTree.mk (some [9]) [] 2 2)] 2 2)] 0 1) ↔
      1 ≤ pr.length ∧ pr.length ≤ 4 ∧
        ∃ c, lookupPath (CSTree.mk none
          [(1, CSTree.mk (some [5]) [] 0 0),
           (0, CSTree.mk none [(2, CSTree.mk (some [9]) [] 2 2)] 2 2)] 0 1)
            pr = some c ∧ c.data = some o ∧ c.nodes = [])) ∧
    (enumList (CSTree.mk none
      [(1, CSTree.mk (some [5]) [] 0 0),
       (0, CSTree.mk none [(2, CSTree.mk (some [9]) [] 2 2)] 2 2)] 0 1)).Pairwise
        (fun a b => a.1.length < b.1.length ∨
          (a.1.length = b.1.length ∧ List.Lex (· < ·) a.1 b.1)) ∧
    (enumList (CSTree.mk none
      [(1, CSTree.mk (some [5]) [] 0 0),
       (0, CSTree.mk none [(2, CSTree.mk (some [9]) [] 2 2)] 2 2)] 0 1)).Nodup) :=
  ⟨rfl, iterator_enumeration _ rfl⟩

end CollationExtractor
